import Mathlib

/-!
TinyComp: the code-generation support layer.

A shallow embedding of `tinycomp.cpp` / `tinycomp.hpp` / `tinycomp.h`.

Conventions of the embedding.

* C++ objects that are never mutated after construction (`ConstAddress`,
  `VarAddress`, `TempAddress`, `InstrAddress`) are values; a pointer to one of
  them that may be `NULL` is an `Option`.
* `TacInstr` objects are mutated in place (`setValueNumber`, `patch`) and are
  shared between the code array and the jump lists, so they live in an explicit
  heap: a `TacInstr*` is an index into the list of all `TacInstr` objects
  allocated so far, and `new TacInstr(..)` appends to that list.
* A run that aborts on a failed `assert`, or that has undefined behaviour
  (dereferencing an invalid pointer, indexing an array out of bounds, signed
  overflow of an `int`, copying outside an allocated block), yields a `Fault`.
* The data model is LP64: `sizeof(int) = sizeof(float) = 4`, pointers are 8 bytes.
-/

namespace TinyComp

/-! ## Faults -/

/-- The two ways a call can fail to return. -/
inductive Fault where
  /-- An `assert(..)` failed: the run is aborted. -/
  | assertion
  /-- Undefined behaviour of the C++ abstract machine. -/
  | undefined
  deriving DecidableEq

/-- Largest value of a 32-bit `int`. -/
def INT_MAX : Int := 2147483647

/-- Smallest value of a 32-bit `int`. -/
def INT_MIN : Int := -2147483648

/-- The result of an `int` computation is representable. -/
def inIntRange (v : Int) : Prop := INT_MIN ≤ v ∧ v ≤ INT_MAX

instance (v : Int) : Decidable (inIntRange v) := by
  unfold inIntRange; exact inferInstance

/-- Value of `sizeof(int)`. -/
def sizeofInt : Int := 4

/-- Value of `sizeof(float)`. -/
def sizeofFloat : Int := 4

/-- Value of `sizeof(unsigned char*)`. -/
def sizeofPtr : Nat := 8

/-! ## tinycomp.h -/

/-- The type system, `typeName` of tinycomp.h. -/
inductive typeName where
  | intType
  | floatType
  | fractionType
  deriving DecidableEq

/-- The struct `fraction` of tinycomp.h. -/
structure fraction where
  num : Int
  denom : Int
  deriving DecidableEq

/-- The operators of the three-address code, `oprEnum` of tinycomp.h. -/
inductive oprEnum where
  | UNKNOWNOpr
  | haltOpr
  | copyOpr
  | addOpr
  | mulOpr
  | divOpr
  | indexCopyOpr
  | offsetOpr
  | jmpOpr
  | eq1condJmpOpr
  | eq2condJmpOpr
  | fakeOpr
  deriving DecidableEq

/-! ## Addresses -/

/-- The union `val` of a `ConstAddress`; a float is kept as its 32-bit pattern. -/
inductive ConstVal where
  | i (v : Int)
  | f (bits : Nat)
  | frac (v : fraction)
  deriving DecidableEq

/-- The class `ConstAddress`. -/
structure ConstAddress where
  type : typeName
  val : ConstVal
  deriving DecidableEq

/-- The class `VarAddress`. -/
structure VarAddress where
  lexeme : Char
  type : typeName
  width : Int
  offset : Int
  deriving DecidableEq

/-- The class `TempAddress`. -/
structure TempAddress where
  name : Int
  offset : Int
  deriving DecidableEq

/-- The class `InstrAddress`. -/
structure InstrAddress where
  arrayCodeIndex : Int
  deriving DecidableEq

/-- An object of one of the four classes derived from `Address`. -/
inductive Address where
  | const (a : ConstAddress)
  | var (a : VarAddress)
  | temp (a : TempAddress)
  | instr (a : InstrAddress)
  deriving DecidableEq

/-! ## Three-address instructions -/

/-- The class `TacInstr`.  The slots `temp` and `destInstr` are declared
`TempAddress*` and `InstrAddress*`, but the constructor fills them from an
`Address*` through an unchecked C cast, so either can point to any `Address`. -/
structure TacInstr where
  valueNumber : Option InstrAddress
  op : oprEnum
  operand1 : Option Address
  operand2 : Option Address
  temp : Option Address
  destInstr : Option Address
  deriving DecidableEq

/-- The condition asserted by `TacInstr::patch` and `BoolAttr::addTrue`:
`getOp() == jmpOpr || getOp() == eq1condJmpOpr || getOp() == eq2condJmpOpr`. -/
def jumpClass (op : oprEnum) : Prop :=
  op = oprEnum.jmpOpr ∨ op = oprEnum.eq1condJmpOpr ∨ op = oprEnum.eq2condJmpOpr

instance (op : oprEnum) : Decidable (jumpClass op) := by
  unfold jumpClass; exact inferInstance

/-- The constructor `TacInstr::TacInstr(op, operand1, operand2, operand3)`. -/
def TacInstr.new (op : oprEnum) (operand1 operand2 operand3 : Option Address) : TacInstr :=
  match op with
  | oprEnum.jmpOpr | oprEnum.eq1condJmpOpr =>
    { valueNumber := none, op := op, operand1 := operand1, operand2 := operand2,
      temp := none, destInstr := operand3 }
  | oprEnum.eq2condJmpOpr =>
    { valueNumber := none, op := op, operand1 := operand1, operand2 := operand2,
      temp := none, destInstr := operand3 }
  | _ =>
    { valueNumber := none, op := op, operand1 := operand1, operand2 := operand2,
      temp := operand3, destInstr := none }

/-- The method `TacInstr::setValueNumber(vn)`, on the object itself. -/
def TacInstr.setValueNumber (t : TacInstr) (vn : Int) : TacInstr :=
  { t with valueNumber := some (InstrAddress.mk vn) }

/-- The method `TacInstr::getValueNumber()`. -/
def TacInstr.getValueNumber (t : TacInstr) : Option InstrAddress := t.valueNumber

/-- The method `TacInstr::getOp()`. -/
def TacInstr.getOp (t : TacInstr) : oprEnum := t.op

/-- The method `this->patch(i)` on the heap of instructions: the assertion on
the opcode of `this`, then `this->destInstr = i->getValueNumber()`. -/
def TacInstr.patch (heap : List TacInstr) (this i : Nat) : Except Fault (List TacInstr) :=
  match heap[this]? with
  | none => Except.error Fault.undefined
  | some t =>
    if jumpClass t.getOp then
      match heap[i]? with
      | none => Except.error Fault.undefined
      | some tgt =>
        Except.ok (heap.set this { t with destInstr := tgt.getValueNumber.map Address.instr })
    else Except.error Fault.assertion

/-! ## The code buffer -/

/-- Number of entries of `TargetCode::codeArray`. -/
def CODESIZE : Nat := 1000

/-- The class `TargetCode`: the array of instruction pointers (`none` is `NULL`)
and `nextInstr`.  `nextInstr` is an `int` that starts at 0 and is only ever
incremented by `gen`, below the array bound, so it is a natural number. -/
structure TargetCode where
  codeArray : Nat → Option Nat
  nextInstr : Nat

/-- The state the code generator works on: all `TacInstr` objects allocated so
far and the code buffer. -/
structure CodeState where
  heap : List TacInstr
  code : TargetCode

/-- The constructor `TargetCode::TargetCode()`: it sets `nextInstr = 0` and leaves
`codeArray` as it finds it (`garbage`). -/
def TargetCode.new (garbage : Nat → Option Nat) : TargetCode :=
  { codeArray := garbage, nextInstr := 0 }

/-- A freshly constructed code buffer, next to the instructions `heap0` that
were allocated before. -/
def CodeState.fresh (heap0 : List TacInstr) (garbage : Nat → Option Nat) : CodeState :=
  { heap := heap0, code := TargetCode.new garbage }

/-- The method `TargetCode::getNextInstr()`. -/
def TargetCode.getNextInstr (c : TargetCode) : Int := c.nextInstr

/-- The method `TargetCode::getInstr(i)`: `codeArray[i]`. -/
def TargetCode.getInstr (c : TargetCode) (i : Int) : Except Fault (Option Nat) :=
  if 0 ≤ i ∧ i < CODESIZE then Except.ok (c.codeArray i.toNat) else Except.error Fault.undefined

/-- The private method `TargetCode::gen(TacInstr* instr)`. -/
def TargetCode.genInstr (s : CodeState) (instr : Nat) : Except Fault (Nat × CodeState) :=
  match s.heap[instr]? with
  | none => Except.error Fault.undefined
  | some t =>
    if s.code.nextInstr < CODESIZE then
      Except.ok (instr,
        { heap := s.heap.set instr (t.setValueNumber s.code.nextInstr),
          code :=
            { codeArray := fun j => if j = s.code.nextInstr then some instr else s.code.codeArray j,
              nextInstr := s.code.nextInstr + 1 } })
    else Except.error Fault.undefined

/-- The method `TargetCode::gen(op, operand1, operand2, operand3)`:
`gen(new TacInstr(op, operand1, operand2, operand3))`. -/
def TargetCode.gen (s : CodeState) (op : oprEnum) (operand1 operand2 operand3 : Option Address) :
    Except Fault (Nat × CodeState) :=
  TargetCode.genInstr
    { heap := s.heap ++ [TacInstr.new op operand1 operand2 operand3], code := s.code }
    s.heap.length

/-- The method `TargetCode::gen(op, operand1, operand2)`:
`gen(new TacInstr(op, operand1, operand2, NULL))`. -/
def TargetCode.gen3 (s : CodeState) (op : oprEnum) (operand1 operand2 : Option Address) :
    Except Fault (Nat × CodeState) :=
  TargetCode.genInstr
    { heap := s.heap ++ [TacInstr.new op operand1 operand2 none], code := s.code }
    s.heap.length

/-- The loop of `TargetCode::backpatch` over the list. -/
def backpatchLoop (heap : List TacInstr) (i : Nat) : List Nat → Except Fault (List TacInstr)
  | [] => Except.ok heap
  | p :: rest =>
    match TacInstr.patch heap p i with
    | Except.error e => Except.error e
    | Except.ok heap1 => backpatchLoop heap1 i rest

/-- The method `TargetCode::backpatch(l, i)`. -/
def TargetCode.backpatch (s : CodeState) (l : List Nat) (i : Nat) : Except Fault CodeState :=
  match backpatchLoop s.heap i l with
  | Except.error e => Except.error e
  | Except.ok heap1 => Except.ok { heap := heap1, code := s.code }

/-- One call of one of the two public overloads of `gen`. -/
inductive GenCall where
  | three (op : oprEnum) (operand1 operand2 : Option Address)
  | four (op : oprEnum) (operand1 operand2 operand3 : Option Address)

/-- Performs one call of `gen`. -/
def GenCall.run (s : CodeState) : GenCall → Except Fault (Nat × CodeState)
  | GenCall.three op a b => TargetCode.gen3 s op a b
  | GenCall.four op a b c => TargetCode.gen s op a b c

/-- Performs a sequence of `gen` calls, in order. -/
def runGens (s : CodeState) : List GenCall → Except Fault CodeState
  | [] => Except.ok s
  | c :: cs =>
    match c.run s with
    | Except.error e => Except.error e
    | Except.ok r => runGens r.2 cs

/-- The code buffer states reached from a freshly constructed `TargetCode` by
calls of `gen` and of `backpatch` that return. -/
inductive Reachable (heap0 : List TacInstr) (garbage : Nat → Option Nat) : CodeState → Prop where
  | fresh : Reachable heap0 garbage (CodeState.fresh heap0 garbage)
  | gen (s s1 : CodeState) (c : GenCall) (p : Nat) :
      Reachable heap0 garbage s → c.run s = Except.ok (p, s1) → Reachable heap0 garbage s1
  | backpatch (s s1 : CodeState) (l : List Nat) (i : Nat) :
      Reachable heap0 garbage s → TargetCode.backpatch s l i = Except.ok s1 →
      Reachable heap0 garbage s1

/-! ## The memory simulator -/

/-- An `unsigned char`. -/
abbrev Byte := Fin 256

/-- The constant `Memory::MEMSIZE`. -/
def MEMSIZE : Nat := 128

/-- Size in bytes of the block that the constructor `Memory::Memory()` allocates:
`malloc(MEMSIZE * sizeof(unsigned char*))`. -/
def storageBytes : Nat := MEMSIZE * sizeofPtr

/-- The class `Memory`: the allocated block, the cursor `offset`, and the two
logs `temporaries` and `tempwidths`. -/
structure Memory where
  storage : Nat → Byte
  offset : Int
  temporaries : List TempAddress
  tempwidths : List Int

/-- The constructor `Memory::Memory()`: a block with indeterminate contents
(`garbage`) and `offset = 0`. -/
def Memory.new (garbage : Nat → Byte) : Memory :=
  { storage := garbage, offset := 0, temporaries := [], tempwidths := [] }

/-- The library function `memcpy(dst + start, src, n)`, for `n` at most the
length of `src`. -/
def memcpy (dst : Nat → Byte) (start : Nat) (src : List Byte) (n : Nat) : Nat → Byte :=
  fun a => if start ≤ a ∧ a < start + n then src.getD (a - start) 0 else dst a

/-- The method `Memory::store(val, width)`; `val` is the object pointed to, as
bytes.  The copy is defined when it reads inside `val` and writes inside the
allocated block.  Returns `oldoffset`. -/
def Memory.store (m : Memory) (val : List Byte) (width : Int) : Except Fault (Int × Memory) :=
  if 0 ≤ width ∧ width ≤ val.length ∧ 0 ≤ m.offset ∧ m.offset + width ≤ storageBytes then
    Except.ok (m.offset,
      { storage := memcpy m.storage m.offset.toNat val width.toNat,
        offset := m.offset + width,
        temporaries := m.temporaries,
        tempwidths := m.tempwidths })
  else Except.error Fault.undefined

/-- The method `Memory::retrieve(offset)`: the pointer `storage + offset`, as an
index into the block. -/
def Memory.retrieve (_m : Memory) (offset : Int) : Except Fault Nat :=
  if 0 ≤ offset ∧ offset ≤ storageBytes then Except.ok offset.toNat
  else Except.error Fault.undefined

/-- Reads `w` bytes through a pointer into the block. -/
def Memory.readBytes (m : Memory) (ptr : Nat) (w : Nat) : Except Fault (List Byte) :=
  if ptr + w ≤ storageBytes then Except.ok ((List.range w).map (fun j => m.storage (ptr + j)))
  else Except.error Fault.undefined

/-- The process-wide state: the static member `TempAddress::counter` and the
singleton returned by `Memory::getInstance()`. -/
structure Process where
  counter : Int
  mem : Memory

/-- The constructor `TempAddress::TempAddress(offset)`: `name = counter++`.
Returns the object and the new value of the counter. -/
def TempAddress.new (counter : Int) (offset : Int) : Except Fault (TempAddress × Int) :=
  if inIntRange (counter + 1) then
    Except.ok ({ name := counter, offset := offset }, counter + 1)
  else Except.error Fault.undefined

/-- The method `Memory::getNewTemp(width)`. -/
def Memory.getNewTemp (ps : Process) (width : Int) : Except Fault (TempAddress × Process) :=
  if inIntRange (ps.mem.offset + width) then
    match TempAddress.new ps.counter ps.mem.offset with
    | Except.error e => Except.error e
    | Except.ok r =>
      Except.ok (r.1,
        { counter := r.2,
          mem :=
            { storage := ps.mem.storage,
              offset := ps.mem.offset + width,
              temporaries := ps.mem.temporaries ++ [r.1],
              tempwidths := ps.mem.tempwidths ++ [width] } })
  else Except.error Fault.undefined

/-! ## The symbol table -/

/-- The constructor `VarAddress::VarAddress(v, t, o)`. -/
def VarAddress.new (v : Char) (t : typeName) (o : Int) : VarAddress :=
  { lexeme := v,
    type := t,
    width :=
      match t with
      | typeName.intType => sizeofInt
      | typeName.floatType => sizeofFloat
      | typeName.fractionType => 8,
    offset := o }

/-- The method `VarAddress::getType()`. -/
def VarAddress.getType (v : VarAddress) : typeName := v.type

/-- The method `VarAddress::getWidth()`. -/
def VarAddress.getWidth (v : VarAddress) : Int := v.width

/-- The method `VarAddress::getOffset()`. -/
def VarAddress.getOffset (v : VarAddress) : Int := v.offset

/-- The method `TempAddress::getOffset()`. -/
def TempAddress.getOffset (t : TempAddress) : Int := t.offset

/-- The four bytes of an `int`, least significant first. -/
def intBytes (v : Int) : List Byte :=
  [Fin.ofNat (v % 256).toNat, Fin.ofNat ((v / 256) % 256).toNat,
   Fin.ofNat ((v / 65536) % 256).toNat, Fin.ofNat ((v / 16777216) % 256).toNat]

/-- The four bytes of the `float` zero. -/
def floatZeroBytes : List Byte := [0, 0, 0, 0]

/-- The eight bytes of a `fraction`: `num`, then `denom`. -/
def fractionBytes (f : fraction) : List Byte := intBytes f.num ++ intBytes f.denom

/-- Number of entries of `SimpleArraySymTbl::sym`. -/
def SYMSIZE : Nat := 26

/-- The class `SimpleArraySymTbl`: the array `sym` (`none` is `NULL`). -/
structure SimpleArraySymTbl where
  sym : Nat → Option VarAddress

/-- The constructor `SimpleArraySymTbl::SimpleArraySymTbl()`. -/
def SimpleArraySymTbl.new : SimpleArraySymTbl := { sym := fun _ => none }

/-- The expression `lexeme - 'a'`. -/
def symIndex (lexeme : Char) : Int := (lexeme.toNat : Int) - ('a'.toNat : Int)

/-- The method `SimpleArraySymTbl::get(char lexeme)`. -/
def SimpleArraySymTbl.get (tbl : SimpleArraySymTbl) (lexeme : Char) :
    Except Fault (Option VarAddress) :=
  if 0 ≤ symIndex lexeme ∧ symIndex lexeme < SYMSIZE then
    Except.ok (tbl.sym (symIndex lexeme).toNat)
  else Except.error Fault.undefined

/-- The `switch` of `SimpleArraySymTbl::put`: stores the default value of the type. -/
def storeDefault (m : Memory) (type : typeName) : Except Fault (Int × Memory) :=
  match type with
  | typeName.intType => m.store (intBytes 0) sizeofInt
  | typeName.floatType => m.store floatZeroBytes sizeofFloat
  | typeName.fractionType => m.store (fractionBytes { num := 1, denom := 1 }) (2 * sizeofInt)

/-- The method `SimpleArraySymTbl::put(char lexeme, typeName type)`. -/
def SimpleArraySymTbl.put (tbl : SimpleArraySymTbl) (ps : Process) (lexeme : Char)
    (type : typeName) : Except Fault (SimpleArraySymTbl × Process) :=
  match storeDefault ps.mem type with
  | Except.error e => Except.error e
  | Except.ok r =>
    if 0 ≤ symIndex lexeme ∧ symIndex lexeme < SYMSIZE then
      Except.ok
        ({ sym := fun j =>
             if j = (symIndex lexeme).toNat then some (VarAddress.new lexeme type r.1)
             else tbl.sym j },
         { counter := ps.counter, mem := r.2 })
    else Except.error Fault.undefined

/-! ## Runs of allocating calls -/

/-- A call that allocates memory: a declaration or a request for a temporary. -/
inductive AllocCall where
  | put (lexeme : Char) (type : typeName)
  | getNewTemp (width : Int)

/-- The symbol table, the process-wide state, and the record of every Variable
created so far, in order of creation (those no longer in the table included). -/
structure AllocState where
  tbl : SimpleArraySymTbl
  ps : Process
  created : List VarAddress

/-- An empty symbol table next to a fresh memory. -/
def AllocState.fresh (garbage : Nat → Byte) (counter0 : Int) : AllocState :=
  { tbl := SimpleArraySymTbl.new,
    ps := { counter := counter0, mem := Memory.new garbage },
    created := [] }

/-- Performs one allocating call.  The Variable that a `put` creates is read back
from the table entry it was written to. -/
def AllocCall.run (st : AllocState) : AllocCall → Except Fault AllocState
  | AllocCall.put lexeme type =>
    match st.tbl.put st.ps lexeme type with
    | Except.error e => Except.error e
    | Except.ok r =>
      match r.1.get lexeme with
      | Except.ok (some v) => Except.ok { tbl := r.1, ps := r.2, created := st.created ++ [v] }
      | Except.ok none => Except.ok { tbl := r.1, ps := r.2, created := st.created }
      | Except.error e => Except.error e
  | AllocCall.getNewTemp width =>
    match Memory.getNewTemp st.ps width with
    | Except.error e => Except.error e
    | Except.ok r => Except.ok { tbl := st.tbl, ps := r.2, created := st.created }

/-- Performs a sequence of allocating calls, in order. -/
def runAllocs (st : AllocState) : List AllocCall → Except Fault AllocState
  | [] => Except.ok st
  | c :: cs =>
    match c.run st with
    | Except.error e => Except.error e
    | Except.ok st1 => runAllocs st1 cs

/-- A byte range `[lo, hi)`. -/
structure ByteRange where
  lo : Int
  hi : Int
  deriving DecidableEq

/-- Two byte ranges have no byte in common. -/
def ByteRange.disjoint (a b : ByteRange) : Prop := a.hi ≤ b.lo ∨ b.hi ≤ a.lo

instance (a b : ByteRange) : Decidable (ByteRange.disjoint a b) := by
  unfold ByteRange.disjoint; exact inferInstance

/-- The byte range `[offset, offset + width)` of a Variable. -/
def VarAddress.range (v : VarAddress) : ByteRange :=
  { lo := v.getOffset, hi := v.getOffset + v.getWidth }

/-- The byte ranges of the Temporaries of the log, each with the width logged
for it. -/
def Memory.tempRanges (m : Memory) : List ByteRange :=
  List.zipWith (fun t w => { lo := t.getOffset, hi := t.getOffset + w }) m.temporaries m.tempwidths

/-- All byte ranges handed out so far: those of the Variables created, then
those of the Temporaries. -/
def AllocState.ranges (st : AllocState) : List ByteRange :=
  st.created.map VarAddress.range ++ st.ps.mem.tempRanges

/-- The calls the allocation claims range over: a lexeme in `'a'..'z'`, a
positive width. -/
def AllocCall.wellFormed : AllocCall → Prop
  | AllocCall.put lexeme _ => 'a' ≤ lexeme ∧ lexeme ≤ 'z'
  | AllocCall.getNewTemp width => 0 < width

instance (c : AllocCall) : Decidable c.wellFormed := by
  cases c <;> (unfold AllocCall.wellFormed; exact inferInstance)

/-- Number of bytes a call requests. -/
def AllocCall.bytes : AllocCall → Int
  | AllocCall.put lexeme type => (VarAddress.new lexeme type 0).getWidth
  | AllocCall.getNewTemp width => width

/-- Number of bytes a sequence of calls requests. -/
def totalBytes (calls : List AllocCall) : Int := (calls.map AllocCall.bytes).sum

/-- The widths of the `getNewTemp` calls of a sequence. -/
def tempCalls : List AllocCall → List Int
  | [] => []
  | AllocCall.put _ _ :: cs => tempCalls cs
  | AllocCall.getNewTemp w :: cs => w :: tempCalls cs

/-- The instruction a call of `gen` constructs. -/
def GenCall.instr : GenCall → TacInstr
  | GenCall.three op a b => TacInstr.new op a b none
  | GenCall.four op a b c => TacInstr.new op a b c

/-- The state after a new instruction `t` was allocated and emitted. -/
def CodeState.emit (s : CodeState) (t : TacInstr) : CodeState :=
  { heap := s.heap ++ [t.setValueNumber s.code.nextInstr],
    code :=
      { codeArray := fun j => if j = s.code.nextInstr then some s.heap.length else s.code.codeArray j,
        nextInstr := s.code.nextInstr + 1 } }

/-- The code buffer of the scenario "emit a conditional jump, then Halt". -/
def jumpThenHalt : CodeState :=
  ((CodeState.fresh [] (fun _ => none)).emit
      (TacInstr.new oprEnum.eq1condJmpOpr none none none)).emit
    (TacInstr.new oprEnum.haltOpr none none none)

/-- A memory whose cursor is 4 bytes below `MEMSIZE`, all bytes zero. -/
def memNearFull : Memory :=
  { storage := fun _ => 0, offset := 124, temporaries := [], tempwidths := [] }

/-- A sample run: two declarations, a re-declaration, two temporaries. -/
def sampleAllocs : List AllocCall :=
  [AllocCall.put 'x' typeName.intType, AllocCall.put 'y' typeName.floatType,
   AllocCall.getNewTemp 4, AllocCall.put 'x' typeName.fractionType, AllocCall.getNewTemp 8]

/-- The state after the scenario "allocate two temporaries of width 4 and 8" in
a fresh memory, with the counter starting at 0. -/
def twoTemps : AllocState :=
  { tbl := SimpleArraySymTbl.new,
    ps :=
      { counter := 2,
        mem :=
          { storage := fun _ => 0,
            offset := 12,
            temporaries := [{ name := 0, offset := 0 }, { name := 1, offset := 4 }],
            tempwidths := [4, 8] } },
    created := [] }

/-- The bytes that `put` stores for a variable of the type: the `int` 0, the
`float` 0, the `fraction` with `num = 1` and `denom = 1`. -/
def defaultBytes : typeName → List Byte
  | typeName.intType => intBytes 0
  | typeName.floatType => floatZeroBytes
  | typeName.fractionType => fractionBytes { num := 1, denom := 1 }

/-- The state of the table and of the process after `put(lexeme, type)` returned. -/
def afterPut (tbl : SimpleArraySymTbl) (ps : Process) (lexeme : Char) (type : typeName) :
    SimpleArraySymTbl × Process :=
  ({ sym := fun j =>
       if j = (symIndex lexeme).toNat then some (VarAddress.new lexeme type ps.mem.offset)
       else tbl.sym j },
   { counter := ps.counter,
     mem :=
       { storage := memcpy ps.mem.storage ps.mem.offset.toNat (defaultBytes type)
           (VarAddress.new lexeme type 0).getWidth.toNat,
         offset := ps.mem.offset + (VarAddress.new lexeme type 0).getWidth,
         temporaries := ps.mem.temporaries,
         tempwidths := ps.mem.tempwidths } })

/-- The call declares the lexeme `c`. -/
def AllocCall.declares (c : Char) : AllocCall → Prop
  | AllocCall.put lexeme _ => lexeme = c
  | AllocCall.getNewTemp _ => False

instance (c : Char) (call : AllocCall) : Decidable (call.declares c) := by
  cases call <;> (unfold AllocCall.declares; exact inferInstance)

/-- A call that moves the cursor of the memory: a declaration, a request for a
temporary, or a direct `store`. -/
inductive MemCall where
  | put (lexeme : Char) (type : typeName)
  | getNewTemp (width : Int)
  | store (val : List Byte) (width : Int)

/-- Performs one call on the memory. -/
def MemCall.run (st : AllocState) : MemCall → Except Fault AllocState
  | MemCall.put lexeme type => (AllocCall.put lexeme type).run st
  | MemCall.getNewTemp width => (AllocCall.getNewTemp width).run st
  | MemCall.store val width =>
    match st.ps.mem.store val width with
    | Except.error e => Except.error e
    | Except.ok r =>
      Except.ok { tbl := st.tbl, ps := { counter := st.ps.counter, mem := r.2 },
                  created := st.created }

/-- Performs a sequence of calls on the memory, in order. -/
def runMem (st : AllocState) : List MemCall → Except Fault AllocState
  | [] => Except.ok st
  | c :: cs =>
    match c.run st with
    | Except.error e => Except.error e
    | Except.ok st1 => runMem st1 cs

/-- The calls with defined arguments: a lexeme in `'a'..'z'`, a width that is not
negative, and for `store` an object that has `width` bytes. -/
def MemCall.inDomain : MemCall → Prop
  | MemCall.put lexeme _ => 'a' ≤ lexeme ∧ lexeme ≤ 'z'
  | MemCall.getNewTemp width => 0 ≤ width
  | MemCall.store val width => 0 ≤ width ∧ width ≤ val.length

instance (c : MemCall) : Decidable c.inDomain := by
  cases c <;> (unfold MemCall.inDomain; exact inferInstance)

/-- The call declares the lexeme `c`. -/
def MemCall.declares (c : Char) : MemCall → Prop
  | MemCall.put lexeme _ => lexeme = c
  | MemCall.getNewTemp _ => False
  | MemCall.store _ _ => False

instance (c : Char) (call : MemCall) : Decidable (call.declares c) := by
  cases call <;> (unfold MemCall.declares; exact inferInstance)

/-- Number of bytes by which a call moves the cursor. -/
def MemCall.bytes : MemCall → Int
  | MemCall.put lexeme type => (VarAddress.new lexeme type 0).getWidth
  | MemCall.getNewTemp width => width
  | MemCall.store _ width => width

/-- Number of bytes by which a sequence of calls moves the cursor. -/
def memBytes (calls : List MemCall) : Int := (calls.map MemCall.bytes).sum

/-! ## Rendering -/

/-- The table `opTable`. -/
def opTable : List String :=
  ["UNKNOWN", "HALT", "=", "+", "*", "/", "[]", "[]", "goto", "if==goto", "if=goto", "stat"]

/-- The integer value of an enumerator of `oprEnum`. -/
def oprEnum.toNat : oprEnum → Nat
  | oprEnum.UNKNOWNOpr => 0
  | oprEnum.haltOpr => 1
  | oprEnum.copyOpr => 2
  | oprEnum.addOpr => 3
  | oprEnum.mulOpr => 4
  | oprEnum.divOpr => 5
  | oprEnum.indexCopyOpr => 6
  | oprEnum.offsetOpr => 7
  | oprEnum.jmpOpr => 8
  | oprEnum.eq1condJmpOpr => 9
  | oprEnum.eq2condJmpOpr => 10
  | oprEnum.fakeOpr => 11

/-- The output of `out << opTable[op]`. -/
def printOp (op : oprEnum) : Except Fault (List Char) :=
  match opTable[op.toNat]? with
  | some name => Except.ok name.toList
  | none => Except.error Fault.undefined

/-- The conversion `%d`, which is also the output of `out << i` for an `int`. -/
def decimal (v : Int) : List Char :=
  if v < 0 then '-' :: Nat.toDigits 10 v.natAbs else Nat.toDigits 10 v.toNat

/-- The effect of `setw(n)` on the next output: blanks in front, up to the width `n`. -/
def setw (n : Nat) (text : List Char) : List Char :=
  List.replicate (n - text.length) (Char.ofNat 32) ++ text

/-- The string left by `snprintf(str, size, ..)`: at most `size - 1` characters. -/
def snprintf (size : Nat) (text : List Char) : List Char := text.take (size - 1)

/-- The constructor `ConstAddress::ConstAddress(int i)`. -/
def ConstAddress.ofInt (i : Int) : ConstAddress :=
  { type := typeName.intType, val := ConstVal.i i }

/-- The constructor `ConstAddress::ConstAddress(float f)`, on the bits of `f`. -/
def ConstAddress.ofFloat (bits : Nat) : ConstAddress :=
  { type := typeName.floatType, val := ConstVal.f bits }

/-- The constructor `ConstAddress::ConstAddress(fraction f)`. -/
def ConstAddress.ofFraction (f : fraction) : ConstAddress :=
  { type := typeName.fractionType, val := ConstVal.frac f }

/-- The method `ConstAddress::getType()`. -/
def ConstAddress.getType (a : ConstAddress) : typeName := a.type

/-- The method `ConstAddress::toString()`.  `fmtFloat` is the conversion `%2.2f`
of the C library, on the bits of the float.  Reading a member of the union
other than the one that was set is undefined. -/
def ConstAddress.toString (fmtFloat : Nat → List Char) (a : ConstAddress) :
    Except Fault (List Char) :=
  match a.type, a.val with
  | typeName.intType, ConstVal.i v => Except.ok (snprintf 10 (decimal v))
  | typeName.floatType, ConstVal.f bits => Except.ok (snprintf 10 (fmtFloat bits))
  | typeName.fractionType, ConstVal.frac v =>
    Except.ok (snprintf 10 (decimal v.num ++ '|' :: decimal v.denom))
  | _, _ => Except.error Fault.undefined

/-- The method `VarAddress::toString()`: the string of the one character `lexeme`. -/
def VarAddress.toString (a : VarAddress) : List Char :=
  if a.lexeme.toNat = 0 then [] else [a.lexeme]

/-- The method `TempAddress::toString()`: `sprintf(str, "t%d", name)` into a block
of 5 bytes, which holds the `t`, three more characters and the terminator. -/
def TempAddress.toString (a : TempAddress) : Except Fault (List Char) :=
  if (decimal a.name).length + 2 ≤ 5 then Except.ok ('t' :: decimal a.name)
  else Except.error Fault.undefined

/-- The method `InstrAddress::toString()`. -/
def InstrAddress.toString (a : InstrAddress) : List Char :=
  snprintf 10 ('(' :: (decimal a.arrayCodeIndex ++ [')']))

/-- The virtual method `Address::toString()`. -/
def Address.toString (fmtFloat : Nat → List Char) : Address → Except Fault (List Char)
  | Address.const a => a.toString fmtFloat
  | Address.var a => Except.ok a.toString
  | Address.temp a => a.toString
  | Address.instr a => Except.ok a.toString

/-- The operator `out << addr` for an `Address*`: `out << addr->toString()`. -/
def printAddress (fmtFloat : Nat → List Char) (addr : Option Address) :
    Except Fault (List Char) :=
  match addr with
  | none => Except.error Fault.undefined
  | some a => a.toString fmtFloat

/-- The operator `out << addr` for an `InstrAddress*`: `out << addr->arrayCodeIndex`,
in a field of the width `w` set on the stream. -/
def printInstrAddress (w : Nat) (addr : Option InstrAddress) : Except Fault (List Char) :=
  match addr with
  | none => Except.error Fault.undefined
  | some a => Except.ok (setw w (decimal a.arrayCodeIndex))

/-- The output of `out << instr->temp`: the slot is a `TempAddress*`, printed
through `toString()`; a slot that holds another kind of `Address` is undefined. -/
def printTemp (slot : Option Address) : Except Fault (List Char) :=
  match slot with
  | some (Address.temp a) => a.toString
  | _ => Except.error Fault.undefined

/-- The output of `out << instr->destInstr`: the slot is an `InstrAddress*`; a slot
that holds another kind of `Address` is undefined. -/
def printDest (slot : Option Address) : Except Fault (List Char) :=
  match slot with
  | some (Address.instr a) => printInstrAddress 0 (some a)
  | _ => Except.error Fault.undefined

/-- The output of `out << "text"`. -/
def printText (text : String) : Except Fault (List Char) := Except.ok text.toList

/-- A chain `out << a << b << ..`: the outputs in order, up to the first fault. -/
def printAll : List (Except Fault (List Char)) → Except Fault (List Char)
  | [] => Except.ok []
  | Except.error e :: _ => Except.error e
  | Except.ok text :: rest =>
    match printAll rest with
    | Except.error e => Except.error e
    | Except.ok more => Except.ok (text ++ more)

/-- The operator `out << instr` for a `TacInstr*`. -/
def printTacInstr (fmtFloat : Nat → List Char) (instr : TacInstr) : Except Fault (List Char) :=
  match instr.getOp with
  | oprEnum.copyOpr =>
    if instr.operand1 ≠ none then
      if instr.operand2 = none then
        printAll [printInstrAddress 4 instr.valueNumber, printText ": ", printText "t",
          printInstrAddress 0 instr.valueNumber, printText " = ",
          printAddress fmtFloat instr.operand1]
      else
        printAll [printInstrAddress 4 instr.valueNumber, printText ": ",
          printAddress fmtFloat instr.operand1, printText " = ",
          printAddress fmtFloat instr.operand2]
    else Except.error Fault.assertion
  | oprEnum.fakeOpr =>
    printAll [printInstrAddress 4 instr.valueNumber, printText ": ", printOp instr.op]
  | oprEnum.jmpOpr =>
    if instr.destInstr ≠ none then
      printAll [printInstrAddress 4 instr.valueNumber, printText ": ", printOp instr.op,
        printText " ", printDest instr.destInstr]
    else Except.error Fault.assertion
  | oprEnum.addOpr =>
    if instr.operand1 ≠ none ∧ instr.operand2 ≠ none ∧ instr.temp ≠ none then
      printAll [printInstrAddress 4 instr.valueNumber, printText ": ", printTemp instr.temp,
        printText " = ", printAddress fmtFloat instr.operand1, printText " ",
        printOp instr.op, printText " ", printAddress fmtFloat instr.operand2]
    else Except.error Fault.assertion
  | oprEnum.divOpr =>
    if instr.operand1 ≠ none ∧ instr.operand2 ≠ none ∧ instr.temp ≠ none then
      printAll [printInstrAddress 4 instr.valueNumber, printText ": ", printTemp instr.temp,
        printText " = ", printAddress fmtFloat instr.operand1, printText " ",
        printOp instr.op, printText " ", printAddress fmtFloat instr.operand2]
    else Except.error Fault.assertion
  | oprEnum.indexCopyOpr =>
    if instr.operand1 ≠ none ∧ instr.operand2 ≠ none ∧ instr.temp ≠ none then
      printAll [printInstrAddress 4 instr.valueNumber, printText ": ", printTemp instr.temp,
        printText "[", printAddress fmtFloat instr.operand1, printText "] = ",
        printAddress fmtFloat instr.operand2]
    else Except.error Fault.assertion
  | oprEnum.offsetOpr =>
    if instr.operand1 ≠ none ∧ instr.operand2 ≠ none ∧ instr.temp ≠ none then
      printAll [printInstrAddress 4 instr.valueNumber, printText ": ", printTemp instr.temp,
        printText " = ", printAddress fmtFloat instr.operand1, printText "[",
        printAddress fmtFloat instr.operand2, printText "]"]
    else Except.error Fault.assertion
  | oprEnum.eq1condJmpOpr =>
    if instr.operand1 ≠ none ∧ instr.operand2 ≠ none ∧ instr.destInstr ≠ none then
      printAll [printInstrAddress 4 instr.valueNumber, printText ": ", printText "if ",
        printAddress fmtFloat instr.operand1, printText " == ",
        printAddress fmtFloat instr.operand2, printText " goto ", printDest instr.destInstr]
    else Except.error Fault.assertion
  | oprEnum.eq2condJmpOpr =>
    if instr.operand1 ≠ none ∧ instr.operand2 ≠ none ∧ instr.destInstr ≠ none then
      printAll [printInstrAddress 4 instr.valueNumber, printText ": ", printText "if ",
        printAddress fmtFloat instr.operand1, printText " == ",
        printAddress fmtFloat instr.operand2, printText " goto ", printDest instr.destInstr]
    else Except.error Fault.assertion
  | oprEnum.haltOpr =>
    printAll [printInstrAddress 4 instr.valueNumber, printText ": ", printOp instr.op]
  | oprEnum.mulOpr =>
    printAll [printInstrAddress 4 instr.valueNumber, printText ": ", printTemp instr.temp,
      printText " = ", printAddress fmtFloat instr.operand1, printText " ",
      printOp instr.op, printText " ", printAddress fmtFloat instr.operand2]
  | oprEnum.UNKNOWNOpr =>
    printAll [printInstrAddress 4 instr.valueNumber, printText ": ", printText "???"]

/-! ## Disassembly and variable values -/

/-- The bound of the loop of `TargetCode::printOut`. -/
def PRINTBOUND : Nat := 999

/-- The loop of `TargetCode::printOut` from position `i`, with `k` positions left
below the bound 999: it stops at the bound or at the first `NULL` entry, and
otherwise does `cout << codeArray[i] << "\n"`.  The result lists the lines put
out, each without its final newline. -/
def printOutFrom (fmtFloat : Nat → List Char) (s : CodeState) :
    Nat → Nat → Except Fault (List (List Char))
  | _, 0 => Except.ok []
  | i, k + 1 =>
    match s.code.codeArray i with
    | none => Except.ok []
    | some p =>
      match s.heap[p]? with
      | none => Except.error Fault.undefined
      | some t =>
        match printTacInstr fmtFloat t with
        | Except.error e => Except.error e
        | Except.ok line =>
          match printOutFrom fmtFloat s (i + 1) k with
          | Except.error e => Except.error e
          | Except.ok rest => Except.ok (line :: rest)

/-- The method `TargetCode::printOut()`. -/
def TargetCode.printOut (fmtFloat : Nat → List Char) (s : CodeState) :
    Except Fault (List (List Char)) :=
  printOutFrom fmtFloat s 0 PRINTBOUND

/-- The method `SimpleArraySymTbl::getVarValue(lexeme)`: `sym[lexeme]->getOffset()`,
then `mem.retrieve(off)`.  The index is the character itself. -/
def SimpleArraySymTbl.getVarValue (tbl : SimpleArraySymTbl) (m : Memory) (lexeme : Char) :
    Except Fault Nat :=
  if lexeme.toNat < SYMSIZE then
    match tbl.sym lexeme.toNat with
    | none => Except.error Fault.undefined
    | some v => m.retrieve v.getOffset
  else Except.error Fault.undefined

/-- The call `gen(haltOpr, NULL, NULL)`. -/
def genHalt : GenCall := GenCall.three oprEnum.haltOpr none none

/-- The state after `store` of the `int` 7 in a fresh memory. -/
def storedSeven : AllocState :=
  { tbl := SimpleArraySymTbl.new,
    ps :=
      { counter := 0,
        mem :=
          { storage := memcpy (fun _ => 0) 0 (intBytes 7) 4,
            offset := 4,
            temporaries := [],
            tempwidths := [] } },
    created := [] }

/-- A sample of later calls: a declaration, a temporary, a direct `store`. -/
def laterCalls : List MemCall :=
  [MemCall.put 'x' typeName.fractionType, MemCall.getNewTemp 8, MemCall.store (intBytes 9) 4]

/-- The code buffer after two calls `gen(haltOpr, NULL, NULL)`. -/
def twoHalts : CodeState :=
  ((CodeState.fresh [] (fun _ => none)).emit genHalt.instr).emit genHalt.instr

/-! ## Attributes of the nonterminals -/

/-- The loop of `std::list::merge`: the next element of the argument list is
moved in front of the current element of `*this` when it compares less
(`*first2 < *first1`); otherwise the current element of `*this` stays first. -/
def listMerge (lt : Nat → Nat → Bool) : List Nat → List Nat → List Nat
  | [], ys => ys
  | x :: xs, [] => x :: xs
  | x :: xs, y :: ys =>
    if lt y x then y :: listMerge lt (x :: xs) ys else x :: listMerge lt xs (y :: ys)
termination_by xs ys => xs.length + ys.length

/-- The comparison `p < q` of two `TacInstr*`, where `addr` gives the machine
address of every allocated instruction. -/
def ptrLt (addr : Nat → Nat) (p q : Nat) : Bool := decide (addr p < addr q)

/-- The list is sorted with respect to `<`, which `std::list::merge` expects of
both lists when its result is to be sorted. -/
def ptrSorted (addr : Nat → Nat) (l : List Nat) : Prop :=
  List.Pairwise (fun p q => ¬ addr q < addr p) l

instance (addr : Nat → Nat) (l : List Nat) : Decidable (ptrSorted addr l) := by
  unfold ptrSorted; exact inferInstance

/-- The call `a.merge(l)` of `std::list<TacInstr*>`; the result is the new `a`.
The library runs its loop on the two lists as they are, sorted or not: it never
looks at the order inside a list, and the argument `l`, passed by value, is a
list of its own. -/
def stdListMerge (addr : Nat → Nat) (a l : List Nat) : Except Fault (List Nat) :=
  Except.ok (listMerge (ptrLt addr) a l)

/-- The class `BoolAttr`. -/
structure BoolAttr where
  truelist : List Nat
  falselist : List Nat
  deriving DecidableEq

/-- The constructor `BoolAttr::BoolAttr()`. -/
def BoolAttr.new : BoolAttr := { truelist := [], falselist := [] }

/-- The method `BoolAttr::addTrue(TacInstr* instr)`. -/
def BoolAttr.addTrue (heap : List TacInstr) (b : BoolAttr) (instr : Nat) : Except Fault BoolAttr :=
  match heap[instr]? with
  | none => Except.error Fault.undefined
  | some t =>
    if jumpClass t.getOp then
      Except.ok { truelist := b.truelist ++ [instr], falselist := b.falselist }
    else Except.error Fault.assertion

/-- The method `BoolAttr::addFalse(TacInstr* instr)`. -/
def BoolAttr.addFalse (heap : List TacInstr) (b : BoolAttr) (instr : Nat) : Except Fault BoolAttr :=
  match heap[instr]? with
  | none => Except.error Fault.undefined
  | some t =>
    if jumpClass t.getOp then
      Except.ok { truelist := b.truelist, falselist := b.falselist ++ [instr] }
    else Except.error Fault.assertion

/-- The method `BoolAttr::addTrue(list<TacInstr*> l)`: `truelist.merge(l)`. -/
def BoolAttr.addTrueList (addr : Nat → Nat) (b : BoolAttr) (l : List Nat) :
    Except Fault BoolAttr :=
  match stdListMerge addr b.truelist l with
  | Except.error e => Except.error e
  | Except.ok merged => Except.ok { truelist := merged, falselist := b.falselist }

/-- The method `BoolAttr::addFalse(list<TacInstr*> l)`: `falselist.merge(l)`. -/
def BoolAttr.addFalseList (addr : Nat → Nat) (b : BoolAttr) (l : List Nat) :
    Except Fault BoolAttr :=
  match stdListMerge addr b.falselist l with
  | Except.error e => Except.error e
  | Except.ok merged => Except.ok { truelist := b.truelist, falselist := merged }

/-- The method `BoolAttr::getTruelist()`. -/
def BoolAttr.getTruelist (b : BoolAttr) : List Nat := b.truelist

/-- The method `BoolAttr::getFalselist()`. -/
def BoolAttr.getFalselist (b : BoolAttr) : List Nat := b.falselist

/-- The class `StmtAttr`. -/
structure StmtAttr where
  nextlist : List Nat
  deriving DecidableEq

/-- The constructor `StmtAttr::StmtAttr()`. -/
def StmtAttr.new : StmtAttr := { nextlist := [] }

/-- The method `StmtAttr::addNext(TacInstr* instr)`. -/
def StmtAttr.addNext (a : StmtAttr) (instr : Nat) : StmtAttr :=
  { nextlist := a.nextlist ++ [instr] }

/-- The method `StmtAttr::addNext(list<TacInstr*> l)`: `nextlist.merge(l)`. -/
def StmtAttr.addNextList (addr : Nat → Nat) (a : StmtAttr) (l : List Nat) :
    Except Fault StmtAttr :=
  match stdListMerge addr a.nextlist l with
  | Except.error e => Except.error e
  | Except.ok merged => Except.ok { nextlist := merged }

/-- The method `StmtAttr::getNextlist()`. -/
def StmtAttr.getNextlist (a : StmtAttr) : List Nat := a.nextlist

/-- What the constructor `TacInstr::TacInstr` establishes about the third slot:
no `temp` on a jump, no `destInstr` on any other instruction. -/
def TacInstr.slotInv (t : TacInstr) : Prop :=
  (jumpClass t.getOp → t.temp = none) ∧ (¬ jumpClass t.getOp → t.destInstr = none)

/-- Two jumps emitted one after the other: the instructions 0 and 1. -/
def twoJumps : CodeState :=
  ((CodeState.fresh [] (fun _ => none)).emit
      (TacInstr.new oprEnum.jmpOpr none none none)).emit
    (TacInstr.new oprEnum.jmpOpr none none none)

/-- Every field but `destInstr` is the same in both instructions. -/
def TacInstr.sameButDest (t t1 : TacInstr) : Prop :=
  t1.valueNumber = t.valueNumber ∧ t1.op = t.op ∧ t1.operand1 = t.operand1 ∧
    t1.operand2 = t.operand2 ∧ t1.temp = t.temp

/-! ## Backpatching -/

theorem TacInstr.sameButDest_refl (t : TacInstr) : t.sameButDest t :=
  ⟨rfl, rfl, rfl, rfl, rfl⟩

theorem patch_ok_of_jump (heap : List TacInstr) (p i : Nat) (t tgt : TacInstr)
    (hp : heap[p]? = some t) (hj : jumpClass t.getOp) (hi : heap[i]? = some tgt) :
    TacInstr.patch heap p i =
      Except.ok (heap.set p { t with destInstr := tgt.getValueNumber.map Address.instr }) := by
  unfold TacInstr.patch
  rw [hp]
  simp only [hj, if_true]
  rw [hi]

theorem backpatchLoop_spec (i : Nat) (vn : Option InstrAddress) (l : List Nat) :
    ∀ heap : List TacInstr,
      (∀ p ∈ l, ∃ t, heap[p]? = some t ∧ jumpClass t.getOp) →
      (∃ tgt, heap[i]? = some tgt ∧ tgt.getValueNumber = vn) →
      ∃ heap1, backpatchLoop heap i l = Except.ok heap1 ∧ heap1.length = heap.length ∧
        ∀ q t, heap[q]? = some t →
          ∃ t1, heap1[q]? = some t1 ∧ t.sameButDest t1 ∧
            (q ∈ l → t1.destInstr = vn.map Address.instr) ∧ (q ∉ l → t1 = t) := by
  induction l with
  | nil =>
    intro heap _ _
    refine ⟨heap, rfl, rfl, ?_⟩
    intro q t hq
    exact ⟨t, hq, t.sameButDest_refl, by simp, fun _ => rfl⟩
  | cons p rest ih =>
    intro heap hl hi
    obtain ⟨tp, hp, hjp⟩ := hl p (List.mem_cons_self p rest)
    obtain ⟨tgt, htgt, hvn⟩ := hi
    have hplt : p < heap.length := (List.getElem?_eq_some.mp hp).1
    have hstep := patch_ok_of_jump heap p i tp tgt hp hjp htgt
    -- the heap after the first patch
    have key : ∀ q t, heap[q]? = some t →
        ∃ t1, (heap.set p { tp with destInstr := tgt.getValueNumber.map Address.instr })[q]? =
            some t1 ∧ t.sameButDest t1 ∧ (q = p → t1.destInstr = vn.map Address.instr) ∧
            (q ≠ p → t1 = t) := by
      intro q t hq
      by_cases hqp : q = p
      · subst hqp
        rw [hp] at hq
        cases hq
        refine ⟨_, List.getElem?_set_self hplt, ⟨rfl, rfl, rfl, rfl, rfl⟩, ?_, ?_⟩
        · intro _; simp [hvn]
        · intro h; exact absurd rfl h
      · refine ⟨t, ?_, t.sameButDest_refl, fun h => absurd h hqp, fun _ => rfl⟩
        rw [List.getElem?_set_ne (Ne.symm hqp)]
        exact hq
    have hl1 : ∀ q ∈ rest,
        ∃ t, (heap.set p { tp with destInstr := tgt.getValueNumber.map Address.instr })[q]? =
          some t ∧ jumpClass t.getOp := by
      intro q hq
      obtain ⟨t, ht, hj⟩ := hl q (List.mem_cons_of_mem p hq)
      obtain ⟨t1, ht1, hsame, _, _⟩ := key q t ht
      refine ⟨t1, ht1, ?_⟩
      have : t1.getOp = t.getOp := hsame.2.1
      rw [this]
      exact hj
    have hi1 : ∃ tgt1,
        (heap.set p { tp with destInstr := tgt.getValueNumber.map Address.instr })[i]? =
          some tgt1 ∧ tgt1.getValueNumber = vn := by
      obtain ⟨t1, ht1, hsame, _, _⟩ := key i tgt htgt
      refine ⟨t1, ht1, ?_⟩
      have : t1.getValueNumber = tgt.getValueNumber := hsame.1
      rw [this]
      exact hvn
    obtain ⟨heap2, hrun, hlen, hframe⟩ := ih _ hl1 hi1
    refine ⟨heap2, ?_, ?_, ?_⟩
    · simp only [backpatchLoop, hstep]
      exact hrun
    · rw [hlen, List.length_set]
    · intro q t hq
      obtain ⟨t1, ht1, hsame1, hin1, hout1⟩ := key q t hq
      obtain ⟨t2, ht2, hsame2, hin2, hout2⟩ := hframe q t1 ht1
      refine ⟨t2, ht2, ?_, ?_, ?_⟩
      · obtain ⟨a1, a2, a3, a4, a5⟩ := hsame1
        obtain ⟨b1, b2, b3, b4, b5⟩ := hsame2
        exact ⟨b1.trans a1, b2.trans a2, b3.trans a3, b4.trans a4, b5.trans a5⟩
      · intro hmem
        by_cases hqr : q ∈ rest
        · exact hin2 hqr
        · have hqp : q = p := by
            rcases List.mem_cons.mp hmem with h | h
            · exact h
            · exact absurd h hqr
          rw [hout2 hqr]
          exact hin1 hqp
      · intro hmem
        have hqp : q ≠ p := fun h => hmem (h ▸ List.mem_cons_self p rest)
        have hqr : q ∉ rest := fun h => hmem (List.mem_cons_of_mem p h)
        rw [hout2 hqr]
        exact hout1 hqp

/-- C1: when every entry of `l` points to an instruction with a jump-class
opcode and `i` points to an instruction, `backpatch(l, i)` returns, and
afterwards every instruction of `l` has `destInstr` equal to the value number of
`i` (which the call does not change), whatever `destInstr` was before and
however often the instruction occurs in `l`. -/
theorem backpatch_sets_destInstr (s : CodeState) (l : List Nat) (i : Nat) (tgt : TacInstr)
    (hl : ∀ p ∈ l, ∃ t, s.heap[p]? = some t ∧ jumpClass t.getOp)
    (hi : s.heap[i]? = some tgt) :
    ∃ s1, TargetCode.backpatch s l i = Except.ok s1 ∧
      (∃ tgt1, s1.heap[i]? = some tgt1 ∧ tgt1.getValueNumber = tgt.getValueNumber) ∧
      ∀ p ∈ l, ∃ t1, s1.heap[p]? = some t1 ∧
        t1.destInstr = tgt.getValueNumber.map Address.instr := by
  obtain ⟨heap1, hrun, _, hframe⟩ :=
    backpatchLoop_spec i tgt.getValueNumber l s.heap hl ⟨tgt, hi, rfl⟩
  refine ⟨{ heap := heap1, code := s.code }, ?_, ?_, ?_⟩
  · simp only [TargetCode.backpatch, hrun]
  · obtain ⟨t1, ht1, hsame, _, _⟩ := hframe i tgt hi
    exact ⟨t1, ht1, hsame.1⟩
  · intro p hp
    obtain ⟨t, ht, _⟩ := hl p hp
    obtain ⟨t1, ht1, _, hin, _⟩ := hframe p t ht
    exact ⟨t1, ht1, hin hp⟩

/-- C2: when every entry of `l` points to an instruction with a jump-class
opcode and `i` points to an instruction, `backpatch(l, i)` returns and leaves
the code array and `nextInstr` as they were, allocates and frees no
instruction, leaves every instruction that is not in `l` equal to what it was,
and changes no field but `destInstr` of those in `l`. -/
theorem backpatch_frame (s : CodeState) (l : List Nat) (i : Nat) (tgt : TacInstr)
    (hl : ∀ p ∈ l, ∃ t, s.heap[p]? = some t ∧ jumpClass t.getOp)
    (hi : s.heap[i]? = some tgt) :
    ∃ s1, TargetCode.backpatch s l i = Except.ok s1 ∧
      s1.code.codeArray = s.code.codeArray ∧
      s1.code.getNextInstr = s.code.getNextInstr ∧
      s1.heap.length = s.heap.length ∧
      (∀ q t, s.heap[q]? = some t → q ∉ l → s1.heap[q]? = some t) ∧
      (∀ q t, s.heap[q]? = some t → q ∈ l → ∃ t1, s1.heap[q]? = some t1 ∧ t.sameButDest t1) := by
  obtain ⟨heap1, hrun, hlen, hframe⟩ :=
    backpatchLoop_spec i tgt.getValueNumber l s.heap hl ⟨tgt, hi, rfl⟩
  refine ⟨{ heap := heap1, code := s.code }, ?_, rfl, rfl, hlen, ?_, ?_⟩
  · simp only [TargetCode.backpatch, hrun]
  · intro q t hq hnot
    obtain ⟨t1, ht1, _, _, hout⟩ := hframe q t hq
    rw [ht1, hout hnot]
  · intro q t hq _
    obtain ⟨t1, ht1, hsame, _, _⟩ := hframe q t hq
    exact ⟨t1, ht1, hsame⟩

/-- A witness of C1: the conditional jump of `jumpThenHalt`, listed twice, is
patched with the value number 1 of Halt. -/
theorem backpatch_sets_destInstr_witness :
    (∀ p ∈ [0, 0], ∃ t, jumpThenHalt.heap[p]? = some t ∧ jumpClass t.getOp) ∧
    ∃ s1, TargetCode.backpatch jumpThenHalt [0, 0] 1 = Except.ok s1 ∧
      (∃ tgt1, s1.heap[1]? = some tgt1 ∧
        tgt1.getValueNumber = some (InstrAddress.mk 1)) ∧
      ∀ p ∈ [0, 0], ∃ t1, s1.heap[p]? = some t1 ∧
        t1.destInstr = some (Address.instr (InstrAddress.mk 1)) :=
  have hl : ∀ p ∈ [0, 0], ∃ t, jumpThenHalt.heap[p]? = some t ∧ jumpClass t.getOp := by
    intro p hp
    have hp0 : p = 0 := by simpa using hp
    subst hp0
    exact ⟨_, rfl, by decide⟩
  ⟨hl, backpatch_sets_destInstr jumpThenHalt [0, 0] 1
    ((TacInstr.new oprEnum.haltOpr none none none).setValueNumber 1) hl rfl⟩

/-- A witness of C2: patching the conditional jump of `jumpThenHalt` leaves the
Halt instruction and the code array as they were. -/
theorem backpatch_frame_witness :
    (∀ p ∈ [0], ∃ t, jumpThenHalt.heap[p]? = some t ∧ jumpClass t.getOp) ∧
    ∃ s1, TargetCode.backpatch jumpThenHalt [0] 1 = Except.ok s1 ∧
      s1.code.codeArray = jumpThenHalt.code.codeArray ∧
      s1.code.getNextInstr = jumpThenHalt.code.getNextInstr ∧
      s1.heap.length = jumpThenHalt.heap.length ∧
      (∀ q t, jumpThenHalt.heap[q]? = some t → q ∉ [0] → s1.heap[q]? = some t) ∧
      (∀ q t, jumpThenHalt.heap[q]? = some t → q ∈ [0] →
        ∃ t1, s1.heap[q]? = some t1 ∧ t.sameButDest t1) :=
  have hl : ∀ p ∈ [0], ∃ t, jumpThenHalt.heap[p]? = some t ∧ jumpClass t.getOp := by
    intro p hp
    have hp0 : p = 0 := by simpa using hp
    subst hp0
    exact ⟨_, rfl, by decide⟩
  ⟨hl, backpatch_frame jumpThenHalt [0] 1
    ((TacInstr.new oprEnum.haltOpr none none none).setValueNumber 1) hl rfl⟩

/-! ## Emission -/

theorem genInstr_new (s : CodeState) (t : TacInstr) (h : s.code.nextInstr < CODESIZE) :
    TargetCode.genInstr { heap := s.heap ++ [t], code := s.code } s.heap.length =
      Except.ok (s.heap.length, s.emit t) := by
  unfold TargetCode.genInstr
  simp only [List.getElem?_concat_length, h, if_true]
  have hset : (s.heap ++ [t]).set s.heap.length (t.setValueNumber s.code.nextInstr) =
      s.heap ++ [t.setValueNumber s.code.nextInstr] := by
    rw [List.set_append_right _ _ (Nat.le_refl _)]
    simp
  rw [hset]
  rfl

theorem genInstr_full (s : CodeState) (t : TacInstr) (h : ¬ s.code.nextInstr < CODESIZE) :
    TargetCode.genInstr { heap := s.heap ++ [t], code := s.code } s.heap.length =
      Except.error Fault.undefined := by
  unfold TargetCode.genInstr
  simp only [List.getElem?_concat_length, h, if_false]

theorem GenCall.run_eq (c : GenCall) (s : CodeState) (h : s.code.nextInstr < CODESIZE) :
    c.run s = Except.ok (s.heap.length, s.emit c.instr) := by
  cases c with
  | three op a b => exact genInstr_new s _ h
  | four op a b c => exact genInstr_new s _ h

theorem GenCall.run_ok (c : GenCall) (s s1 : CodeState) (p : Nat)
    (h : c.run s = Except.ok (p, s1)) :
    s.code.nextInstr < CODESIZE ∧ p = s.heap.length ∧ s1 = s.emit c.instr := by
  by_cases hlt : s.code.nextInstr < CODESIZE
  · rw [GenCall.run_eq c s hlt] at h
    injection h with h
    injection h with h1 h2
    exact ⟨hlt, h1.symm, h2.symm⟩
  · exfalso
    cases c with
    | three op a b =>
      have := genInstr_full s (TacInstr.new op a b none) hlt
      simp only [GenCall.run, TargetCode.gen3] at h
      rw [this] at h
      cases h
    | four op a b c =>
      have := genInstr_full s (TacInstr.new op a b c) hlt
      simp only [GenCall.run, TargetCode.gen] at h
      rw [this] at h
      cases h

theorem runGens_length (calls : List GenCall) :
    ∀ s : CodeState, s.code.nextInstr + calls.length ≤ CODESIZE →
      ∃ s1, runGens s calls = Except.ok s1 ∧
        s1.code.nextInstr = s.code.nextInstr + calls.length := by
  induction calls with
  | nil => intro s _; exact ⟨s, rfl, rfl⟩
  | cons c cs ih =>
    intro s h
    simp only [List.length_cons] at h
    have hlt : s.code.nextInstr < CODESIZE := by omega
    have hnext : (s.emit c.instr).code.nextInstr = s.code.nextInstr + 1 := rfl
    obtain ⟨s1, hrun, hn⟩ := ih (s.emit c.instr) (by rw [hnext]; omega)
    refine ⟨s1, ?_, ?_⟩
    · simp only [runGens, GenCall.run_eq c s hlt]
      exact hrun
    · rw [hn, hnext, List.length_cons]; omega

/-- C3: from a freshly constructed `TargetCode`, every sequence of at most 1000
`gen` calls returns and leaves `getNextInstr()` equal to the number of calls;
and for every `k`, after the first `k` calls `getNextInstr()` is `k`, and the
next call returns an instruction whose value number is `k`. -/
theorem gen_value_number_is_position (heap0 : List TacInstr) (garbage : Nat → Option Nat)
    (calls : List GenCall) (hn : calls.length ≤ CODESIZE) :
    (∃ sN, runGens (CodeState.fresh heap0 garbage) calls = Except.ok sN ∧
      sN.code.getNextInstr = calls.length) ∧
    ∀ (k : Nat) (c : GenCall), calls[k]? = some c →
      ∃ sk p sk1 t, runGens (CodeState.fresh heap0 garbage) (calls.take k) = Except.ok sk ∧
        sk.code.getNextInstr = k ∧
        c.run sk = Except.ok (p, sk1) ∧
        sk1.heap[p]? = some t ∧ t.getValueNumber = some (InstrAddress.mk k) := by
  constructor
  · obtain ⟨sN, hrun, hlen⟩ := runGens_length calls (CodeState.fresh heap0 garbage)
      (by simpa [CodeState.fresh, TargetCode.new] using hn)
    refine ⟨sN, hrun, ?_⟩
    simp only [TargetCode.getNextInstr, hlen]
    simp [CodeState.fresh, TargetCode.new]
  · intro k c hk
    have hklt : k < calls.length := (List.getElem?_eq_some.mp hk).1
    have htake : (calls.take k).length = k := by
      rw [List.length_take]; omega
    obtain ⟨sk, hrun, hlen⟩ := runGens_length (calls.take k) (CodeState.fresh heap0 garbage)
      (by rw [htake]; simp only [CodeState.fresh, TargetCode.new]; omega)
    have hsk : sk.code.nextInstr = k := by
      rw [hlen, htake]; simp [CodeState.fresh, TargetCode.new]
    have hlt : sk.code.nextInstr < CODESIZE := by omega
    refine ⟨sk, sk.heap.length, sk.emit c.instr, c.instr.setValueNumber sk.code.nextInstr,
      hrun, ?_, GenCall.run_eq c sk hlt, ?_, ?_⟩
    · simp only [TargetCode.getNextInstr, hsk]
    · exact List.getElem?_concat_length _ _
    · simp only [TacInstr.getValueNumber, TacInstr.setValueNumber, hsk]

/-- A witness of C3: the scenario "emit Copy, then Add". -/
theorem gen_value_number_is_position_witness :
    [GenCall.three oprEnum.copyOpr none none, GenCall.four oprEnum.addOpr none none none].length
      ≤ CODESIZE ∧
    ((∃ sN, runGens (CodeState.fresh [] (fun _ => none))
        [GenCall.three oprEnum.copyOpr none none, GenCall.four oprEnum.addOpr none none none] =
          Except.ok sN ∧
      sN.code.getNextInstr =
        [GenCall.three oprEnum.copyOpr none none,
          GenCall.four oprEnum.addOpr none none none].length) ∧
    ∀ (k : Nat) (c : GenCall),
      [GenCall.three oprEnum.copyOpr none none,
        GenCall.four oprEnum.addOpr none none none][k]? = some c →
      ∃ sk p sk1 t, runGens (CodeState.fresh [] (fun _ => none))
          ([GenCall.three oprEnum.copyOpr none none,
            GenCall.four oprEnum.addOpr none none none].take k) = Except.ok sk ∧
        sk.code.getNextInstr = k ∧
        c.run sk = Except.ok (p, sk1) ∧
        sk1.heap[p]? = some t ∧ t.getValueNumber = some (InstrAddress.mk k)) :=
  ⟨by decide, gen_value_number_is_position [] (fun _ => none)
    [GenCall.three oprEnum.copyOpr none none, GenCall.four oprEnum.addOpr none none none]
    (by decide)⟩

/-! ## Stability of value numbers -/

theorem patch_ok_inv (heap heap1 : List TacInstr) (p i : Nat)
    (h : TacInstr.patch heap p i = Except.ok heap1) :
    ∃ t tgt, heap[p]? = some t ∧ jumpClass t.getOp ∧ heap[i]? = some tgt ∧
      heap1 = heap.set p { t with destInstr := tgt.getValueNumber.map Address.instr } := by
  unfold TacInstr.patch at h
  cases hp : heap[p]? with
  | none => rw [hp] at h; cases h
  | some t =>
    rw [hp] at h
    by_cases hj : jumpClass t.getOp
    · simp only [hj, if_true] at h
      cases hi : heap[i]? with
      | none => rw [hi] at h; cases h
      | some tgt =>
        rw [hi] at h
        injection h with h
        exact ⟨t, tgt, rfl, hj, rfl, h.symm⟩
    · simp only [hj, if_false] at h
      cases h

theorem backpatchLoop_ok_inv (i : Nat) (l : List Nat) :
    ∀ heap heap1 : List TacInstr, backpatchLoop heap i l = Except.ok heap1 →
      (∀ p ∈ l, ∃ t, heap[p]? = some t ∧ jumpClass t.getOp) ∧
        (l ≠ [] → ∃ tgt, heap[i]? = some tgt) := by
  induction l with
  | nil => intro heap heap1 _; exact ⟨by simp, fun h => absurd rfl h⟩
  | cons p rest ih =>
    intro heap heap1 h
    simp only [backpatchLoop] at h
    cases hpatch : TacInstr.patch heap p i with
    | error e => rw [hpatch] at h; cases h
    | ok heap2 =>
      rw [hpatch] at h
      obtain ⟨t, tgt, hp, hj, hi, hset⟩ := patch_ok_inv heap heap2 p i hpatch
      obtain ⟨hrest, _⟩ := ih heap2 heap1 h
      refine ⟨?_, fun _ => ⟨tgt, hi⟩⟩
      intro q hq
      rcases List.mem_cons.mp hq with hqp | hqr
      · subst hqp; exact ⟨t, hp, hj⟩
      · obtain ⟨t2, ht2, hj2⟩ := hrest q hqr
        by_cases hqp : q = p
        · subst hqp; exact ⟨t, hp, hj⟩
        · rw [hset, List.getElem?_set_ne (Ne.symm hqp)] at ht2
          exact ⟨t2, ht2, hj2⟩

theorem backpatch_ok_keeps (s s1 : CodeState) (l : List Nat) (i : Nat)
    (h : TargetCode.backpatch s l i = Except.ok s1) :
    s1.code = s.code ∧
      ∀ (q : Nat) (t : TacInstr), s.heap[q]? = some t →
        ∃ t1, s1.heap[q]? = some t1 ∧ t.sameButDest t1 := by
  unfold TargetCode.backpatch at h
  cases hloop : backpatchLoop s.heap i l with
  | error e => rw [hloop] at h; cases h
  | ok heap1 =>
    rw [hloop] at h
    injection h with h
    subst h
    refine ⟨rfl, ?_⟩
    obtain ⟨hl, hi⟩ := backpatchLoop_ok_inv i l s.heap heap1 hloop
    intro q t hq
    cases l with
    | nil =>
      simp only [backpatchLoop] at hloop
      injection hloop with hloop
      subst hloop
      exact ⟨t, hq, t.sameButDest_refl⟩
    | cons p rest =>
      obtain ⟨tgt, htgt⟩ := hi (by simp)
      obtain ⟨heap2, hrun, _, hframe⟩ :=
        backpatchLoop_spec i tgt.getValueNumber (p :: rest) s.heap hl ⟨tgt, htgt, rfl⟩
      rw [hloop] at hrun
      injection hrun with hrun
      subst hrun
      obtain ⟨t1, ht1, hsame, _, _⟩ := hframe q t hq
      exact ⟨t1, ht1, hsame⟩

theorem emit_keeps (s : CodeState) (t0 : TacInstr) :
    (∀ j, j ≠ s.code.nextInstr → (s.emit t0).code.codeArray j = s.code.codeArray j) ∧
      ∀ (q : Nat) (t : TacInstr), s.heap[q]? = some t → (s.emit t0).heap[q]? = some t := by
  constructor
  · intro j hj
    simp only [CodeState.emit, hj, if_false]
  · intro q t hq
    have hlt : q < s.heap.length := (List.getElem?_eq_some.mp hq).1
    simp only [CodeState.emit]
    rw [List.getElem?_append_left hlt]
    exact hq

/-- The invariant of the code buffer: below `nextInstr`, every entry of the
code array points to an instruction whose value number is its position. -/
theorem reachable_inv (heap0 : List TacInstr) (garbage : Nat → Option Nat) (s : CodeState)
    (h : Reachable heap0 garbage s) :
    s.code.nextInstr ≤ CODESIZE ∧
      ∀ i : Nat, i < s.code.nextInstr →
        ∃ p t, s.code.codeArray i = some p ∧ s.heap[p]? = some t ∧
          t.getValueNumber = some (InstrAddress.mk i) := by
  induction h with
  | fresh =>
    refine ⟨Nat.zero_le _, ?_⟩
    intro i hi
    exact absurd hi (Nat.not_lt_zero i)
  | gen s s1 c p _ hrun ih =>
    obtain ⟨hlt, _, hs1⟩ := GenCall.run_ok c s s1 p hrun
    subst hs1
    obtain ⟨_, hinv⟩ := ih
    obtain ⟨hcode, hheap⟩ := emit_keeps s c.instr
    refine ⟨hlt, ?_⟩
    intro i hi
    have hi1 : i < s.code.nextInstr + 1 := hi
    by_cases hin : i = s.code.nextInstr
    · subst hin
      refine ⟨s.heap.length, c.instr.setValueNumber s.code.nextInstr, ?_, ?_, rfl⟩
      · simp only [CodeState.emit, if_true]
      · exact List.getElem?_concat_length _ _
    · obtain ⟨q, t, hq, ht, hvn⟩ := hinv i (by omega)
      exact ⟨q, t, (hcode i hin).trans hq, hheap q t ht, hvn⟩
  | backpatch s s1 l i _ hrun ih =>
    obtain ⟨hcode, hheap⟩ := backpatch_ok_keeps s s1 l i hrun
    obtain ⟨hle, hinv⟩ := ih
    rw [hcode]
    refine ⟨hle, ?_⟩
    intro j hj
    obtain ⟨q, t, hq, ht, hvn⟩ := hinv j hj
    obtain ⟨t1, ht1, hsame⟩ := hheap q t ht
    refine ⟨q, t1, hq, ht1, ?_⟩
    have : t1.getValueNumber = t.getValueNumber := hsame.1
    rw [this]
    exact hvn

theorem getInstr_lt (c : TargetCode) (i : Nat) (h : i < CODESIZE) :
    c.getInstr i = Except.ok (c.codeArray i) := by
  unfold TargetCode.getInstr
  have h1 : (0 : Int) ≤ (i : Int) ∧ (i : Int) < (CODESIZE : Int) :=
    ⟨Int.ofNat_nonneg i, Int.ofNat_lt.mpr h⟩
  simp only [h1, and_self, if_true, Int.toNat_ofNat]

theorem jumpThenHalt_reachable : Reachable [] (fun _ => none) jumpThenHalt :=
  Reachable.backpatch _ _ [] 0
    (Reachable.gen _ _ (GenCall.three oprEnum.haltOpr none none) 1
      (Reachable.gen _ _ (GenCall.three oprEnum.eq1condJmpOpr none none) 0
        Reachable.fresh (GenCall.run_eq _ _ (by decide)))
      (GenCall.run_eq _ _ (by decide)))
    rfl

/-- C4: in every state reached from a fresh `TargetCode` by calls of `gen` and
`backpatch`, `getInstr(i)` for `i < getNextInstr()` is an instruction whose value
number is `i`; and a further call of `gen` or `backpatch` leaves the entries of
the code array below `getNextInstr()` and the value number of every existing
instruction as they were. -/
theorem value_numbers_stable (heap0 : List TacInstr) (garbage : Nat → Option Nat)
    (s : CodeState) (h : Reachable heap0 garbage s) :
    (∀ i : Nat, (i : Int) < s.code.getNextInstr →
      ∃ p t, s.code.getInstr i = Except.ok (some p) ∧ s.heap[p]? = some t ∧
        t.getValueNumber = some (InstrAddress.mk i)) ∧
    (∀ (c : GenCall) (p : Nat) (s1 : CodeState), c.run s = Except.ok (p, s1) →
      (∀ i : Nat, (i : Int) < s.code.getNextInstr →
        s1.code.getInstr i = s.code.getInstr i) ∧
      ∀ (q : Nat) (t : TacInstr), s.heap[q]? = some t →
        ∃ t1, s1.heap[q]? = some t1 ∧ t1.getValueNumber = t.getValueNumber) ∧
    (∀ (l : List Nat) (i0 : Nat) (s1 : CodeState),
      TargetCode.backpatch s l i0 = Except.ok s1 →
      (∀ i : Nat, (i : Int) < s.code.getNextInstr →
        s1.code.getInstr i = s.code.getInstr i) ∧
      ∀ (q : Nat) (t : TacInstr), s.heap[q]? = some t →
        ∃ t1, s1.heap[q]? = some t1 ∧ t1.getValueNumber = t.getValueNumber) := by
  obtain ⟨hle, hinv⟩ := reachable_inv heap0 garbage s h
  have hcast : ∀ i : Nat, (i : Int) < s.code.getNextInstr → i < s.code.nextInstr := by
    intro i hi
    exact Int.ofNat_lt.mp hi
  refine ⟨?_, ?_, ?_⟩
  · intro i hi
    have hi1 := hcast i hi
    obtain ⟨p, t, hp, ht, hvn⟩ := hinv i hi1
    refine ⟨p, t, ?_, ht, hvn⟩
    rw [getInstr_lt s.code i (by omega), hp]
  · intro c p s1 hrun
    obtain ⟨hlt, _, hs1⟩ := GenCall.run_ok c s s1 p hrun
    subst hs1
    obtain ⟨hcode, hheap⟩ := emit_keeps s c.instr
    constructor
    · intro i hi
      have hi1 := hcast i hi
      rw [getInstr_lt _ i (by omega), getInstr_lt _ i (by omega), hcode i (by omega)]
    · intro q t hq
      exact ⟨t, hheap q t hq, rfl⟩
  · intro l i0 s1 hrun
    obtain ⟨hcode, hheap⟩ := backpatch_ok_keeps s s1 l i0 hrun
    constructor
    · intro i _
      rw [hcode]
    · intro q t hq
      obtain ⟨t1, ht1, hsame⟩ := hheap q t hq
      exact ⟨t1, ht1, hsame.1⟩

/-- A witness of C4: the state `jumpThenHalt` is reached from a fresh
`TargetCode`, and its two instructions carry the value numbers 0 and 1. -/
theorem value_numbers_stable_witness :
    Reachable [] (fun _ => none) jumpThenHalt ∧
    ∀ i : Nat, (i : Int) < jumpThenHalt.code.getNextInstr →
      ∃ p t, jumpThenHalt.code.getInstr i = Except.ok (some p) ∧
        jumpThenHalt.heap[p]? = some t ∧ t.getValueNumber = some (InstrAddress.mk i) :=
  ⟨jumpThenHalt_reachable,
    (value_numbers_stable [] (fun _ => none) jumpThenHalt jumpThenHalt_reachable).1⟩

/-- C5: in every state with fewer than 1000 instructions emitted,
`gen(op, a, b, c)` returns a newly allocated instruction; afterwards
`getNextInstr()` is one more, `getInstr` at the old `getNextInstr()` is the new
instruction, which carries `op`, `a` and `b` and its position as value number,
`getInstr(i)` is the same pointer as before for every `i` below, and every
instruction that existed is unchanged. -/
theorem gen_appends (s : CodeState) (op : oprEnum) (a b c : Option Address)
    (h : s.code.getNextInstr < CODESIZE) :
    ∃ p s1 t, TargetCode.gen s op a b c = Except.ok (p, s1) ∧
      s1.code.getNextInstr = s.code.getNextInstr + 1 ∧
      s1.code.getInstr s.code.getNextInstr = Except.ok (some p) ∧
      s.heap[p]? = none ∧ s1.heap[p]? = some t ∧
      t.getOp = op ∧ t.operand1 = a ∧ t.operand2 = b ∧
      t.getValueNumber = some (InstrAddress.mk s.code.getNextInstr) ∧
      (∀ i : Nat, (i : Int) < s.code.getNextInstr →
        s1.code.getInstr i = s.code.getInstr i) ∧
      ∀ (q : Nat) (t0 : TacInstr), s.heap[q]? = some t0 → s1.heap[q]? = some t0 := by
  have hlt : s.code.nextInstr < CODESIZE := Int.ofNat_lt.mp h
  obtain ⟨hcode, hheap⟩ := emit_keeps s (TacInstr.new op a b c)
  refine ⟨s.heap.length, s.emit (TacInstr.new op a b c),
    (TacInstr.new op a b c).setValueNumber s.code.nextInstr,
    genInstr_new s _ hlt, ?_, ?_, ?_, ?_, ?_, ?_, ?_, rfl, ?_, hheap⟩
  · simp only [TargetCode.getNextInstr, CodeState.emit]
    push_cast
    rfl
  · simp only [TargetCode.getNextInstr]
    rw [getInstr_lt _ _ hlt]
    simp only [CodeState.emit, if_true]
  · exact List.getElem?_eq_none (Nat.le_refl _)
  · exact List.getElem?_concat_length _ _
  · cases op <;> rfl
  · cases op <;> rfl
  · cases op <;> rfl
  · intro i hi
    have hi1 : i < s.code.nextInstr := Int.ofNat_lt.mp hi
    rw [getInstr_lt _ i (by omega), getInstr_lt _ i (by omega), hcode i (by omega)]

/-- A witness of C5: emitting an addition after `jumpThenHalt`. -/
theorem gen_appends_witness :
    jumpThenHalt.code.getNextInstr < CODESIZE ∧
    ∃ p s1 t, TargetCode.gen jumpThenHalt oprEnum.addOpr none none none = Except.ok (p, s1) ∧
      s1.code.getNextInstr = jumpThenHalt.code.getNextInstr + 1 ∧
      s1.code.getInstr jumpThenHalt.code.getNextInstr = Except.ok (some p) ∧
      jumpThenHalt.heap[p]? = none ∧ s1.heap[p]? = some t ∧
      t.getOp = oprEnum.addOpr ∧ t.operand1 = none ∧ t.operand2 = none ∧
      t.getValueNumber = some (InstrAddress.mk jumpThenHalt.code.getNextInstr) ∧
      (∀ i : Nat, (i : Int) < jumpThenHalt.code.getNextInstr →
        s1.code.getInstr i = jumpThenHalt.code.getInstr i) ∧
      ∀ (q : Nat) (t0 : TacInstr), jumpThenHalt.heap[q]? = some t0 → s1.heap[q]? = some t0 :=
  ⟨by decide, gen_appends jumpThenHalt oprEnum.addOpr none none none (by decide)⟩

/-! ## The memory simulator: store and retrieve -/

theorem store_ok (m : Memory) (val : List Byte) (width : Int) (hw : 0 ≤ width)
    (hv : width ≤ val.length) (h0 : 0 ≤ m.offset) (hcap : m.offset + width ≤ storageBytes) :
    m.store val width = Except.ok (m.offset,
      { storage := memcpy m.storage m.offset.toNat val width.toNat,
        offset := m.offset + width,
        temporaries := m.temporaries,
        tempwidths := m.tempwidths }) := by
  unfold Memory.store
  rw [if_pos ⟨hw, hv, h0, hcap⟩]

theorem memcpy_inside (dst : Nat → Byte) (start : Nat) (src : List Byte) (n j : Nat)
    (hj : j < n) (hn : n ≤ src.length) :
    src[j]? = some (memcpy dst start src n (start + j)) := by
  have hlt : j < src.length := by omega
  have hcond : start ≤ start + j ∧ start + j < start + n := by omega
  simp only [memcpy, hcond, and_self, if_true, Nat.add_sub_cancel_left]
  rw [List.getD_eq_getElem src 0 hlt]
  exact List.getElem?_eq_getElem hlt

theorem memcpy_outside (dst : Nat → Byte) (start : Nat) (src : List Byte) (n a : Nat)
    (h : a < start ∨ start + n ≤ a) : memcpy dst start src n a = dst a := by
  have hcond : ¬ (start ≤ a ∧ a < start + n) := by omega
  simp only [memcpy, hcond, if_false]

theorem MEMSIZE_le_storageBytes : (MEMSIZE : Int) ≤ (storageBytes : Int) := by decide

/-- C7: with cursor `o ≥ 0` and `o + width ≤ MEMSIZE`, `store(val, width)` (for
`width ≥ 0` bytes of an object `val` that has them) returns `o`, sets the cursor
to `o + width`, and makes the byte at `o + j` equal to the `j`-th byte of `val`
for every `j < width`; the other bytes and the two logs are unchanged. -/
theorem store_copies_and_advances (m : Memory) (val : List Byte) (width : Int)
    (hw : 0 ≤ width) (hv : width ≤ val.length) (h0 : 0 ≤ m.offset)
    (hcap : m.offset + width ≤ MEMSIZE) :
    ∃ m1, m.store val width = Except.ok (m.offset, m1) ∧
      m1.offset = m.offset + width ∧
      (∀ j : Nat, (j : Int) < width → val[j]? = some (m1.storage (m.offset.toNat + j))) ∧
      (∀ a : Nat, ((a : Int) < m.offset ∨ m.offset + width ≤ a) → m1.storage a = m.storage a) ∧
      m1.temporaries = m.temporaries ∧ m1.tempwidths = m.tempwidths := by
  have hcap1 : m.offset + width ≤ storageBytes := le_trans hcap MEMSIZE_le_storageBytes
  refine ⟨_, store_ok m val width hw hv h0 hcap1, rfl, ?_, ?_, rfl, rfl⟩
  · intro j hj
    exact memcpy_inside _ _ _ _ _ (by omega) (by omega)
  · intro a ha
    exact memcpy_outside _ _ _ _ _ (by omega)

/-- A witness of C7: storing the `int` 1 in a fresh memory. -/
theorem store_copies_and_advances_witness :
    ((0 : Int) ≤ 4 ∧ (4 : Int) ≤ (intBytes 1).length ∧
      0 ≤ (Memory.new (fun _ => 0)).offset ∧
      (Memory.new (fun _ => 0)).offset + 4 ≤ MEMSIZE) ∧
    ∃ m1, (Memory.new (fun _ => 0)).store (intBytes 1) 4 =
        Except.ok ((Memory.new (fun _ => 0)).offset, m1) ∧
      m1.offset = (Memory.new (fun _ => 0)).offset + 4 ∧
      (∀ j : Nat, (j : Int) < 4 →
        (intBytes 1)[j]? = some (m1.storage ((Memory.new (fun _ => 0)).offset.toNat + j))) ∧
      (∀ a : Nat, ((a : Int) < (Memory.new (fun _ => 0)).offset ∨
          (Memory.new (fun _ => 0)).offset + 4 ≤ a) →
        m1.storage a = (Memory.new (fun _ => 0)).storage a) ∧
      m1.temporaries = (Memory.new (fun _ => 0)).temporaries ∧
      m1.tempwidths = (Memory.new (fun _ => 0)).tempwidths :=
  ⟨by decide, store_copies_and_advances (Memory.new (fun _ => 0)) (intBytes 1) 4
    (by decide) (by decide) (by decide) (by decide)⟩

/-- C8, as stated, fails: with the cursor at 124, storing the 8 bytes of the
fraction 1|1 goes past `MEMSIZE = 128`, and `store` returns 124 without an
error, moves the cursor to 132 and overwrites the byte at 124. -/
theorem store_past_MEMSIZE_returns :
    memNearFull.offset + 8 > MEMSIZE ∧
    ∃ m1, memNearFull.store (fractionBytes { num := 1, denom := 1 }) 8 =
        Except.ok (124, m1) ∧
      m1.offset = 132 ∧ memNearFull.storage 124 = 0 ∧ m1.storage 124 = 1 :=
  ⟨by decide, _, store_ok memNearFull _ 8 (by decide) (by decide) (by decide) (by decide),
    rfl, rfl, by decide⟩

/-- C8, amended: `store` has no capacity check.  When `o + width` exceeds
`MEMSIZE` but not the size of the allocated block, `store` returns `o` without an
error, writes the `width` bytes at `o` and moves the cursor to `o + width`. -/
theorem store_unchecked_past_MEMSIZE (m : Memory) (val : List Byte) (width : Int)
    (hw : 0 ≤ width) (hv : width ≤ val.length) (h0 : 0 ≤ m.offset)
    (_hover : m.offset + width > MEMSIZE) (hcap : m.offset + width ≤ storageBytes) :
    ∃ m1, m.store val width = Except.ok (m.offset, m1) ∧
      m1.offset = m.offset + width ∧
      ∀ j : Nat, (j : Int) < width → val[j]? = some (m1.storage (m.offset.toNat + j)) := by
  refine ⟨_, store_ok m val width hw hv h0 hcap, rfl, ?_⟩
  intro j hj
  exact memcpy_inside _ _ _ _ _ (by omega) (by omega)

/-- A witness of the amended C8. -/
theorem store_unchecked_past_MEMSIZE_witness :
    ((0 : Int) ≤ 8 ∧ (8 : Int) ≤ (fractionBytes { num := 1, denom := 1 }).length ∧
      0 ≤ memNearFull.offset ∧ memNearFull.offset + 8 > MEMSIZE ∧
      memNearFull.offset + 8 ≤ storageBytes) ∧
    ∃ m1, memNearFull.store (fractionBytes { num := 1, denom := 1 }) 8 =
        Except.ok (memNearFull.offset, m1) ∧
      m1.offset = memNearFull.offset + 8 ∧
      ∀ j : Nat, (j : Int) < 8 →
        (fractionBytes { num := 1, denom := 1 })[j]? =
          some (m1.storage (memNearFull.offset.toNat + j)) :=
  ⟨by decide, store_unchecked_past_MEMSIZE memNearFull _ 8
    (by decide) (by decide) (by decide) (by decide) (by decide)⟩

/-- C9: with cursor `o ≥ 0` and `o + w ≤ MEMSIZE`, storing the `w` bytes `b`
returns `o`, and reading `w` bytes through `retrieve(o)` afterwards yields `b`. -/
theorem store_retrieve_roundtrip (m : Memory) (b : List Byte) (h0 : 0 ≤ m.offset)
    (hcap : m.offset + b.length ≤ MEMSIZE) :
    ∃ o m1 ptr, m.store b b.length = Except.ok (o, m1) ∧
      m1.retrieve o = Except.ok ptr ∧ m1.readBytes ptr b.length = Except.ok b := by
  have hM := MEMSIZE_le_storageBytes
  have hcap1 : m.offset + (b.length : Int) ≤ storageBytes := le_trans hcap hM
  refine ⟨m.offset, _, m.offset.toNat,
    store_ok m b b.length (Int.ofNat_nonneg _) (le_refl _) h0 hcap1, ?_, ?_⟩
  · unfold Memory.retrieve
    rw [if_pos ⟨h0, by omega⟩]
  · unfold Memory.readBytes
    have hb : m.offset.toNat + b.length ≤ storageBytes := by omega
    rw [if_pos hb]
    congr 1
    apply List.ext_getElem?
    intro n
    rw [List.getElem?_map]
    by_cases hn : n < b.length
    · rw [List.getElem?_range hn]
      simp only [Option.map_some', Int.toNat_ofNat]
      exact (memcpy_inside _ _ _ _ _ hn (le_refl _)).symm
    · rw [List.getElem?_eq_none (by simpa using hn), List.getElem?_eq_none (by omega)]
      rfl

/-- A witness of C9: the 8 bytes of the fraction 1|1 in a fresh memory. -/
theorem store_retrieve_roundtrip_witness :
    (0 ≤ (Memory.new (fun _ => 0)).offset ∧
      (Memory.new (fun _ => 0)).offset +
        (fractionBytes { num := 1, denom := 1 }).length ≤ MEMSIZE) ∧
    ∃ o m1 ptr, (Memory.new (fun _ => 0)).store (fractionBytes { num := 1, denom := 1 })
        (fractionBytes { num := 1, denom := 1 }).length = Except.ok (o, m1) ∧
      m1.retrieve o = Except.ok ptr ∧
      m1.readBytes ptr (fractionBytes { num := 1, denom := 1 }).length =
        Except.ok (fractionBytes { num := 1, denom := 1 }) :=
  ⟨by decide, store_retrieve_roundtrip (Memory.new (fun _ => 0))
    (fractionBytes { num := 1, denom := 1 }) (by decide) (by decide)⟩

/-! ## Allocation -/

theorem store_inv (m : Memory) (val : List Byte) (width : Int) (r : Int × Memory)
    (h : m.store val width = Except.ok r) :
    0 ≤ m.offset ∧ m.offset + width ≤ storageBytes ∧ r.1 = m.offset ∧
      r.2.offset = m.offset + width ∧ r.2.temporaries = m.temporaries ∧
      r.2.tempwidths = m.tempwidths := by
  unfold Memory.store at h
  by_cases hc : 0 ≤ width ∧ width ≤ val.length ∧ 0 ≤ m.offset ∧ m.offset + width ≤ storageBytes
  · rw [if_pos hc] at h
    injection h with h
    subst h
    exact ⟨hc.2.2.1, hc.2.2.2, rfl, rfl, rfl, rfl⟩
  · rw [if_neg hc] at h
    cases h

theorem varWidth_pos (c : Char) (t : typeName) (o : Int) :
    0 < (VarAddress.new c t o).getWidth := by
  cases t
  · show (0 : Int) < sizeofInt
    decide
  · show (0 : Int) < sizeofFloat
    decide
  · show (0 : Int) < 8
    decide

theorem storeDefault_inv (m : Memory) (t : typeName) (r : Int × Memory) (c : Char) (o : Int)
    (h : storeDefault m t = Except.ok r) :
    0 ≤ m.offset ∧ m.offset + (VarAddress.new c t o).getWidth ≤ storageBytes ∧ r.1 = m.offset ∧
      r.2.offset = m.offset + (VarAddress.new c t o).getWidth ∧
      r.2.temporaries = m.temporaries ∧ r.2.tempwidths = m.tempwidths := by
  cases t with
  | intType => exact store_inv m _ _ r h
  | floatType => exact store_inv m _ _ r h
  | fractionType => exact store_inv m _ _ r h

theorem storeDefault_ok (m : Memory) (t : typeName) (c : Char) (o : Int) (h0 : 0 ≤ m.offset)
    (hcap : m.offset + (VarAddress.new c t o).getWidth ≤ storageBytes) :
    ∃ r, storeDefault m t = Except.ok r := by
  cases t with
  | intType =>
    exact ⟨_, store_ok m (intBytes 0) sizeofInt (by decide) (by decide) h0 hcap⟩
  | floatType =>
    exact ⟨_, store_ok m floatZeroBytes sizeofFloat (by decide) (by decide) h0 hcap⟩
  | fractionType =>
    exact ⟨_, store_ok m (fractionBytes { num := 1, denom := 1 }) (2 * sizeofInt)
      (by decide) (by decide) h0 hcap⟩

theorem symIndex_range (c : Char) (h : 'a' ≤ c ∧ c ≤ 'z') :
    0 ≤ symIndex c ∧ symIndex c < SYMSIZE := by
  obtain ⟨h1, h2⟩ := h
  have h1a : ('a' : Char).toNat ≤ c.toNat := h1
  have h2a : c.toNat ≤ ('z' : Char).toNat := h2
  have ha : ('a' : Char).toNat = 97 := rfl
  have hz : ('z' : Char).toNat = 122 := rfl
  have hs : SYMSIZE = 26 := rfl
  unfold symIndex
  omega

theorem AllocCall.run_put_inv (st st1 : AllocState) (c : Char) (t : typeName)
    (h : (AllocCall.put c t).run st = Except.ok st1) :
    st1.created = st.created ++ [VarAddress.new c t st.ps.mem.offset] ∧
      st1.ps.counter = st.ps.counter ∧
      st1.ps.mem.offset = st.ps.mem.offset + (VarAddress.new c t 0).getWidth ∧
      st1.ps.mem.temporaries = st.ps.mem.temporaries ∧
      st1.ps.mem.tempwidths = st.ps.mem.tempwidths ∧ 0 ≤ st.ps.mem.offset := by
  simp only [AllocCall.run, SimpleArraySymTbl.put] at h
  cases hs : storeDefault st.ps.mem t with
  | error e => rw [hs] at h; cases h
  | ok r =>
    rw [hs] at h
    obtain ⟨h0, _, hr1, hr2, hr3, hr4⟩ := storeDefault_inv st.ps.mem t r c 0 hs
    by_cases hidx : 0 ≤ symIndex c ∧ symIndex c < SYMSIZE
    · simp only [hidx, and_self, if_true, SimpleArraySymTbl.get] at h
      injection h with h
      subst h
      refine ⟨?_, rfl, hr2, hr3, hr4, h0⟩
      rw [hr1]
    · simp only [hidx, if_false] at h
      cases h

theorem AllocCall.run_put_ok (st : AllocState) (c : Char) (t : typeName)
    (hc : 'a' ≤ c ∧ c ≤ 'z') (h0 : 0 ≤ st.ps.mem.offset)
    (hcap : st.ps.mem.offset + (VarAddress.new c t 0).getWidth ≤ storageBytes) :
    ∃ st1, (AllocCall.put c t).run st = Except.ok st1 := by
  obtain ⟨r, hr⟩ := storeDefault_ok st.ps.mem t c 0 h0 hcap
  have hidx := symIndex_range c hc
  simp only [AllocCall.run, SimpleArraySymTbl.put, hr, hidx, and_self, if_true,
    SimpleArraySymTbl.get]
  exact ⟨_, rfl⟩

theorem AllocCall.run_temp_inv (st st1 : AllocState) (w : Int)
    (h : (AllocCall.getNewTemp w).run st = Except.ok st1) :
    st1.created = st.created ∧ st1.ps.counter = st.ps.counter + 1 ∧
      st1.ps.mem.offset = st.ps.mem.offset + w ∧
      st1.ps.mem.temporaries =
        st.ps.mem.temporaries ++ [{ name := st.ps.counter, offset := st.ps.mem.offset }] ∧
      st1.ps.mem.tempwidths = st.ps.mem.tempwidths ++ [w] ∧
      st1.ps.mem.storage = st.ps.mem.storage := by
  simp only [AllocCall.run, Memory.getNewTemp, TempAddress.new] at h
  by_cases h1 : inIntRange (st.ps.mem.offset + w)
  · by_cases h2 : inIntRange (st.ps.counter + 1)
    · simp only [h1, h2, if_true] at h
      injection h with h
      subst h
      exact ⟨rfl, rfl, rfl, rfl, rfl, rfl⟩
    · simp only [h1, h2, if_true, if_false] at h
      cases h
  · simp only [h1, if_false] at h
    cases h

theorem AllocCall.run_temp_ok (st : AllocState) (w : Int)
    (h1 : inIntRange (st.ps.mem.offset + w)) (h2 : inIntRange (st.ps.counter + 1)) :
    ∃ st1, (AllocCall.getNewTemp w).run st = Except.ok st1 := by
  simp only [AllocCall.run, Memory.getNewTemp, TempAddress.new, h1, h2, if_true]
  exact ⟨_, rfl⟩

theorem ByteRange.disjoint_symm {a b : ByteRange} (h : a.disjoint b) : b.disjoint a :=
  Or.symm h

theorem AllocCall.bytes_pos (c : AllocCall) (h : c.wellFormed) : 0 < c.bytes := by
  cases c with
  | put lexeme type => exact varWidth_pos lexeme type 0
  | getNewTemp w => exact h

theorem totalBytes_cons (c : AllocCall) (cs : List AllocCall) :
    totalBytes (c :: cs) = c.bytes + totalBytes cs := by
  simp [totalBytes]

theorem totalBytes_nonneg (calls : List AllocCall) (h : ∀ c ∈ calls, c.wellFormed) :
    0 ≤ totalBytes calls := by
  induction calls with
  | nil => simp [totalBytes]
  | cons c cs ih =>
    rw [totalBytes_cons]
    have h1 := AllocCall.bytes_pos c (h c (List.mem_cons_self c cs))
    have h2 := ih (fun d hd => h d (List.mem_cons_of_mem c hd))
    omega

/-- One allocating call hands out the range that starts at the cursor and has
the requested width, and moves the cursor to its end. -/
theorem AllocCall.run_ranges (st st1 : AllocState) (c : AllocCall)
    (h : c.run st = Except.ok st1)
    (hlen : st.ps.mem.temporaries.length = st.ps.mem.tempwidths.length) :
    st1.ps.mem.offset = st.ps.mem.offset + c.bytes ∧
      st1.ps.mem.temporaries.length = st1.ps.mem.tempwidths.length ∧
      st1.ranges.Perm
        (st.ranges ++ [{ lo := st.ps.mem.offset, hi := st.ps.mem.offset + c.bytes }]) := by
  cases c with
  | put lexeme type =>
    obtain ⟨hcr, _, hoff, htmp, hwid, _⟩ := AllocCall.run_put_inv st st1 lexeme type h
    refine ⟨hoff, by rw [htmp, hwid]; exact hlen, ?_⟩
    have hr : st1.ranges = (st.created.map VarAddress.range ++
        [{ lo := st.ps.mem.offset,
           hi := st.ps.mem.offset + (AllocCall.put lexeme type).bytes }]) ++
        st.ps.mem.tempRanges := by
      simp only [AllocState.ranges, Memory.tempRanges, hcr, htmp, hwid, List.map_append,
        List.map_cons, List.map_nil]
      rfl
    rw [hr]
    simp only [AllocState.ranges, List.append_assoc]
    exact List.Perm.append_left _ List.perm_append_comm
  | getNewTemp w =>
    obtain ⟨hcr, _, hoff, htmp, hwid, _⟩ := AllocCall.run_temp_inv st st1 w h
    refine ⟨hoff, by rw [htmp, hwid]; simp [hlen], ?_⟩
    have hr : st1.ranges = st.ranges ++
        [{ lo := st.ps.mem.offset, hi := st.ps.mem.offset + (AllocCall.getNewTemp w).bytes }] := by
      simp only [AllocState.ranges, Memory.tempRanges, hcr, htmp, hwid]
      rw [List.zipWith_append _ _ _ _ _ hlen, List.append_assoc]
      rfl
    rw [hr]

theorem runAllocs_inv (calls : List AllocCall) :
    ∀ st st1 : AllocState, (∀ c ∈ calls, c.wellFormed) →
      runAllocs st calls = Except.ok st1 →
      st.ps.mem.temporaries.length = st.ps.mem.tempwidths.length →
      (∀ r ∈ st.ranges, r.hi ≤ st.ps.mem.offset) →
      List.Pairwise ByteRange.disjoint st.ranges →
      st1.ps.mem.temporaries.length = st1.ps.mem.tempwidths.length ∧
        (∀ r ∈ st1.ranges, r.hi ≤ st1.ps.mem.offset) ∧
        List.Pairwise ByteRange.disjoint st1.ranges ∧
        st1.ranges.length = st.ranges.length + calls.length := by
  induction calls with
  | nil =>
    intro st st1 _ h hlen hb hp
    simp only [runAllocs] at h
    injection h with h
    subst h
    exact ⟨hlen, hb, hp, rfl⟩
  | cons c cs ih =>
    intro st st1 hwf h hlen hb hp
    simp only [runAllocs] at h
    cases hc : c.run st with
    | error e => rw [hc] at h; cases h
    | ok st2 =>
      rw [hc] at h
      obtain ⟨hoff, hlen2, hperm⟩ := AllocCall.run_ranges st st2 c hc hlen
      have hpos := AllocCall.bytes_pos c (hwf c (List.mem_cons_self c cs))
      have hb2 : ∀ r ∈ st2.ranges, r.hi ≤ st2.ps.mem.offset := by
        intro r hr
        rcases List.mem_append.mp (hperm.mem_iff.mp hr) with hr1 | hr1
        · have := hb r hr1
          omega
        · have hr2 : r = { lo := st.ps.mem.offset, hi := st.ps.mem.offset + c.bytes } := by
            simpa using hr1
          rw [hr2, hoff]
      have hp2 : List.Pairwise ByteRange.disjoint st2.ranges := by
        rw [List.Perm.pairwise_iff (fun h => ByteRange.disjoint_symm h) hperm]
        rw [List.pairwise_append]
        refine ⟨hp, List.pairwise_singleton _ _, ?_⟩
        intro a ha b hb1
        have hb2 : b = { lo := st.ps.mem.offset, hi := st.ps.mem.offset + c.bytes } := by
          simpa using hb1
        rw [hb2]
        exact Or.inl (hb a ha)
      obtain ⟨r1, r2, r3, r4⟩ :=
        ih st2 st1 (fun d hd => hwf d (List.mem_cons_of_mem c hd)) h hlen2 hb2 hp2
      refine ⟨r1, r2, r3, ?_⟩
      rw [r4, hperm.length_eq]
      simp only [List.length_append, List.length_cons, List.length_nil]
      omega

theorem runAllocs_ok (calls : List AllocCall) :
    ∀ st : AllocState, (∀ c ∈ calls, c.wellFormed) →
      0 ≤ st.ps.mem.offset → st.ps.mem.offset + totalBytes calls ≤ storageBytes →
      INT_MIN ≤ st.ps.counter → st.ps.counter + calls.length ≤ INT_MAX →
      ∃ st1, runAllocs st calls = Except.ok st1 := by
  induction calls with
  | nil => intro st _ _ _ _ _; exact ⟨st, rfl⟩
  | cons c cs ih =>
    intro st hwf h0 hcap hmin hmax
    have hwfc := hwf c (List.mem_cons_self c cs)
    have hwfs : ∀ d ∈ cs, d.wellFormed := fun d hd => hwf d (List.mem_cons_of_mem c hd)
    have hpos := AllocCall.bytes_pos c hwfc
    have hnn := totalBytes_nonneg cs hwfs
    rw [totalBytes_cons] at hcap
    simp only [List.length_cons, Nat.cast_add, Nat.cast_one] at hmax
    have hS : (storageBytes : Int) = 1024 := by decide
    have hMax : INT_MAX = 2147483647 := rfl
    have hMin : INT_MIN = -2147483648 := rfl
    have hstep : ∃ st2, c.run st = Except.ok st2 ∧
        st2.ps.mem.offset = st.ps.mem.offset + c.bytes ∧
        st.ps.counter ≤ st2.ps.counter ∧ st2.ps.counter ≤ st.ps.counter + 1 := by
      cases c with
      | put lexeme type =>
        obtain ⟨st2, hst2⟩ := AllocCall.run_put_ok st lexeme type hwfc h0 (by
          have : (AllocCall.put lexeme type).bytes = (VarAddress.new lexeme type 0).getWidth := rfl
          omega)
        obtain ⟨_, hcnt, hoff, _, _, _⟩ := AllocCall.run_put_inv st st2 lexeme type hst2
        exact ⟨st2, hst2, hoff, by omega, by omega⟩
      | getNewTemp w =>
        have hw : (AllocCall.getNewTemp w).bytes = w := rfl
        obtain ⟨st2, hst2⟩ := AllocCall.run_temp_ok st w
          (by unfold inIntRange; omega) (by unfold inIntRange; omega)
        obtain ⟨_, hcnt, hoff, _, _, _⟩ := AllocCall.run_temp_inv st st2 w hst2
        exact ⟨st2, hst2, hoff, by omega, by omega⟩
    obtain ⟨st2, hrun, hoff, hc1, hc2⟩ := hstep
    obtain ⟨st1, hst1⟩ := ih st2 hwfs (by omega) (by omega) (by omega) (by omega)
    refine ⟨st1, ?_⟩
    simp only [runAllocs, hrun]
    exact hst1

/-- C6: from a fresh memory and an empty symbol table, after every sequence of
`put(c, t)` with `c` in `'a'..'z'` and `getNewTemp(w)` with `w > 0` that runs
inside the allocated block, there is one byte range per call (those of the
Variables created, overwritten ones included, and of the Temporaries of the log)
and these ranges are pairwise disjoint.  The run is inside the block whenever the
widths add up to at most its size. -/
theorem allocations_disjoint (garbage : Nat → Byte) (counter0 : Int)
    (calls : List AllocCall) (hwf : ∀ c ∈ calls, c.wellFormed) :
    (totalBytes calls ≤ storageBytes → INT_MIN ≤ counter0 →
      counter0 + calls.length ≤ INT_MAX →
      ∃ st, runAllocs (AllocState.fresh garbage counter0) calls = Except.ok st) ∧
    ∀ st, runAllocs (AllocState.fresh garbage counter0) calls = Except.ok st →
      st.ranges.length = calls.length ∧ List.Pairwise ByteRange.disjoint st.ranges := by
  constructor
  · intro hcap hmin hmax
    exact runAllocs_ok calls (AllocState.fresh garbage counter0) hwf (le_refl _)
      (by simpa [AllocState.fresh, Memory.new] using hcap) hmin hmax
  · intro st hrun
    obtain ⟨_, _, hp, hl⟩ := runAllocs_inv calls (AllocState.fresh garbage counter0) st hwf hrun
      rfl (by intro r hr; simp [AllocState.fresh, AllocState.ranges, Memory.new,
        Memory.tempRanges] at hr) (by simp [AllocState.fresh, AllocState.ranges, Memory.new,
        Memory.tempRanges])
    refine ⟨?_, hp⟩
    rw [hl]
    simp [AllocState.fresh, AllocState.ranges, Memory.new, Memory.tempRanges]

/-- A witness of C6: the sample run returns, and its five ranges are pairwise
disjoint. -/
theorem allocations_disjoint_witness :
    (∀ c ∈ sampleAllocs, c.wellFormed) ∧
    ∃ st, runAllocs (AllocState.fresh (fun _ => 0) 0) sampleAllocs = Except.ok st ∧
      st.ranges.length = sampleAllocs.length ∧ List.Pairwise ByteRange.disjoint st.ranges :=
  have hwf : ∀ c ∈ sampleAllocs, c.wellFormed := by decide
  match (allocations_disjoint (fun _ => 0) 0 sampleAllocs hwf).1
      (by decide) (by decide) (by decide) with
  | ⟨st, hst⟩ =>
    ⟨hwf, st, hst, (allocations_disjoint (fun _ => 0) 0 sampleAllocs hwf).2 st hst⟩

/-! ## Names of temporaries -/

theorem getNewTemp_inv (ps ps1 : Process) (w : Int) (t : TempAddress)
    (h : Memory.getNewTemp ps w = Except.ok (t, ps1)) :
    t.name = ps.counter ∧ t.getOffset = ps.mem.offset ∧ ps1.counter = ps.counter + 1 := by
  simp only [Memory.getNewTemp, TempAddress.new] at h
  by_cases h1 : inIntRange (ps.mem.offset + w)
  · by_cases h2 : inIntRange (ps.counter + 1)
    · simp only [h1, h2, if_true] at h
      injection h with h
      injection h with ht hps
      subst ht
      subst hps
      exact ⟨rfl, rfl, rfl⟩
    · simp only [h1, h2, if_true, if_false] at h
      cases h
  · simp only [h1, if_false] at h
    cases h

theorem getNewTemp_ok (ps : Process) (w : Int) (h1 : inIntRange (ps.mem.offset + w))
    (h2 : inIntRange (ps.counter + 1)) :
    ∃ t ps1, Memory.getNewTemp ps w = Except.ok (t, ps1) := by
  simp only [Memory.getNewTemp, TempAddress.new, h1, h2, if_true]
  exact ⟨_, _, rfl⟩

theorem runAllocs_temps (calls : List AllocCall) :
    ∀ st st1 : AllocState, runAllocs st calls = Except.ok st1 →
      ∃ ts : List TempAddress, st1.ps.mem.temporaries = st.ps.mem.temporaries ++ ts ∧
        ts.length = (tempCalls calls).length ∧
        st1.ps.counter = st.ps.counter + ts.length ∧
        ∀ (j : Nat) (t : TempAddress), ts[j]? = some t → t.name = st.ps.counter + j := by
  induction calls with
  | nil =>
    intro st st1 h
    simp only [runAllocs] at h
    injection h with h
    subst h
    exact ⟨[], by simp, rfl, by simp, by simp⟩
  | cons c cs ih =>
    intro st st1 h
    simp only [runAllocs] at h
    cases hc : c.run st with
    | error e => rw [hc] at h; cases h
    | ok st2 =>
      rw [hc] at h
      obtain ⟨ts2, htmp2, hlen2, hcnt2, hname2⟩ := ih st2 st1 h
      cases c with
      | put lexeme type =>
        obtain ⟨_, hcnt, _, htmp, _, _⟩ := AllocCall.run_put_inv st st2 lexeme type hc
        refine ⟨ts2, by rw [htmp2, htmp], hlen2, by rw [hcnt2, hcnt], ?_⟩
        intro j t hj
        rw [hname2 j t hj, hcnt]
      | getNewTemp w =>
        obtain ⟨_, hcnt, _, htmp, _, _⟩ := AllocCall.run_temp_inv st st2 w hc
        refine ⟨{ name := st.ps.counter, offset := st.ps.mem.offset } :: ts2, ?_, ?_, ?_, ?_⟩
        · rw [htmp2, htmp, List.append_assoc]; rfl
        · simp only [tempCalls, List.length_cons, hlen2]
        · rw [hcnt2, hcnt, List.length_cons]; push_cast; omega
        · intro j t hj
          cases j with
          | zero =>
            simp only [List.getElem?_cons_zero, Option.some.injEq] at hj
            subst hj
            simp
          | succ k =>
            simp only [List.getElem?_cons_succ] at hj
            rw [hname2 k t hj, hcnt]
            push_cast
            omega

/-- C10: a call of `getNewTemp` that returns gives the Temporary the value of
`TempAddress::counter` as its name and increments the counter by one, and it
returns whenever the new cursor and the new counter are representable.  So in
every run of declarations and `getNewTemp` calls the Temporaries created are
appended to the log one per call, the `j`-th of them is named `counter + j`, and
their names are strictly increasing in creation order and pairwise distinct. -/
theorem temp_names_increase (st st1 : AllocState) (calls : List AllocCall)
    (h : runAllocs st calls = Except.ok st1) :
    (∀ (ps : Process) (w : Int), inIntRange (ps.mem.offset + w) → inIntRange (ps.counter + 1) →
      ∃ t ps1, Memory.getNewTemp ps w = Except.ok (t, ps1) ∧ t.name = ps.counter ∧
        ps1.counter = ps.counter + 1) ∧
    ∃ ts : List TempAddress, st1.ps.mem.temporaries = st.ps.mem.temporaries ++ ts ∧
      ts.length = (tempCalls calls).length ∧
      st1.ps.counter = st.ps.counter + ts.length ∧
      (∀ (j : Nat) (t : TempAddress), ts[j]? = some t → t.name = st.ps.counter + j) ∧
      (∀ (j k : Nat) (t u : TempAddress), ts[j]? = some t → ts[k]? = some u → j < k →
        t.name < u.name) ∧
      (∀ (j k : Nat) (t u : TempAddress), ts[j]? = some t → ts[k]? = some u → j ≠ k →
        t.name ≠ u.name) := by
  constructor
  · intro ps w h1 h2
    obtain ⟨t, ps1, hrun⟩ := getNewTemp_ok ps w h1 h2
    obtain ⟨hn, _, hc⟩ := getNewTemp_inv ps ps1 w t hrun
    exact ⟨t, ps1, hrun, hn, hc⟩
  · obtain ⟨ts, htmp, hlen, hcnt, hname⟩ := runAllocs_temps calls st st1 h
    refine ⟨ts, htmp, hlen, hcnt, hname, ?_, ?_⟩
    · intro j k t u hj hk hjk
      rw [hname j t hj, hname k u hk]
      omega
    · intro j k t u hj hk hjk
      rw [hname j t hj, hname k u hk]
      omega

/-- A witness of C10: the two temporaries of `twoTemps` are named 0 and 1. -/
theorem temp_names_increase_witness :
    runAllocs (AllocState.fresh (fun _ => 0) 0)
        [AllocCall.getNewTemp 4, AllocCall.getNewTemp 8] = Except.ok twoTemps ∧
    ∃ ts : List TempAddress,
      twoTemps.ps.mem.temporaries =
        (AllocState.fresh (fun _ => 0) 0).ps.mem.temporaries ++ ts ∧
      ts.length = (tempCalls [AllocCall.getNewTemp 4, AllocCall.getNewTemp 8]).length ∧
      twoTemps.ps.counter = (AllocState.fresh (fun _ => 0) 0).ps.counter + ts.length ∧
      (∀ (j : Nat) (t : TempAddress), ts[j]? = some t →
        t.name = (AllocState.fresh (fun _ => 0) 0).ps.counter + j) ∧
      (∀ (j k : Nat) (t u : TempAddress), ts[j]? = some t → ts[k]? = some u → j < k →
        t.name < u.name) ∧
      (∀ (j k : Nat) (t u : TempAddress), ts[j]? = some t → ts[k]? = some u → j ≠ k →
        t.name ≠ u.name) :=
  ⟨rfl, (temp_names_increase (AllocState.fresh (fun _ => 0) 0) twoTemps
    [AllocCall.getNewTemp 4, AllocCall.getNewTemp 8] rfl).2⟩

/-! ## Reserving temporaries -/

theorem getNewTemp_eq (ps : Process) (w : Int) (h1 : inIntRange (ps.mem.offset + w))
    (h2 : inIntRange (ps.counter + 1)) :
    Memory.getNewTemp ps w = Except.ok
      ({ name := ps.counter, offset := ps.mem.offset },
        { counter := ps.counter + 1,
          mem :=
            { storage := ps.mem.storage,
              offset := ps.mem.offset + w,
              temporaries := ps.mem.temporaries ++ [{ name := ps.counter, offset := ps.mem.offset }],
              tempwidths := ps.mem.tempwidths ++ [w] } }) := by
  simp only [Memory.getNewTemp, TempAddress.new, h1, h2, if_true]

theorem runAllocs_widths (calls : List AllocCall) :
    ∀ st st1 : AllocState, runAllocs st calls = Except.ok st1 →
      st1.ps.mem.tempwidths = st.ps.mem.tempwidths ++ tempCalls calls := by
  induction calls with
  | nil =>
    intro st st1 h
    simp only [runAllocs] at h
    injection h with h
    subst h
    simp [tempCalls]
  | cons c cs ih =>
    intro st st1 h
    simp only [runAllocs] at h
    cases hc : c.run st with
    | error e => rw [hc] at h; cases h
    | ok st2 =>
      rw [hc] at h
      have h2 := ih st2 st1 h
      cases c with
      | put lexeme type =>
        obtain ⟨_, _, _, _, hwid, _⟩ := AllocCall.run_put_inv st st2 lexeme type hc
        rw [h2, hwid]
        rfl
      | getNewTemp w =>
        obtain ⟨_, _, _, _, hwid, _⟩ := AllocCall.run_temp_inv st st2 w hc
        rw [h2, hwid, List.append_assoc]
        rfl

/-- C11: `getNewTemp(w)` with cursor `o` returns, when `o + w` and the next name
are representable, a Temporary at offset `o`; it sets the cursor to `o + w`,
leaves the storage as it was and appends the Temporary and `w` to the two logs.
Two consecutive calls `getNewTemp(4)`, `getNewTemp(8)` return the offsets `o`
and `o + 4`.  In every run from a fresh memory the two logs have the same length
and the log of widths lists the widths of the calls in order. -/
theorem getNewTemp_reserves :
    (∀ (ps : Process) (w : Int), inIntRange (ps.mem.offset + w) →
      inIntRange (ps.counter + 1) →
      ∃ t ps1, Memory.getNewTemp ps w = Except.ok (t, ps1) ∧
        t.getOffset = ps.mem.offset ∧ ps1.mem.offset = ps.mem.offset + w ∧
        ps1.mem.storage = ps.mem.storage ∧
        ps1.mem.temporaries = ps.mem.temporaries ++ [t] ∧
        ps1.mem.tempwidths = ps.mem.tempwidths ++ [w]) ∧
    (∀ ps : Process, inIntRange (ps.mem.offset + 4) → inIntRange (ps.mem.offset + 4 + 8) →
      inIntRange (ps.counter + 1) → inIntRange (ps.counter + 1 + 1) →
      ∃ t1 ps1 t2 ps2, Memory.getNewTemp ps 4 = Except.ok (t1, ps1) ∧
        Memory.getNewTemp ps1 8 = Except.ok (t2, ps2) ∧
        t1.getOffset = ps.mem.offset ∧ t2.getOffset = ps.mem.offset + 4) ∧
    (∀ (garbage : Nat → Byte) (counter0 : Int) (calls : List AllocCall) (st : AllocState),
      runAllocs (AllocState.fresh garbage counter0) calls = Except.ok st →
      st.ps.mem.temporaries.length = st.ps.mem.tempwidths.length ∧
        st.ps.mem.tempwidths = tempCalls calls) := by
  refine ⟨?_, ?_, ?_⟩
  · intro ps w h1 h2
    exact ⟨_, _, getNewTemp_eq ps w h1 h2, rfl, rfl, rfl, rfl, rfl⟩
  · intro ps h1 h2 h3 h4
    refine ⟨_, _, _, _, getNewTemp_eq ps 4 h1 h3, getNewTemp_eq _ 8 h2 h4, rfl, rfl⟩
  · intro garbage counter0 calls st h
    obtain ⟨ts, htmp, hlen, _, _⟩ := runAllocs_temps calls _ st h
    have hw := runAllocs_widths calls _ st h
    have hw1 : st.ps.mem.tempwidths = tempCalls calls := by
      rw [hw]; simp [AllocState.fresh, Memory.new]
    refine ⟨?_, hw1⟩
    rw [htmp, hw1]
    simp [AllocState.fresh, Memory.new, hlen]

/-- A witness of C11: a temporary of width 4 in a fresh memory. -/
theorem getNewTemp_reserves_witness :
    (inIntRange ((AllocState.fresh (fun _ => 0) 0).ps.mem.offset + 4) ∧
      inIntRange ((AllocState.fresh (fun _ => 0) 0).ps.counter + 1)) ∧
    ∃ t ps1, Memory.getNewTemp (AllocState.fresh (fun _ => 0) 0).ps 4 = Except.ok (t, ps1) ∧
      t.getOffset = (AllocState.fresh (fun _ => 0) 0).ps.mem.offset ∧
      ps1.mem.offset = (AllocState.fresh (fun _ => 0) 0).ps.mem.offset + 4 ∧
      ps1.mem.storage = (AllocState.fresh (fun _ => 0) 0).ps.mem.storage ∧
      ps1.mem.temporaries = (AllocState.fresh (fun _ => 0) 0).ps.mem.temporaries ++ [t] ∧
      ps1.mem.tempwidths = (AllocState.fresh (fun _ => 0) 0).ps.mem.tempwidths ++ [4] :=
  ⟨by decide, getNewTemp_reserves.1 (AllocState.fresh (fun _ => 0) 0).ps 4
    (by decide) (by decide)⟩

/-! ## Declarations -/

theorem storeDefault_eq (m : Memory) (t : typeName) (c : Char) (o : Int) :
    storeDefault m t = m.store (defaultBytes t) (VarAddress.new c t o).getWidth := by
  cases t <;> rfl

theorem defaultBytes_length (t : typeName) (c : Char) (o : Int) :
    ((defaultBytes t).length : Int) = (VarAddress.new c t o).getWidth := by
  cases t <;> rfl

theorem put_eq (tbl : SimpleArraySymTbl) (ps : Process) (c : Char) (t : typeName)
    (hc : 'a' ≤ c ∧ c ≤ 'z') (h0 : 0 ≤ ps.mem.offset)
    (hcap : ps.mem.offset + (VarAddress.new c t 0).getWidth ≤ storageBytes) :
    tbl.put ps c t = Except.ok (afterPut tbl ps c t) := by
  have hidx := symIndex_range c hc
  have hw := le_of_lt (varWidth_pos c t 0)
  have hlen := defaultBytes_length t c 0
  unfold SimpleArraySymTbl.put
  rw [storeDefault_eq ps.mem t c 0,
    store_ok ps.mem (defaultBytes t) _ hw (le_of_eq hlen.symm) h0 hcap]
  simp only [hidx, and_self, if_true]
  rfl

theorem put_ok_inv (tbl tbl1 : SimpleArraySymTbl) (ps ps1 : Process) (c : Char) (t : typeName)
    (h : tbl.put ps c t = Except.ok (tbl1, ps1)) :
    (0 ≤ symIndex c ∧ symIndex c < SYMSIZE) ∧ 0 ≤ ps.mem.offset ∧
      ps.mem.offset + (VarAddress.new c t 0).getWidth ≤ storageBytes ∧
      (tbl1, ps1) = afterPut tbl ps c t := by
  unfold SimpleArraySymTbl.put at h
  cases hs : storeDefault ps.mem t with
  | error e => rw [hs] at h; cases h
  | ok r =>
    rw [hs] at h
    obtain ⟨h0, hcap, _, _, _, _⟩ := storeDefault_inv ps.mem t r c 0 hs
    by_cases hidx : 0 ≤ symIndex c ∧ symIndex c < SYMSIZE
    · refine ⟨hidx, h0, hcap, ?_⟩
      have hw := le_of_lt (varWidth_pos c t 0)
      have hlen := defaultBytes_length t c 0
      rw [storeDefault_eq ps.mem t c 0,
        store_ok ps.mem (defaultBytes t) _ hw (le_of_eq hlen.symm) h0 hcap] at hs
      injection hs with hs
      subst hs
      simp only [hidx, and_self, if_true] at h
      injection h with h
      rw [← h]
      rfl
    · simp only [hidx, if_false] at h
      cases h

theorem get_eq (tbl : SimpleArraySymTbl) (c : Char) (hc : 0 ≤ symIndex c ∧ symIndex c < SYMSIZE) :
    tbl.get c = Except.ok (tbl.sym (symIndex c).toNat) := by
  unfold SimpleArraySymTbl.get
  rw [if_pos hc]

theorem get_afterPut_self (tbl : SimpleArraySymTbl) (ps : Process) (c : Char) (t : typeName)
    (hc : 0 ≤ symIndex c ∧ symIndex c < SYMSIZE) :
    (afterPut tbl ps c t).1.get c = Except.ok (some (VarAddress.new c t ps.mem.offset)) := by
  rw [get_eq _ c hc]
  simp only [afterPut, if_true]

theorem symIndex_toNat_inj (c d : Char) (hc : 0 ≤ symIndex c) (hd : 0 ≤ symIndex d)
    (h : (symIndex c).toNat = (symIndex d).toNat) : c = d := by
  have h1 : c.toNat = d.toNat := by
    unfold symIndex at hc hd h
    omega
  apply Char.ext
  apply UInt32.ext
  exact h1

theorem get_afterPut_other (tbl : SimpleArraySymTbl) (ps : Process) (c d : Char) (t : typeName)
    (hc : 0 ≤ symIndex c ∧ symIndex c < SYMSIZE) (hd : 0 ≤ symIndex d ∧ symIndex d < SYMSIZE)
    (hne : d ≠ c) :
    (afterPut tbl ps c t).1.get d = tbl.get d := by
  rw [get_eq _ d hd, get_eq _ d hd]
  have hidx : (symIndex d).toNat ≠ (symIndex c).toNat :=
    fun h => hne (symIndex_toNat_inj d c hd.1 hc.1 h)
  simp only [afterPut, hidx, if_false]

/-- C12: for every symbol table and every memory state that has room for the
variable, and every lexeme `c` in `'a'..'z'` and type `t`, `put(c, t)` returns and
afterwards `get(c)` returns a Variable with lexeme `c`, type `t` and, as offset,
the cursor as it was before the `put`. -/
theorem put_then_get (tbl : SimpleArraySymTbl) (ps : Process) (c : Char) (t : typeName)
    (hc : 'a' ≤ c ∧ c ≤ 'z') (h0 : 0 ≤ ps.mem.offset)
    (hcap : ps.mem.offset + (VarAddress.new c t 0).getWidth ≤ storageBytes) :
    ∃ tbl1 ps1 v, tbl.put ps c t = Except.ok (tbl1, ps1) ∧
      tbl1.get c = Except.ok (some v) ∧
      v.lexeme = c ∧ v.getType = t ∧ v.getOffset = ps.mem.offset :=
  ⟨_, _, _, put_eq tbl ps c t hc h0 hcap,
    get_afterPut_self tbl ps c t (symIndex_range c hc), rfl, rfl, rfl⟩

/-- A witness of C12: declaring `x` as a fraction in a fresh table. -/
theorem put_then_get_witness :
    (('a' ≤ 'x' ∧ 'x' ≤ 'z') ∧ 0 ≤ (AllocState.fresh (fun _ => 0) 0).ps.mem.offset ∧
      (AllocState.fresh (fun _ => 0) 0).ps.mem.offset +
        (VarAddress.new 'x' typeName.fractionType 0).getWidth ≤ storageBytes) ∧
    ∃ tbl1 ps1 v,
      SimpleArraySymTbl.new.put (AllocState.fresh (fun _ => 0) 0).ps 'x' typeName.fractionType =
        Except.ok (tbl1, ps1) ∧
      tbl1.get 'x' = Except.ok (some v) ∧
      v.lexeme = 'x' ∧ v.getType = typeName.fractionType ∧
      v.getOffset = (AllocState.fresh (fun _ => 0) 0).ps.mem.offset :=
  ⟨by decide, put_then_get SimpleArraySymTbl.new (AllocState.fresh (fun _ => 0) 0).ps 'x'
    typeName.fractionType (by decide) (by decide) (by decide)⟩

theorem AllocCall.run_put_eq (st st1 : AllocState) (d : Char) (t : typeName)
    (h : (AllocCall.put d t).run st = Except.ok st1) :
    (0 ≤ symIndex d ∧ symIndex d < SYMSIZE) ∧ (st1.tbl, st1.ps) = afterPut st.tbl st.ps d t := by
  simp only [AllocCall.run] at h
  cases hput : st.tbl.put st.ps d t with
  | error e => rw [hput] at h; cases h
  | ok r =>
    rw [hput] at h
    obtain ⟨hidx, _, _, hr⟩ := put_ok_inv st.tbl r.1 st.ps r.2 d t hput
    refine ⟨hidx, ?_⟩
    have hget : r.1.get d = Except.ok (some (VarAddress.new d t st.ps.mem.offset)) := by
      have h1 : r.1 = (afterPut st.tbl st.ps d t).1 := congrArg Prod.fst hr
      rw [h1]
      exact get_afterPut_self st.tbl st.ps d t hidx
    simp only [hget] at h
    injection h with h
    subst h
    exact hr

theorem AllocCall.run_temp_tbl (st st1 : AllocState) (w : Int)
    (h : (AllocCall.getNewTemp w).run st = Except.ok st1) : st1.tbl = st.tbl := by
  simp only [AllocCall.run] at h
  cases hrun : Memory.getNewTemp st.ps w with
  | error e => rw [hrun] at h; cases h
  | ok r =>
    rw [hrun] at h
    injection h with h
    subst h
    rfl

theorem AllocCall.run_get_other (st st1 : AllocState) (call : AllocCall) (c : Char)
    (hc : 0 ≤ symIndex c ∧ symIndex c < SYMSIZE) (hne : ¬ call.declares c)
    (h : call.run st = Except.ok st1) : st1.tbl.get c = st.tbl.get c := by
  cases call with
  | put d t =>
    obtain ⟨hd, heq⟩ := AllocCall.run_put_eq st st1 d t h
    have h1 : st1.tbl = (afterPut st.tbl st.ps d t).1 := congrArg Prod.fst heq
    rw [h1]
    exact get_afterPut_other st.tbl st.ps d c t hd hc (fun e => hne e.symm)
  | getNewTemp w =>
    rw [AllocCall.run_temp_tbl st st1 w h]

theorem runAllocs_get_other (calls : List AllocCall) (c : Char)
    (hc : 0 ≤ symIndex c ∧ symIndex c < SYMSIZE) :
    ∀ st st1 : AllocState, (∀ call ∈ calls, ¬ call.declares c) →
      runAllocs st calls = Except.ok st1 → st1.tbl.get c = st.tbl.get c := by
  induction calls with
  | nil =>
    intro st st1 _ h
    simp only [runAllocs] at h
    injection h with h
    subst h
    rfl
  | cons call cs ih =>
    intro st st1 hne h
    simp only [runAllocs] at h
    cases hrun : call.run st with
    | error e => rw [hrun] at h; cases h
    | ok st2 =>
      rw [hrun] at h
      rw [ih st2 st1 (fun d hd => hne d (List.mem_cons_of_mem call hd)) h]
      exact AllocCall.run_get_other st st2 call c hc (hne call (List.mem_cons_self call cs)) hrun

/-- C14: `get(c)` returns `NULL` for every lexeme `c` in `'a'..'z'` on a freshly
constructed table, and still does after every run of declarations (and requests
for temporaries) none of which declares `c`. -/
theorem get_undeclared (garbage : Nat → Byte) (counter0 : Int) (calls : List AllocCall)
    (st : AllocState) (c : Char) (hc : 'a' ≤ c ∧ c ≤ 'z')
    (hnot : ∀ call ∈ calls, ¬ call.declares c)
    (hrun : runAllocs (AllocState.fresh garbage counter0) calls = Except.ok st) :
    SimpleArraySymTbl.new.get c = Except.ok none ∧ st.tbl.get c = Except.ok none := by
  have hidx := symIndex_range c hc
  have hfresh : SimpleArraySymTbl.new.get c = Except.ok none := by
    rw [get_eq _ c hidx]
    rfl
  refine ⟨hfresh, ?_⟩
  rw [runAllocs_get_other calls c hidx _ st hnot hrun]
  exact hfresh

/-- A witness of C14: the sample run never declares `q`. -/
theorem get_undeclared_witness :
    (('a' ≤ 'q' ∧ 'q' ≤ 'z') ∧ ∀ call ∈ sampleAllocs, ¬ call.declares 'q') ∧
    ∃ st, runAllocs (AllocState.fresh (fun _ => 0) 0) sampleAllocs = Except.ok st ∧
      SimpleArraySymTbl.new.get 'q' = Except.ok none ∧ st.tbl.get 'q' = Except.ok none :=
  match runAllocs_ok sampleAllocs (AllocState.fresh (fun _ => 0) 0)
      (by decide) (by decide) (by decide) (by decide) (by decide) with
  | ⟨st, hst⟩ =>
    ⟨⟨by decide, by decide⟩, st, hst,
      get_undeclared (fun _ => 0) 0 sampleAllocs st 'q' (by decide) (by decide) hst⟩

theorem readBytes_memcpy (m1 : Memory) (storage : Nat → Byte) (start : Nat) (b : List Byte)
    (hs : m1.storage = memcpy storage start b b.length)
    (hb : start + b.length ≤ storageBytes) :
    m1.readBytes start b.length = Except.ok b := by
  unfold Memory.readBytes
  rw [if_pos hb]
  congr 1
  apply List.ext_getElem?
  intro n
  rw [List.getElem?_map]
  by_cases hn : n < b.length
  · rw [List.getElem?_range hn, hs]
    simp only [Option.map_some']
    exact (memcpy_inside _ _ _ _ _ hn (le_refl _)).symm
  · rw [List.getElem?_eq_none (by simpa using hn), List.getElem?_eq_none (by omega)]
    rfl

/-- C15: for every lexeme `c` in `'a'..'z'`, every type `t` and every memory with
room for the variable, right after `put(c, t)` the bytes of the range of the
Variable that `get(c)` returns are those of the `int` 0 for `intType`, of the
`float` 0 for `floatType` (four zero bytes in both cases), and of two
consecutive `int`s equal to 1 for `fractionType`. -/
theorem put_default_bytes (tbl : SimpleArraySymTbl) (ps : Process) (c : Char) (t : typeName)
    (hc : 'a' ≤ c ∧ c ≤ 'z') (h0 : 0 ≤ ps.mem.offset)
    (hcap : ps.mem.offset + (VarAddress.new c t 0).getWidth ≤ storageBytes) :
    ∃ tbl1 ps1 v ptr, tbl.put ps c t = Except.ok (tbl1, ps1) ∧
      tbl1.get c = Except.ok (some v) ∧
      ps1.mem.retrieve v.getOffset = Except.ok ptr ∧
      ps1.mem.readBytes ptr v.getWidth.toNat = Except.ok (defaultBytes t) ∧
      defaultBytes typeName.intType = [0, 0, 0, 0] ∧
      defaultBytes typeName.floatType = [0, 0, 0, 0] ∧
      defaultBytes typeName.fractionType = intBytes 1 ++ intBytes 1 ∧
      intBytes 1 = [1, 0, 0, 0] := by
  have hidx := symIndex_range c hc
  have hpos := varWidth_pos c t 0
  have hlen := defaultBytes_length t c 0
  refine ⟨_, _, _, ps.mem.offset.toNat, put_eq tbl ps c t hc h0 hcap,
    get_afterPut_self tbl ps c t hidx, ?_, ?_, by decide, by decide, by decide, by decide⟩
  · unfold Memory.retrieve
    have : 0 ≤ (VarAddress.new c t ps.mem.offset).getOffset ∧
        (VarAddress.new c t ps.mem.offset).getOffset ≤ storageBytes := by
      have : (VarAddress.new c t ps.mem.offset).getOffset = ps.mem.offset := rfl
      omega
    rw [if_pos this]
    rfl
  · have hw : (VarAddress.new c t ps.mem.offset).getWidth.toNat = (defaultBytes t).length := by
      have : (VarAddress.new c t ps.mem.offset).getWidth = (VarAddress.new c t 0).getWidth := by
        cases t <;> rfl
      omega
    rw [hw]
    apply readBytes_memcpy _ ps.mem.storage
    · have : (VarAddress.new c t 0).getWidth.toNat = (defaultBytes t).length := by omega
      simp only [afterPut, this]
    · omega

/-- A witness of C15: declaring `x` as a fraction in a fresh table. -/
theorem put_default_bytes_witness :
    (('a' ≤ 'x' ∧ 'x' ≤ 'z') ∧ 0 ≤ (AllocState.fresh (fun _ => 0) 0).ps.mem.offset ∧
      (AllocState.fresh (fun _ => 0) 0).ps.mem.offset +
        (VarAddress.new 'x' typeName.fractionType 0).getWidth ≤ storageBytes) ∧
    ∃ tbl1 ps1 v ptr,
      SimpleArraySymTbl.new.put (AllocState.fresh (fun _ => 0) 0).ps 'x' typeName.fractionType =
        Except.ok (tbl1, ps1) ∧
      tbl1.get 'x' = Except.ok (some v) ∧
      ps1.mem.retrieve v.getOffset = Except.ok ptr ∧
      ps1.mem.readBytes ptr v.getWidth.toNat = Except.ok (defaultBytes typeName.fractionType) ∧
      defaultBytes typeName.intType = [0, 0, 0, 0] ∧
      defaultBytes typeName.floatType = [0, 0, 0, 0] ∧
      defaultBytes typeName.fractionType = intBytes 1 ++ intBytes 1 ∧
      intBytes 1 = [1, 0, 0, 0] :=
  ⟨by decide, put_default_bytes SimpleArraySymTbl.new (AllocState.fresh (fun _ => 0) 0).ps 'x'
    typeName.fractionType (by decide) (by decide) (by decide)⟩

/-- C20: when `put(c1, t1)` is immediately followed by `put(c2, t2)` (lexemes in
`'a'..'z'`, room for both variables), the second Variable starts where the first
ends: its offset is the offset of the first plus the first one's `getWidth()`.
Each `put` advances the cursor by the width recorded in its Variable, which is 4
for `intType`, 4 for `floatType` and 8 for `fractionType`. -/
theorem consecutive_puts_adjacent (tbl : SimpleArraySymTbl) (ps : Process) (c1 c2 : Char)
    (t1 t2 : typeName) (hc1 : 'a' ≤ c1 ∧ c1 ≤ 'z') (hc2 : 'a' ≤ c2 ∧ c2 ≤ 'z')
    (h0 : 0 ≤ ps.mem.offset)
    (hcap : ps.mem.offset + (VarAddress.new c1 t1 0).getWidth +
      (VarAddress.new c2 t2 0).getWidth ≤ storageBytes) :
    ∃ tbl1 ps1 v1 tbl2 ps2 v2, tbl.put ps c1 t1 = Except.ok (tbl1, ps1) ∧
      tbl1.get c1 = Except.ok (some v1) ∧
      tbl1.put ps1 c2 t2 = Except.ok (tbl2, ps2) ∧
      tbl2.get c2 = Except.ok (some v2) ∧
      v2.getOffset = v1.getOffset + v1.getWidth ∧
      ps1.mem.offset = ps.mem.offset + v1.getWidth ∧
      ps2.mem.offset = ps1.mem.offset + v2.getWidth ∧
      v1.getType = t1 ∧ v2.getType = t2 ∧
      (∀ v : VarAddress, tbl2.get c2 = Except.ok (some v) →
        (v.getType = typeName.intType → v.getWidth = 4) ∧
        (v.getType = typeName.floatType → v.getWidth = 4) ∧
        (v.getType = typeName.fractionType → v.getWidth = 8)) := by
  have hp1 := varWidth_pos c1 t1 0
  have hp2 := varWidth_pos c2 t2 0
  have hput1 := put_eq tbl ps c1 t1 hc1 h0 (by omega)
  have hoff1 : (afterPut tbl ps c1 t1).2.mem.offset =
      ps.mem.offset + (VarAddress.new c1 t1 0).getWidth := rfl
  have hput2 := put_eq (afterPut tbl ps c1 t1).1 (afterPut tbl ps c1 t1).2 c2 t2 hc2
    (by rw [hoff1]; omega) (by rw [hoff1]; omega)
  refine ⟨_, _, _, _, _, _, hput1, get_afterPut_self tbl ps c1 t1 (symIndex_range c1 hc1),
    hput2, get_afterPut_self _ _ c2 t2 (symIndex_range c2 hc2), ?_, ?_, ?_, rfl, rfl, ?_⟩
  · cases t1 <;> rfl
  · cases t1 <;> rfl
  · cases t2 <;> rfl
  · intro v hv
    have hget := get_afterPut_self (afterPut tbl ps c1 t1).1 (afterPut tbl ps c1 t1).2 c2 t2
      (symIndex_range c2 hc2)
    have hv := hget.symm.trans hv
    injection hv with hv
    injection hv with hv
    subst hv
    refine ⟨?_, ?_, ?_⟩ <;> intro ht <;>
      (have ht2 : t2 = _ := ht; subst ht2; rfl)

/-- A witness of C20: declaring `x` as Int, then `y` as Float. -/
theorem consecutive_puts_adjacent_witness :
    (('a' ≤ 'x' ∧ 'x' ≤ 'z') ∧ ('a' ≤ 'y' ∧ 'y' ≤ 'z') ∧
      0 ≤ (AllocState.fresh (fun _ => 0) 0).ps.mem.offset ∧
      (AllocState.fresh (fun _ => 0) 0).ps.mem.offset +
        (VarAddress.new 'x' typeName.intType 0).getWidth +
        (VarAddress.new 'y' typeName.floatType 0).getWidth ≤ storageBytes) ∧
    ∃ tbl1 ps1 v1 tbl2 ps2 v2,
      SimpleArraySymTbl.new.put (AllocState.fresh (fun _ => 0) 0).ps 'x' typeName.intType =
        Except.ok (tbl1, ps1) ∧
      tbl1.get 'x' = Except.ok (some v1) ∧
      tbl1.put ps1 'y' typeName.floatType = Except.ok (tbl2, ps2) ∧
      tbl2.get 'y' = Except.ok (some v2) ∧
      v2.getOffset = v1.getOffset + v1.getWidth ∧
      ps1.mem.offset = (AllocState.fresh (fun _ => 0) 0).ps.mem.offset + v1.getWidth ∧
      ps2.mem.offset = ps1.mem.offset + v2.getWidth ∧
      v1.getType = typeName.intType ∧ v2.getType = typeName.floatType ∧
      (∀ v : VarAddress, tbl2.get 'y' = Except.ok (some v) →
        (v.getType = typeName.intType → v.getWidth = 4) ∧
        (v.getType = typeName.floatType → v.getWidth = 4) ∧
        (v.getType = typeName.fractionType → v.getWidth = 8)) :=
  ⟨by decide, consecutive_puts_adjacent SimpleArraySymTbl.new
    (AllocState.fresh (fun _ => 0) 0).ps 'x' 'y' typeName.intType typeName.floatType
    (by decide) (by decide) (by decide) (by decide)⟩

/-! ## Re-declaration -/

theorem memBytes_cons (c : MemCall) (cs : List MemCall) :
    memBytes (c :: cs) = c.bytes + memBytes cs := by
  simp [memBytes]

theorem MemCall.bytes_nonneg (c : MemCall) (h : c.inDomain) : 0 ≤ c.bytes := by
  cases c with
  | put lexeme type => exact le_of_lt (varWidth_pos lexeme type 0)
  | getNewTemp w => exact h
  | store val w => exact h.1

theorem memBytes_nonneg (calls : List MemCall) (h : ∀ c ∈ calls, c.inDomain) :
    0 ≤ memBytes calls := by
  induction calls with
  | nil => simp [memBytes]
  | cons c cs ih =>
    rw [memBytes_cons]
    have h1 := MemCall.bytes_nonneg c (h c (List.mem_cons_self c cs))
    have h2 := ih (fun d hd => h d (List.mem_cons_of_mem c hd))
    omega

theorem MemCall.run_returns (st : AllocState) (c : MemCall) (hdom : c.inDomain)
    (h0 : 0 ≤ st.ps.mem.offset) (hcap : st.ps.mem.offset + c.bytes ≤ storageBytes)
    (hmin : INT_MIN ≤ st.ps.counter) (hmax : st.ps.counter + 1 ≤ INT_MAX) :
    ∃ st1, c.run st = Except.ok st1 := by
  have hS : (storageBytes : Int) = 1024 := by decide
  have hMax : INT_MAX = 2147483647 := rfl
  have hMin : INT_MIN = -2147483648 := rfl
  cases c with
  | put lexeme type => exact AllocCall.run_put_ok st lexeme type hdom h0 hcap
  | getNewTemp w =>
    have hw : (MemCall.getNewTemp w).bytes = w := rfl
    have hw0 : 0 ≤ w := hdom
    exact AllocCall.run_temp_ok st w (by unfold inIntRange; omega) (by unfold inIntRange; omega)
  | store val w =>
    have hrun := store_ok st.ps.mem val w hdom.1 hdom.2 h0 hcap
    simp only [MemCall.run, hrun]
    exact ⟨_, rfl⟩

theorem MemCall.run_inv (st st1 : AllocState) (c : MemCall) (h : c.run st = Except.ok st1) :
    st1.ps.mem.offset = st.ps.mem.offset + c.bytes ∧
      st.ps.counter ≤ st1.ps.counter ∧ st1.ps.counter ≤ st.ps.counter + 1 ∧
      ∀ d : Char, 0 ≤ symIndex d ∧ symIndex d < SYMSIZE → ¬ c.declares d →
        st1.tbl.get d = st.tbl.get d := by
  cases c with
  | put lexeme type =>
    obtain ⟨_, hcnt, hoff, _, _, _⟩ := AllocCall.run_put_inv st st1 lexeme type h
    refine ⟨hoff, by omega, by omega, ?_⟩
    intro d hd hne
    exact AllocCall.run_get_other st st1 (AllocCall.put lexeme type) d hd hne h
  | getNewTemp w =>
    obtain ⟨_, hcnt, hoff, _, _, _⟩ := AllocCall.run_temp_inv st st1 w h
    refine ⟨hoff, by omega, by omega, ?_⟩
    intro d _ _
    rw [AllocCall.run_temp_tbl st st1 w h]
  | store val w =>
    simp only [MemCall.run] at h
    cases hs : st.ps.mem.store val w with
    | error e => rw [hs] at h; cases h
    | ok r =>
      rw [hs] at h
      obtain ⟨_, _, _, hoff, _, _⟩ := store_inv st.ps.mem val w r hs
      injection h with h
      subst h
      exact ⟨hoff, le_refl _, by simp, fun _ _ _ => rfl⟩

theorem runMem_ok (calls : List MemCall) :
    ∀ st : AllocState, (∀ c ∈ calls, c.inDomain) →
      0 ≤ st.ps.mem.offset → st.ps.mem.offset + memBytes calls ≤ storageBytes →
      INT_MIN ≤ st.ps.counter → st.ps.counter + calls.length ≤ INT_MAX →
      ∃ st1, runMem st calls = Except.ok st1 := by
  induction calls with
  | nil => intro st _ _ _ _ _; exact ⟨st, rfl⟩
  | cons c cs ih =>
    intro st hdom h0 hcap hmin hmax
    have hdc := hdom c (List.mem_cons_self c cs)
    have hds : ∀ d ∈ cs, d.inDomain := fun d hd => hdom d (List.mem_cons_of_mem c hd)
    have hnn := MemCall.bytes_nonneg c hdc
    have hrest := memBytes_nonneg cs hds
    rw [memBytes_cons] at hcap
    simp only [List.length_cons, Nat.cast_add, Nat.cast_one] at hmax
    obtain ⟨st2, hrun⟩ := MemCall.run_returns st c hdc h0 (by omega) hmin (by omega)
    obtain ⟨hoff, hc1, hc2, _⟩ := MemCall.run_inv st st2 c hrun
    obtain ⟨st1, hst1⟩ := ih st2 hds (by omega) (by omega) (by omega) (by omega)
    refine ⟨st1, ?_⟩
    simp only [runMem, hrun]
    exact hst1

theorem runMem_inv (calls : List MemCall) :
    ∀ st st1 : AllocState, runMem st calls = Except.ok st1 →
      st1.ps.mem.offset = st.ps.mem.offset + memBytes calls ∧
        ∀ d : Char, 0 ≤ symIndex d ∧ symIndex d < SYMSIZE →
          (∀ c ∈ calls, ¬ c.declares d) → st1.tbl.get d = st.tbl.get d := by
  induction calls with
  | nil =>
    intro st st1 h
    simp only [runMem] at h
    injection h with h
    subst h
    exact ⟨by simp [memBytes], fun _ _ _ => rfl⟩
  | cons c cs ih =>
    intro st st1 h
    simp only [runMem] at h
    cases hrun : c.run st with
    | error e => rw [hrun] at h; cases h
    | ok st2 =>
      rw [hrun] at h
      obtain ⟨hoff, _, _, hget⟩ := MemCall.run_inv st st2 c hrun
      obtain ⟨hoff2, hget2⟩ := ih st2 st1 h
      refine ⟨by rw [hoff2, hoff, memBytes_cons]; omega, ?_⟩
      intro d hd hne
      rw [hget2 d hd (fun e he => hne e (List.mem_cons_of_mem c he)),
        hget d hd (hne c (List.mem_cons_self c cs))]

theorem live_lexemes_le (tbl : SimpleArraySymTbl) (cs : List Char) (hnd : cs.Nodup)
    (hlive : ∀ d ∈ cs, ∃ v, tbl.get d = Except.ok (some v)) : cs.length ≤ 26 := by
  have hidx : ∀ d ∈ cs, 0 ≤ symIndex d ∧ symIndex d < SYMSIZE := by
    intro d hd
    obtain ⟨v, hv⟩ := hlive d hd
    unfold SimpleArraySymTbl.get at hv
    by_cases h : 0 ≤ symIndex d ∧ symIndex d < SYMSIZE
    · exact h
    · rw [if_neg h] at hv
      cases hv
  have hmap : (cs.map (fun d => (symIndex d).toNat)).Nodup := by
    apply List.Nodup.map_on _ hnd
    intro x hx y hy hxy
    exact symIndex_toNat_inj x y (hidx x hx).1 (hidx y hy).1 hxy
  have hsub : cs.map (fun d => (symIndex d).toNat) ⊆ List.range 26 := by
    intro n hn
    obtain ⟨d, hd, hdn⟩ := List.mem_map.mp hn
    have h := hidx d hd
    have hs : SYMSIZE = 26 := rfl
    rw [List.mem_range]
    omega
  have hlen := (List.subperm_of_subset hmap hsub).length_le
  simpa using hlen

/-- C13, as stated, fails: in a fresh memory, after `put('x', intType)`, then
`getNewTemp(-4)`, which does not declare `x`, then `put('x', floatType)`, `get('x')`
returns a Variable of the second type whose offset is 0, the offset of the first
Variable, not a greater one. -/
theorem redeclare_after_negative_temp :
    ∃ st1 st2 st3 v1 v2,
      (MemCall.put 'x' typeName.intType).run (AllocState.fresh (fun _ => 0) 0) = Except.ok st1 ∧
      st1.tbl.get 'x' = Except.ok (some v1) ∧
      runMem st1 [MemCall.getNewTemp (-4)] = Except.ok st2 ∧
      (∀ c ∈ [MemCall.getNewTemp (-4)], ¬ c.declares 'x') ∧
      (MemCall.put 'x' typeName.floatType).run st2 = Except.ok st3 ∧
      st3.tbl.get 'x' = Except.ok (some v2) ∧
      v2.getType = typeName.floatType ∧ v1.getOffset = 0 ∧ v2.getOffset = 0 ∧
      ¬ v1.getOffset < v2.getOffset :=
  ⟨_, _, _, _, _, rfl, rfl, rfl, by decide, rfl, rfl, rfl, rfl, rfl, by decide⟩

/-- C13, amended: when `put(c, t1)` is followed, after any calls of `put` for other
lexemes, of `getNewTemp` with a width that is not negative and of `store`, by
`put(c, t2)`, all inside the allocated block, then `get(c)` returns a Variable of
type `t2` whose offset is greater than that of the Variable created by the first
`put`; and in every symbol table `get` returns a Variable for at most 26
lexemes. -/
theorem redeclare_offset_increases (st : AllocState) (c : Char) (t1 t2 : typeName)
    (mid : List MemCall) (hc : 'a' ≤ c ∧ c ≤ 'z')
    (hmid : ∀ call ∈ mid, call.inDomain ∧ ¬ call.declares c)
    (h0 : 0 ≤ st.ps.mem.offset)
    (hcap : st.ps.mem.offset + (VarAddress.new c t1 0).getWidth + memBytes mid +
      (VarAddress.new c t2 0).getWidth ≤ storageBytes)
    (hmin : INT_MIN ≤ st.ps.counter) (hmax : st.ps.counter + mid.length ≤ INT_MAX) :
    (∃ st1 st2 st3 v1 v2, (MemCall.put c t1).run st = Except.ok st1 ∧
      st1.tbl.get c = Except.ok (some v1) ∧
      runMem st1 mid = Except.ok st2 ∧
      (MemCall.put c t2).run st2 = Except.ok st3 ∧
      st3.tbl.get c = Except.ok (some v2) ∧
      v2.getType = t2 ∧ v1.getOffset < v2.getOffset) ∧
    ∀ (tbl : SimpleArraySymTbl) (cs : List Char), cs.Nodup →
      (∀ d ∈ cs, ∃ v, tbl.get d = Except.ok (some v)) → cs.length ≤ 26 := by
  refine ⟨?_, live_lexemes_le⟩
  have hidx := symIndex_range c hc
  have hp1 := varWidth_pos c t1 0
  have hp2 := varWidth_pos c t2 0
  have hdom : ∀ call ∈ mid, call.inDomain := fun call h => (hmid call h).1
  have hnn := memBytes_nonneg mid hdom
  -- the first declaration
  obtain ⟨st1, hrun1⟩ := AllocCall.run_put_ok st c t1 hc h0 (by omega)
  obtain ⟨_, heq1⟩ := AllocCall.run_put_eq st st1 c t1 hrun1
  obtain ⟨_, hcnt1, hoff1, _, _, _⟩ := AllocCall.run_put_inv st st1 c t1 hrun1
  have htbl1 : st1.tbl = (afterPut st.tbl st.ps c t1).1 := congrArg Prod.fst heq1
  have hget1 : st1.tbl.get c = Except.ok (some (VarAddress.new c t1 st.ps.mem.offset)) := by
    rw [htbl1]; exact get_afterPut_self st.tbl st.ps c t1 hidx
  -- the calls in between
  obtain ⟨st2, hrun2⟩ := runMem_ok mid st1 hdom (by omega) (by omega) (by omega) (by omega)
  obtain ⟨hoff2, _⟩ := runMem_inv mid st1 st2 hrun2
  -- the second declaration
  obtain ⟨st3, hrun3⟩ := AllocCall.run_put_ok st2 c t2 hc (by omega) (by omega)
  obtain ⟨_, heq3⟩ := AllocCall.run_put_eq st2 st3 c t2 hrun3
  have htbl3 : st3.tbl = (afterPut st2.tbl st2.ps c t2).1 := congrArg Prod.fst heq3
  have hget3 : st3.tbl.get c = Except.ok (some (VarAddress.new c t2 st2.ps.mem.offset)) := by
    rw [htbl3]; exact get_afterPut_self st2.tbl st2.ps c t2 hidx
  refine ⟨st1, st2, st3, _, _, hrun1, hget1, hrun2, hrun3, hget3, rfl, ?_⟩
  show st.ps.mem.offset < st2.ps.mem.offset
  omega

/-- A witness of the amended C13: `x` is declared, then `y`, a temporary of width
0 and a direct `store`, then `x` again. -/
theorem redeclare_offset_increases_witness :
    (('a' ≤ 'x' ∧ 'x' ≤ 'z') ∧
      ∀ call ∈ [MemCall.put 'y' typeName.fractionType, MemCall.getNewTemp 0,
          MemCall.store (intBytes 7) 4],
        call.inDomain ∧ ¬ call.declares 'x') ∧
    ∃ st1 st2 st3 v1 v2,
      (MemCall.put 'x' typeName.intType).run (AllocState.fresh (fun _ => 0) 0) = Except.ok st1 ∧
      st1.tbl.get 'x' = Except.ok (some v1) ∧
      runMem st1 [MemCall.put 'y' typeName.fractionType, MemCall.getNewTemp 0,
        MemCall.store (intBytes 7) 4] = Except.ok st2 ∧
      (MemCall.put 'x' typeName.floatType).run st2 = Except.ok st3 ∧
      st3.tbl.get 'x' = Except.ok (some v2) ∧
      v2.getType = typeName.floatType ∧ v1.getOffset < v2.getOffset :=
  ⟨by decide, (redeclare_offset_increases (AllocState.fresh (fun _ => 0) 0) 'x'
    typeName.intType typeName.floatType
    [MemCall.put 'y' typeName.fractionType, MemCall.getNewTemp 0, MemCall.store (intBytes 7) 4]
    (by decide) (by decide) (by decide) (by decide) (by decide) (by decide)).1⟩

/-! ## Merging lists of jumps -/

/-- C16 does not hold of the code: with the instructions laid out in the order
of their allocation, adding the list `[0]` to the true-list `[1]` yields `[0, 1]`,
the merge by address of `std::list::merge`, and not `[1] ++ [0]`; likewise for
`addFalse` and `addNext`. -/
theorem addTrue_list_is_not_append :
    BoolAttr.addTrueList (fun p => p) { truelist := [1], falselist := [] } [0] =
      Except.ok { truelist := [0, 1], falselist := [] } ∧
    BoolAttr.addFalseList (fun p => p) { truelist := [], falselist := [1] } [0] =
      Except.ok { truelist := [], falselist := [0, 1] } ∧
    StmtAttr.addNextList (fun p => p) { nextlist := [1] } [0] =
      Except.ok { nextlist := [0, 1] } ∧
    ([1] ++ [0] : List Nat) ≠ [0, 1] := by
  refine ⟨?_, ?_, ?_, by decide⟩
  · simp [BoolAttr.addTrueList, stdListMerge, listMerge, ptrLt]
  · simp [BoolAttr.addFalseList, stdListMerge, listMerge, ptrLt]
  · simp [StmtAttr.addNextList, stdListMerge, listMerge, ptrLt]

/-- Whatever the addresses of two distinct instructions are, adding one of them
to the list of the other does not append it, in one order or in the other. -/
theorem merge_is_not_append_in_any_layout (addr : Nat → Nat) (h : addr 0 ≠ addr 1) :
    stdListMerge addr [1] [0] = Except.ok [0, 1] ∨
      stdListMerge addr [0] [1] = Except.ok [1, 0] := by
  rcases Nat.lt_or_gt_of_ne h with hlt | hgt
  · left
    simp [stdListMerge, listMerge, ptrLt, hlt]
  · right
    simp [stdListMerge, listMerge, ptrLt, hgt]

/-! ## Backpatching an instruction that is not a jump -/

theorem set_dest_keeps (heap : List TacInstr) (p : Nat) (tp : TacInstr) (v : Option Address)
    (hp : heap[p]? = some tp) :
    ∀ (q : Nat) (t : TacInstr), heap[q]? = some t →
      ∃ t1, (heap.set p { tp with destInstr := v })[q]? = some t1 ∧ t.sameButDest t1 := by
  intro q t hq
  have hplt : p < heap.length := (List.getElem?_eq_some.mp hp).1
  by_cases hqp : q = p
  · subst hqp
    rw [hp] at hq
    cases hq
    exact ⟨_, List.getElem?_set_self hplt, ⟨rfl, rfl, rfl, rfl, rfl⟩⟩
  · refine ⟨t, ?_, t.sameButDest_refl⟩
    rw [List.getElem?_set_ne (Ne.symm hqp)]
    exact hq

theorem patch_nonjump (heap : List TacInstr) (p i : Nat) (t : TacInstr)
    (hp : heap[p]? = some t) (hj : ¬ jumpClass t.getOp) :
    TacInstr.patch heap p i = Except.error Fault.assertion := by
  unfold TacInstr.patch
  rw [hp]
  simp only [hj, if_false]

theorem backpatchLoop_nonjump (i : Nat) (l : List Nat) :
    ∀ heap : List TacInstr, (∀ p ∈ l, ∃ t, heap[p]? = some t) →
      (∃ tgt, heap[i]? = some tgt) →
      (∃ p ∈ l, ∃ t, heap[p]? = some t ∧ ¬ jumpClass t.getOp) →
      backpatchLoop heap i l = Except.error Fault.assertion := by
  induction l with
  | nil =>
    intro heap _ _ h
    obtain ⟨p, hp, _⟩ := h
    cases hp
  | cons p rest ih =>
    intro heap hl hi hbad
    obtain ⟨tp, hp⟩ := hl p (List.mem_cons_self p rest)
    by_cases hj : jumpClass tp.getOp
    · obtain ⟨tgt, htgt⟩ := hi
      have hstep := patch_ok_of_jump heap p i tp tgt hp hj htgt
      have hkeep := set_dest_keeps heap p tp (tgt.getValueNumber.map Address.instr) hp
      simp only [backpatchLoop, hstep]
      apply ih
      · intro q hq
        obtain ⟨t, ht⟩ := hl q (List.mem_cons_of_mem p hq)
        obtain ⟨t1, ht1, _⟩ := hkeep q t ht
        exact ⟨t1, ht1⟩
      · obtain ⟨t1, ht1, _⟩ := hkeep i tgt htgt
        exact ⟨t1, ht1⟩
      · obtain ⟨q, hq, t, ht, hnj⟩ := hbad
        have hqp : q ≠ p := by
          intro e
          subst e
          rw [hp] at ht
          cases ht
          exact hnj hj
        have hqr : q ∈ rest := by
          rcases List.mem_cons.mp hq with h | h
          · exact absurd h hqp
          · exact h
        obtain ⟨t1, ht1, hsame⟩ := hkeep q t ht
        refine ⟨q, hqr, t1, ht1, ?_⟩
        have : t1.getOp = t.getOp := hsame.2.1
        rw [this]
        exact hnj
    · simp only [backpatchLoop, patch_nonjump heap p i tp hp hj]

/-- C17: for every list `l` of instructions and every target instruction `i`,
`backpatch(l, i)` fails on the assertion of `patch` exactly when some instruction
of `l` has an opcode that is not jump-class, and returns exactly when all of them
are jump-class; on the empty list it returns and changes nothing. -/
theorem backpatch_asserts_iff (s : CodeState) (l : List Nat) (i : Nat) (tgt : TacInstr)
    (hl : ∀ p ∈ l, ∃ t, s.heap[p]? = some t) (hi : s.heap[i]? = some tgt) :
    (TargetCode.backpatch s l i = Except.error Fault.assertion ↔
      ∃ p ∈ l, ∃ t, s.heap[p]? = some t ∧ ¬ jumpClass t.getOp) ∧
    ((∃ s1, TargetCode.backpatch s l i = Except.ok s1) ↔
      ∀ p ∈ l, ∀ t, s.heap[p]? = some t → jumpClass t.getOp) ∧
    ∀ j : Nat, TargetCode.backpatch s [] j = Except.ok s := by
  have hall : (∀ p ∈ l, ∀ t, s.heap[p]? = some t → jumpClass t.getOp) →
      ∃ s1, TargetCode.backpatch s l i = Except.ok s1 := by
    intro hj
    have hl1 : ∀ p ∈ l, ∃ t, s.heap[p]? = some t ∧ jumpClass t.getOp := by
      intro p hp
      obtain ⟨t, ht⟩ := hl p hp
      exact ⟨t, ht, hj p hp t ht⟩
    obtain ⟨heap1, hrun, _, _⟩ :=
      backpatchLoop_spec i tgt.getValueNumber l s.heap hl1 ⟨tgt, hi, rfl⟩
    exact ⟨{ heap := heap1, code := s.code }, by simp only [TargetCode.backpatch, hrun]⟩
  have hbad : (∃ p ∈ l, ∃ t, s.heap[p]? = some t ∧ ¬ jumpClass t.getOp) →
      TargetCode.backpatch s l i = Except.error Fault.assertion := by
    intro h
    simp only [TargetCode.backpatch, backpatchLoop_nonjump i l s.heap hl ⟨tgt, hi⟩ h]
  refine ⟨⟨?_, hbad⟩, ⟨?_, hall⟩, fun j => rfl⟩
  · intro hfail
    by_contra hno
    have hj : ∀ p ∈ l, ∀ t, s.heap[p]? = some t → jumpClass t.getOp := by
      intro p hp t ht
      by_contra hnj
      exact hno ⟨p, hp, t, ht, hnj⟩
    obtain ⟨s1, hs1⟩ := hall hj
    rw [hs1] at hfail
    cases hfail
  · intro hok p hp t ht
    by_contra hnj
    obtain ⟨s1, hs1⟩ := hok
    rw [hbad ⟨p, hp, t, ht, hnj⟩] at hs1
    cases hs1

/-- A witness of C17: in `jumpThenHalt`, patching the list of the jump and of Halt
fails on the assertion. -/
theorem backpatch_asserts_iff_witness :
    (∀ p ∈ [0, 1], ∃ t, jumpThenHalt.heap[p]? = some t) ∧
    TargetCode.backpatch jumpThenHalt [0, 1] 1 = Except.error Fault.assertion :=
  have hl : ∀ p ∈ [0, 1], ∃ t, jumpThenHalt.heap[p]? = some t := by
    intro p hp
    have hp01 : p = 0 ∨ p = 1 := by simpa using hp
    rcases hp01 with h | h
    · subst h; exact ⟨_, rfl⟩
    · subst h; exact ⟨_, rfl⟩
  ⟨hl, (backpatch_asserts_iff jumpThenHalt [0, 1] 1
    ((TacInstr.new oprEnum.haltOpr none none none).setValueNumber 1) hl rfl).1.mpr
      ⟨1, by simp, _, rfl, by decide⟩⟩

/-! ## The third slot -/

theorem TacInstr.new_slots (op : oprEnum) (o1 o2 o3 : Option Address) :
    (¬ jumpClass op →
      (TacInstr.new op o1 o2 o3).temp = o3 ∧ (TacInstr.new op o1 o2 o3).destInstr = none) ∧
    (jumpClass op →
      (TacInstr.new op o1 o2 o3).destInstr = o3 ∧ (TacInstr.new op o1 o2 o3).temp = none) := by
  cases op <;> simp [TacInstr.new, jumpClass]

theorem TacInstr.new_op (op : oprEnum) (o1 o2 o3 : Option Address) :
    (TacInstr.new op o1 o2 o3).getOp = op := by
  cases op <;> rfl

theorem TacInstr.new_slotInv (op : oprEnum) (o1 o2 o3 : Option Address) (vn : Int) :
    ((TacInstr.new op o1 o2 o3).setValueNumber vn).slotInv := by
  have h := TacInstr.new_slots op o1 o2 o3
  have hop := TacInstr.new_op op o1 o2 o3
  constructor
  · intro hj
    have hj1 : jumpClass op := by rw [← hop]; exact hj
    exact (h.2 hj1).2
  · intro hj
    have hj1 : ¬ jumpClass op := by rw [← hop]; exact hj
    exact (h.1 hj1).2

theorem backpatchLoop_slotInv (i : Nat) (l : List Nat) :
    ∀ heap heap1 : List TacInstr, backpatchLoop heap i l = Except.ok heap1 →
      (∀ (q : Nat) (t : TacInstr), heap[q]? = some t → t.slotInv) →
      ∀ (q : Nat) (t : TacInstr), heap1[q]? = some t → t.slotInv := by
  induction l with
  | nil =>
    intro heap heap1 h hinv
    simp only [backpatchLoop] at h
    injection h with h
    subst h
    exact hinv
  | cons p rest ih =>
    intro heap heap1 h hinv
    simp only [backpatchLoop] at h
    cases hpatch : TacInstr.patch heap p i with
    | error e => rw [hpatch] at h; cases h
    | ok heap2 =>
      rw [hpatch] at h
      obtain ⟨tp, tgt, hp, hj, _, hset⟩ := patch_ok_inv heap heap2 p i hpatch
      apply ih heap2 heap1 h
      intro q t hq
      rw [hset] at hq
      by_cases hqp : q = p
      · subst hqp
        have hplt : q < heap.length := (List.getElem?_eq_some.mp hp).1
        rw [List.getElem?_set_self hplt] at hq
        injection hq with hq
        subst hq
        exact ⟨fun _ => (hinv q tp hp).1 hj, fun hn => absurd hj hn⟩
      · rw [List.getElem?_set_ne (Ne.symm hqp)] at hq
        exact hinv q t hq

theorem reachable_slotInv (heap0 : List TacInstr) (garbage : Nat → Option Nat) (s : CodeState)
    (h0 : ∀ t ∈ heap0, t.slotInv) (h : Reachable heap0 garbage s) :
    ∀ (q : Nat) (t : TacInstr), s.heap[q]? = some t → t.slotInv := by
  induction h with
  | fresh =>
    intro q t hq
    exact h0 t (List.getElem?_mem hq)
  | gen s s1 c p _ hrun ih =>
    obtain ⟨_, _, hs1⟩ := GenCall.run_ok c s s1 p hrun
    subst hs1
    intro q t hq
    simp only [CodeState.emit] at hq
    by_cases hlt : q < s.heap.length
    · rw [List.getElem?_append_left hlt] at hq
      exact ih q t hq
    · rw [List.getElem?_append_right (by omega)] at hq
      have hmem := List.getElem?_mem hq
      simp only [List.mem_singleton] at hmem
      subst hmem
      cases c with
      | three op a b => exact TacInstr.new_slotInv op a b none _
      | four op a b c => exact TacInstr.new_slotInv op a b c _
  | backpatch s s1 l i _ hrun ih =>
    unfold TargetCode.backpatch at hrun
    cases hloop : backpatchLoop s.heap i l with
    | error e => rw [hloop] at hrun; cases hrun
    | ok heap1 =>
      rw [hloop] at hrun
      injection hrun with hrun
      subst hrun
      exact backpatchLoop_slotInv i l s.heap heap1 hloop ih

/-- C18: the constructor `TacInstr(op, o1, o2, o3)` puts `o3` in `temp` and leaves
`destInstr` absent when `op` is not jump-class, and puts `o3` in `destInstr` and
leaves `temp` absent when it is; a jump emitted through the three-argument `gen`
has an absent target; and in every state reached through `gen` and `backpatch`
(from instructions that the constructor built) no instruction has both `temp` and
`destInstr`, and only jump-class instructions have a `destInstr`. -/
theorem third_slot_exclusive :
    (∀ (op : oprEnum) (o1 o2 o3 : Option Address),
      (¬ jumpClass op →
        (TacInstr.new op o1 o2 o3).temp = o3 ∧ (TacInstr.new op o1 o2 o3).destInstr = none) ∧
      (jumpClass op →
        (TacInstr.new op o1 o2 o3).destInstr = o3 ∧ (TacInstr.new op o1 o2 o3).temp = none)) ∧
    (∀ (s : CodeState) (op : oprEnum) (o1 o2 : Option Address), jumpClass op →
      s.code.getNextInstr < CODESIZE →
      ∃ p s1 t, TargetCode.gen3 s op o1 o2 = Except.ok (p, s1) ∧ s1.heap[p]? = some t ∧
        t.getOp = op ∧ t.destInstr = none ∧ t.temp = none) ∧
    (∀ (heap0 : List TacInstr) (garbage : Nat → Option Nat) (s : CodeState),
      (∀ t ∈ heap0, t.slotInv) → Reachable heap0 garbage s →
      ∀ (q : Nat) (t : TacInstr), s.heap[q]? = some t →
        ¬ (t.temp ≠ none ∧ t.destInstr ≠ none) ∧ (t.destInstr ≠ none → jumpClass t.getOp)) := by
  refine ⟨TacInstr.new_slots, ?_, ?_⟩
  · intro s op o1 o2 hj hlt
    have hlt1 : s.code.nextInstr < CODESIZE := Int.ofNat_lt.mp hlt
    have hslots := (TacInstr.new_slots op o1 o2 none).2 hj
    refine ⟨s.heap.length, s.emit (TacInstr.new op o1 o2 none),
      (TacInstr.new op o1 o2 none).setValueNumber s.code.nextInstr,
      genInstr_new s _ hlt1, List.getElem?_concat_length _ _, TacInstr.new_op op o1 o2 none,
      hslots.1, hslots.2⟩
  · intro heap0 garbage s h0 hreach q t hq
    obtain ⟨h1, h2⟩ := reachable_slotInv heap0 garbage s h0 hreach q t hq
    constructor
    · intro hboth
      by_cases hj : jumpClass t.getOp
      · exact hboth.1 (h1 hj)
      · exact hboth.2 (h2 hj)
    · intro hd
      by_contra hj
      exact hd (h2 hj)

/-- A witness of C18: the two instructions of `jumpThenHalt`. -/
theorem third_slot_exclusive_witness :
    ((∀ t ∈ ([] : List TacInstr), t.slotInv) ∧ Reachable [] (fun _ => none) jumpThenHalt) ∧
    ∀ (q : Nat) (t : TacInstr), jumpThenHalt.heap[q]? = some t →
      ¬ (t.temp ≠ none ∧ t.destInstr ≠ none) ∧ (t.destInstr ≠ none → jumpClass t.getOp) :=
  ⟨⟨by simp, jumpThenHalt_reachable⟩,
    third_slot_exclusive.2.2 [] (fun _ => none) jumpThenHalt (by simp) jumpThenHalt_reachable⟩

/-! ## Rendering of unimplemented instructions -/

/-- C19: an emitted instruction with the opcode `UNKNOWNOpr` or `fakeOpr` is
rendered, whatever its operands, without a failed assertion: the output is the
value number in a field of width 4, then `: ???` for `UNKNOWNOpr` and `: stat`,
the entry of `opTable`, for `fakeOpr`.  `opTable` has 12 entries, one for every
opcode, so the lookup of the name of an opcode is always in bounds. -/
theorem print_unimplemented (fmtFloat : Nat → List Char) (instr : TacInstr)
    (vn : InstrAddress) (hvn : instr.getValueNumber = some vn) :
    (instr.getOp = oprEnum.UNKNOWNOpr →
      printTacInstr fmtFloat instr =
        Except.ok (setw 4 (decimal vn.arrayCodeIndex) ++ ": ???".toList)) ∧
    (instr.getOp = oprEnum.fakeOpr →
      printTacInstr fmtFloat instr =
        Except.ok (setw 4 (decimal vn.arrayCodeIndex) ++ ": stat".toList)) ∧
    opTable.length = 12 ∧ (∀ op : oprEnum, op.toNat < opTable.length) ∧
    (∀ op : oprEnum, ∃ name, opTable[op.toNat]? = some name ∧
      printOp op = Except.ok name.toList) := by
  have hvn1 : instr.valueNumber = some vn := hvn
  refine ⟨?_, ?_, rfl, ?_, ?_⟩
  · intro hop
    have hop1 : instr.op = oprEnum.UNKNOWNOpr := hop
    unfold printTacInstr
    rw [hop]
    simp only [hvn1, printAll, printInstrAddress, printText]
    rfl
  · intro hop
    have hop1 : instr.op = oprEnum.fakeOpr := hop
    unfold printTacInstr
    rw [hop]
    simp only [hvn1, hop1, printAll, printInstrAddress, printText, printOp]
    rfl
  · intro op
    cases op <;> decide
  · intro op
    cases op <;> exact ⟨_, rfl, rfl⟩

/-- A witness of C19: a `fakeOpr` instruction without operands, emitted at
position 7, is rendered as three blanks and `7: stat`. -/
theorem print_unimplemented_witness :
    ((TacInstr.new oprEnum.fakeOpr none none none).setValueNumber 7).getValueNumber =
      some (InstrAddress.mk 7) ∧
    printTacInstr (fun _ => []) ((TacInstr.new oprEnum.fakeOpr none none none).setValueNumber 7) =
      Except.ok ("   7: stat".toList) :=
  ⟨rfl, ((print_unimplemented (fun _ => [])
    ((TacInstr.new oprEnum.fakeOpr none none none).setValueNumber 7) (InstrAddress.mk 7) rfl).2.1
      rfl).trans (congrArg Except.ok (by decide))⟩

/-! ## Merging keeps every entry -/

theorem listMerge_perm (lt : Nat → Nat → Bool) (xs : List Nat) :
    ∀ ys : List Nat, (listMerge lt xs ys).Perm (xs ++ ys) := by
  induction xs with
  | nil =>
    intro ys
    rw [listMerge]
    exact List.Perm.refl _
  | cons x xs ihx =>
    intro ys
    induction ys with
    | nil =>
      rw [listMerge]
      simp
    | cons y ys ihy =>
      rw [listMerge]
      by_cases h : lt y x = true
      · rw [if_pos h]
        exact (List.Perm.cons y ihy).trans List.perm_middle.symm
      · rw [if_neg h]
        exact List.Perm.cons x (ihx (y :: ys))

theorem listMerge_sorted (addr : Nat → Nat) (xs : List Nat) :
    ∀ ys : List Nat, ptrSorted addr xs → ptrSorted addr ys →
      ptrSorted addr (listMerge (ptrLt addr) xs ys) := by
  induction xs with
  | nil =>
    intro ys _ hy
    rw [listMerge]
    exact hy
  | cons x xs ihx =>
    intro ys
    induction ys with
    | nil =>
      intro hx _
      rw [listMerge]
      exact hx
    | cons y ys ihy =>
      intro hx hy
      have hx1 : (∀ z ∈ xs, ¬ addr z < addr x) ∧ ptrSorted addr xs := List.pairwise_cons.mp hx
      have hy1 : (∀ z ∈ ys, ¬ addr z < addr y) ∧ ptrSorted addr ys := List.pairwise_cons.mp hy
      rw [listMerge]
      by_cases h : ptrLt addr y x = true
      · rw [if_pos h]
        have hlt : addr y < addr x := of_decide_eq_true h
        refine List.pairwise_cons.mpr ⟨?_, ihy hx hy1.2⟩
        intro z hz
        have hz1 : z ∈ (x :: xs) ++ ys := (listMerge_perm (ptrLt addr) (x :: xs) ys).mem_iff.mp hz
        rcases List.mem_append.mp hz1 with hzx | hzy
        · rcases List.mem_cons.mp hzx with hzx0 | hzxs
          · subst hzx0
            omega
          · have := hx1.1 z hzxs
            omega
        · exact hy1.1 z hzy
      · rw [if_neg h]
        have hge : ¬ addr y < addr x := fun hlt => h (decide_eq_true hlt)
        refine List.pairwise_cons.mpr ⟨?_, ihx (y :: ys) hx1.2 hy⟩
        intro z hz
        have hz1 : z ∈ xs ++ (y :: ys) := (listMerge_perm (ptrLt addr) xs (y :: ys)).mem_iff.mp hz
        rcases List.mem_append.mp hz1 with hzx | hzy
        · exact hx1.1 z hzx
        · rcases List.mem_cons.mp hzy with hzy0 | hzys
          · subst hzy0
            exact hge
          · have := hy1.1 z hzys
            omega

theorem stdListMerge_perm (addr : Nat → Nat) (a l : List Nat) :
    ∃ merged, stdListMerge addr a l = Except.ok merged ∧
      merged.Perm (a ++ l) ∧ merged.length = a.length + l.length ∧
      ∀ x : Nat, merged.count x = a.count x + l.count x := by
  have hp := listMerge_perm (ptrLt addr) a l
  refine ⟨listMerge (ptrLt addr) a l, rfl, hp, ?_, ?_⟩
  · rw [hp.length_eq, List.length_append]
  · intro x
    rw [hp.count_eq, List.count_append]

theorem stdListMerge_keeps_sorted (addr : Nat → Nat) (a l : List Nat)
    (ha : ptrSorted addr a) (hl : ptrSorted addr l) :
    ∃ merged, stdListMerge addr a l = Except.ok merged ∧ ptrSorted addr merged :=
  ⟨listMerge (ptrLt addr) a l, rfl, listMerge_sorted addr a l ha hl⟩

theorem backpatch_of_perm (s : CodeState) (merged both : List Nat) (i : Nat) (tgt : TacInstr)
    (hp : merged.Perm both)
    (hl : ∀ p ∈ both, ∃ t, s.heap[p]? = some t ∧ jumpClass t.getOp)
    (hi : s.heap[i]? = some tgt) :
    ∃ s1, TargetCode.backpatch s merged i = Except.ok s1 ∧
      ∀ p ∈ both, ∃ t1, s1.heap[p]? = some t1 ∧
        t1.destInstr = tgt.getValueNumber.map Address.instr := by
  have hl1 : ∀ p ∈ merged, ∃ t, s.heap[p]? = some t ∧ jumpClass t.getOp :=
    fun p hpm => hl p (hp.mem_iff.mp hpm)
  obtain ⟨heap1, hrun, _, hframe⟩ :=
    backpatchLoop_spec i tgt.getValueNumber merged s.heap hl1 ⟨tgt, hi, rfl⟩
  refine ⟨{ heap := heap1, code := s.code }, ?_, ?_⟩
  · simp only [TargetCode.backpatch, hrun]
  · intro p hpm
    obtain ⟨t, ht, _⟩ := hl p hpm
    obtain ⟨t1, ht1, _, hin, _⟩ := hframe p t ht
    exact ⟨t1, ht1, hin (hp.mem_iff.mpr hpm)⟩

/-- C21: for every true-list and every list `l`, sorted by address or not,
`addTrue(l)` returns, and the new true-list is a permutation of the old one
followed by `l`: its length is the sum of the two lengths and every instruction
occurs as often as in both together, so that nothing is dropped and nothing is
deduplicated; the false-list is unchanged.  Backpatching the merged list patches
every instruction of the old true-list and of `l`.  Likewise for `addFalse` on
the false-list and for `addNext` on the next-list. -/
theorem merge_keeps_entries (addr : Nat → Nat) (b : BoolAttr) (a : StmtAttr) (l : List Nat) :
    (∃ b1, b.addTrueList addr l = Except.ok b1 ∧
      b1.getTruelist.Perm (b.getTruelist ++ l) ∧
      b1.getTruelist.length = b.getTruelist.length + l.length ∧
      (∀ x : Nat, b1.getTruelist.count x = b.getTruelist.count x + l.count x) ∧
      b1.getFalselist = b.getFalselist ∧
      ∀ (s : CodeState) (i : Nat) (tgt : TacInstr),
        (∀ p ∈ b.getTruelist ++ l, ∃ t, s.heap[p]? = some t ∧ jumpClass t.getOp) →
        s.heap[i]? = some tgt →
        ∃ s1, TargetCode.backpatch s b1.getTruelist i = Except.ok s1 ∧
          ∀ p ∈ b.getTruelist ++ l, ∃ t1, s1.heap[p]? = some t1 ∧
            t1.destInstr = tgt.getValueNumber.map Address.instr) ∧
    (∃ b1, b.addFalseList addr l = Except.ok b1 ∧
      b1.getFalselist.Perm (b.getFalselist ++ l) ∧
      b1.getFalselist.length = b.getFalselist.length + l.length ∧
      (∀ x : Nat, b1.getFalselist.count x = b.getFalselist.count x + l.count x) ∧
      b1.getTruelist = b.getTruelist ∧
      ∀ (s : CodeState) (i : Nat) (tgt : TacInstr),
        (∀ p ∈ b.getFalselist ++ l, ∃ t, s.heap[p]? = some t ∧ jumpClass t.getOp) →
        s.heap[i]? = some tgt →
        ∃ s1, TargetCode.backpatch s b1.getFalselist i = Except.ok s1 ∧
          ∀ p ∈ b.getFalselist ++ l, ∃ t1, s1.heap[p]? = some t1 ∧
            t1.destInstr = tgt.getValueNumber.map Address.instr) ∧
    (∃ a1, a.addNextList addr l = Except.ok a1 ∧
      a1.getNextlist.Perm (a.getNextlist ++ l) ∧
      a1.getNextlist.length = a.getNextlist.length + l.length ∧
      (∀ x : Nat, a1.getNextlist.count x = a.getNextlist.count x + l.count x) ∧
      ∀ (s : CodeState) (i : Nat) (tgt : TacInstr),
        (∀ p ∈ a.getNextlist ++ l, ∃ t, s.heap[p]? = some t ∧ jumpClass t.getOp) →
        s.heap[i]? = some tgt →
        ∃ s1, TargetCode.backpatch s a1.getNextlist i = Except.ok s1 ∧
          ∀ p ∈ a.getNextlist ++ l, ∃ t1, s1.heap[p]? = some t1 ∧
            t1.destInstr = tgt.getValueNumber.map Address.instr) := by
  refine ⟨?_, ?_, ?_⟩
  · obtain ⟨merged, hm, hp, hlen, hcnt⟩ := stdListMerge_perm addr b.truelist l
    refine ⟨{ truelist := merged, falselist := b.falselist }, ?_, hp, hlen, hcnt, rfl, ?_⟩
    · simp only [BoolAttr.addTrueList, hm]
    · intro s i tgt hl hi
      exact backpatch_of_perm s merged (b.truelist ++ l) i tgt hp hl hi
  · obtain ⟨merged, hm, hp, hlen, hcnt⟩ := stdListMerge_perm addr b.falselist l
    refine ⟨{ truelist := b.truelist, falselist := merged }, ?_, hp, hlen, hcnt, rfl, ?_⟩
    · simp only [BoolAttr.addFalseList, hm]
    · intro s i tgt hl hi
      exact backpatch_of_perm s merged (b.falselist ++ l) i tgt hp hl hi
  · obtain ⟨merged, hm, hp, hlen, hcnt⟩ := stdListMerge_perm addr a.nextlist l
    refine ⟨{ nextlist := merged }, ?_, hp, hlen, hcnt, ?_⟩
    · simp only [StmtAttr.addNextList, hm]
    · intro s i tgt hl hi
      exact backpatch_of_perm s merged (a.nextlist ++ l) i tgt hp hl hi

/-- A witness of C21: the list `[0, 1]` is added to the true-list `[1, 0]`, which
is not sorted; the four entries are kept, instruction 0 occurs twice, and
backpatching the merged list with instruction 1 patches both jumps of
`twoJumps`. -/
theorem merge_keeps_entries_witness :
    (∀ p ∈ [1, 0] ++ [0, 1], ∃ t, twoJumps.heap[p]? = some t ∧ jumpClass t.getOp) ∧
    ¬ ptrSorted (fun p => p) [1, 0] ∧
    ∃ b1, BoolAttr.addTrueList (fun p => p) { truelist := [1, 0], falselist := [] } [0, 1] =
        Except.ok b1 ∧
      b1.getTruelist.length = 4 ∧ b1.getTruelist.count 0 = 2 ∧ b1.getFalselist = [] ∧
      ∃ s1, TargetCode.backpatch twoJumps b1.getTruelist 1 = Except.ok s1 ∧
        ∀ p ∈ [1, 0] ++ [0, 1], ∃ t1, s1.heap[p]? = some t1 ∧
          t1.destInstr = some (Address.instr (InstrAddress.mk 1)) :=
  have hl : ∀ p ∈ [1, 0] ++ [0, 1], ∃ t, twoJumps.heap[p]? = some t ∧ jumpClass t.getOp := by
    intro p hp
    have hp01 : p = 1 ∨ p = 0 := by
      simp only [List.cons_append, List.nil_append, List.mem_cons, List.mem_singleton,
        List.mem_nil_iff, or_false] at hp
      omega
    rcases hp01 with h | h
    · subst h
      exact ⟨_, rfl, by decide⟩
    · subst h
      exact ⟨_, rfl, by decide⟩
  match (merge_keeps_entries (fun p => p) { truelist := [1, 0], falselist := [] }
      StmtAttr.new [0, 1]).1 with
  | ⟨b1, hb1, _, hlen, hcnt, hf, hback⟩ =>
    ⟨hl, by decide, b1, hb1, hlen, hcnt 0, hf,
      hback twoJumps 1 ((TacInstr.new oprEnum.jmpOpr none none none).setValueNumber 1) hl rfl⟩

/-! ## Adding one instruction -/

/-- C22: for an instruction `x`, `addTrue(x)` returns exactly when the opcode of `x`
is jump-class, and then the true-list is the old one followed by `x` and the
false-list is unchanged; otherwise the assertion fails.  `addFalse(x)` is
symmetric.  `addNext(x)` appends `x` to the next-list. -/
theorem add_single_instruction (heap : List TacInstr) (b : BoolAttr) (a : StmtAttr) (x : Nat)
    (t : TacInstr) (hx : heap[x]? = some t) :
    ((∃ b1, b.addTrue heap x = Except.ok b1) ↔ jumpClass t.getOp) ∧
    (∀ b1, b.addTrue heap x = Except.ok b1 →
      b1.getTruelist = b.getTruelist ++ [x] ∧ b1.getFalselist = b.getFalselist) ∧
    (¬ jumpClass t.getOp → b.addTrue heap x = Except.error Fault.assertion) ∧
    ((∃ b1, b.addFalse heap x = Except.ok b1) ↔ jumpClass t.getOp) ∧
    (∀ b1, b.addFalse heap x = Except.ok b1 →
      b1.getFalselist = b.getFalselist ++ [x] ∧ b1.getTruelist = b.getTruelist) ∧
    (¬ jumpClass t.getOp → b.addFalse heap x = Except.error Fault.assertion) ∧
    (a.addNext x).getNextlist = a.getNextlist ++ [x] := by
  by_cases hj : jumpClass t.getOp
  · have h1 : b.addTrue heap x =
        Except.ok { truelist := b.truelist ++ [x], falselist := b.falselist } := by
      simp only [BoolAttr.addTrue, hx, hj, if_true]
    have h2 : b.addFalse heap x =
        Except.ok { truelist := b.truelist, falselist := b.falselist ++ [x] } := by
      simp only [BoolAttr.addFalse, hx, hj, if_true]
    refine ⟨⟨fun _ => hj, fun _ => ⟨_, h1⟩⟩, ?_, fun hn => absurd hj hn,
      ⟨fun _ => hj, fun _ => ⟨_, h2⟩⟩, ?_, fun hn => absurd hj hn, rfl⟩
    · intro b1 hb1
      rw [h1] at hb1
      injection hb1 with hb1
      subst hb1
      exact ⟨rfl, rfl⟩
    · intro b1 hb1
      rw [h2] at hb1
      injection hb1 with hb1
      subst hb1
      exact ⟨rfl, rfl⟩
  · have h1 : b.addTrue heap x = Except.error Fault.assertion := by
      simp only [BoolAttr.addTrue, hx, hj, if_false]
    have h2 : b.addFalse heap x = Except.error Fault.assertion := by
      simp only [BoolAttr.addFalse, hx, hj, if_false]
    refine ⟨⟨?_, fun h => absurd h hj⟩, ?_, fun _ => h1, ⟨?_, fun h => absurd h hj⟩, ?_,
      fun _ => h2, rfl⟩
    · intro ⟨b1, hb1⟩
      rw [h1] at hb1
      cases hb1
    · intro b1 hb1
      rw [h1] at hb1
      cases hb1
    · intro ⟨b1, hb1⟩
      rw [h2] at hb1
      cases hb1
    · intro b1 hb1
      rw [h2] at hb1
      cases hb1

/-- A witness of C22: in `jumpThenHalt` the jump can be added, Halt cannot. -/
theorem add_single_instruction_witness :
    (BoolAttr.new.addTrue jumpThenHalt.heap 0 =
      Except.ok { truelist := [0], falselist := [] }) ∧
    BoolAttr.new.addTrue jumpThenHalt.heap 1 = Except.error Fault.assertion :=
  ⟨match (add_single_instruction jumpThenHalt.heap BoolAttr.new StmtAttr.new 0
      ((TacInstr.new oprEnum.eq1condJmpOpr none none none).setValueNumber 0) rfl).1.mpr
      (by decide) with
    | ⟨b1, hb1⟩ =>
      match (add_single_instruction jumpThenHalt.heap BoolAttr.new StmtAttr.new 0
        ((TacInstr.new oprEnum.eq1condJmpOpr none none none).setValueNumber 0) rfl).2.1 b1 hb1 with
      | ⟨ht, hf⟩ => by
        rw [hb1]
        cases b1
        simp only [BoolAttr.getTruelist, BoolAttr.getFalselist] at ht hf
        subst ht
        subst hf
        rfl,
   (add_single_instruction jumpThenHalt.heap BoolAttr.new StmtAttr.new 1
      ((TacInstr.new oprEnum.haltOpr none none none).setValueNumber 1) rfl).2.2.1 (by decide)⟩

/-! ## The value of a variable -/

theorem getVarValue_letter (tbl : SimpleArraySymTbl) (m : Memory) (c : Char)
    (hc : 'a' ≤ c ∧ c ≤ 'z') :
    tbl.getVarValue m c = Except.error Fault.undefined := by
  obtain ⟨h1, _⟩ := hc
  have h1a : ('a' : Char).toNat ≤ c.toNat := h1
  have ha : ('a' : Char).toNat = 97 := rfl
  have hs : SYMSIZE = 26 := rfl
  unfold SimpleArraySymTbl.getVarValue
  rw [if_neg (by omega)]

/-- C23 does not hold of the code: after `put('a', intType)` in a fresh table,
`get('a')` returns the Variable at offset 0, whose storage `retrieve` finds, but
`getVarValue('a')` indexes `sym` with the character itself, 97, outside the 26
entries of the array. -/
theorem getVarValue_indexes_by_character :
    ∃ tbl1 ps1 v,
      SimpleArraySymTbl.new.put (AllocState.fresh (fun _ => 0) 0).ps 'a' typeName.intType =
        Except.ok (tbl1, ps1) ∧
      tbl1.get 'a' = Except.ok (some v) ∧
      symIndex 'a' = 0 ∧ ps1.mem.retrieve v.getOffset = Except.ok 0 ∧
      ('a' : Char).toNat = 97 ∧ ¬ ('a' : Char).toNat < SYMSIZE ∧
      tbl1.getVarValue ps1.mem 'a' = Except.error Fault.undefined :=
  ⟨_, _, _, rfl, rfl, by decide, rfl, rfl, by decide, rfl⟩

/-! ## Declarations do not touch other lexemes -/

/-- C27: for two distinct lexemes `c` and `d` in `'a'..'z'`, `put(c, t)` uses the
index `c - 'a'`, which is within 0..25 and differs from `d - 'a'`, and (in every
table, and every memory with room for the variable) `get(d)` returns after the
`put` what it returned before. -/
theorem put_keeps_other_lexemes (tbl : SimpleArraySymTbl) (ps : Process) (c d : Char)
    (t : typeName) (hc : 'a' ≤ c ∧ c ≤ 'z') (hd : 'a' ≤ d ∧ d ≤ 'z') (hne : c ≠ d)
    (h0 : 0 ≤ ps.mem.offset)
    (hcap : ps.mem.offset + (VarAddress.new c t 0).getWidth ≤ storageBytes) :
    (0 ≤ symIndex c ∧ symIndex c ≤ 25) ∧ symIndex c ≠ symIndex d ∧
    ∃ tbl1 ps1, tbl.put ps c t = Except.ok (tbl1, ps1) ∧ tbl1.get d = tbl.get d := by
  have hic := symIndex_range c hc
  have hid := symIndex_range d hd
  have hs : SYMSIZE = 26 := rfl
  refine ⟨⟨hic.1, by omega⟩, ?_, _, _, put_eq tbl ps c t hc h0 hcap,
    get_afterPut_other tbl ps c d t hic hid (fun e => hne e.symm)⟩
  intro e
  exact hne (symIndex_toNat_inj c d hic.1 hid.1 (by rw [e]))

/-- A witness of C27: declaring `y` in the table that holds `x`. -/
theorem put_keeps_other_lexemes_witness :
    (('a' ≤ 'y' ∧ 'y' ≤ 'z') ∧ ('a' ≤ 'x' ∧ 'x' ≤ 'z') ∧ 'y' ≠ 'x' ∧
      0 ≤ (afterPut SimpleArraySymTbl.new (AllocState.fresh (fun _ => 0) 0).ps 'x'
        typeName.intType).2.mem.offset ∧
      (afterPut SimpleArraySymTbl.new (AllocState.fresh (fun _ => 0) 0).ps 'x'
        typeName.intType).2.mem.offset +
        (VarAddress.new 'y' typeName.floatType 0).getWidth ≤ storageBytes) ∧
    ∃ tbl1 ps1,
      (afterPut SimpleArraySymTbl.new (AllocState.fresh (fun _ => 0) 0).ps 'x'
        typeName.intType).1.put
        (afterPut SimpleArraySymTbl.new (AllocState.fresh (fun _ => 0) 0).ps 'x'
          typeName.intType).2 'y' typeName.floatType = Except.ok (tbl1, ps1) ∧
      tbl1.get 'x' = Except.ok (some (VarAddress.new 'x' typeName.intType 0)) :=
  ⟨by decide,
    match (put_keeps_other_lexemes
      (afterPut SimpleArraySymTbl.new (AllocState.fresh (fun _ => 0) 0).ps 'x'
        typeName.intType).1
      (afterPut SimpleArraySymTbl.new (AllocState.fresh (fun _ => 0) 0).ps 'x'
        typeName.intType).2 'y' 'x' typeName.floatType
      (by decide) (by decide) (by decide) (by decide) (by decide)).2.2 with
    | ⟨tbl1, ps1, hput, hget⟩ => ⟨tbl1, ps1, hput, hget.trans rfl⟩⟩

/-! ## Stored values persist -/

theorem store_ok_inv (m : Memory) (val : List Byte) (width : Int) (r : Int × Memory)
    (h : m.store val width = Except.ok r) :
    0 ≤ width ∧ 0 ≤ m.offset ∧
      r.2.storage = memcpy m.storage m.offset.toNat val width.toNat := by
  unfold Memory.store at h
  by_cases hc : 0 ≤ width ∧ width ≤ val.length ∧ 0 ≤ m.offset ∧ m.offset + width ≤ storageBytes
  · rw [if_pos hc] at h
    injection h with h
    subst h
    exact ⟨hc.1, hc.2.2.1, rfl⟩
  · rw [if_neg hc] at h
    cases h

theorem MemCall.run_storage (st st1 : AllocState) (c : MemCall)
    (h : c.run st = Except.ok st1) :
    ∀ a : Nat, (a : Int) < st.ps.mem.offset → st1.ps.mem.storage a = st.ps.mem.storage a := by
  intro a ha
  cases c with
  | put lexeme type =>
    obtain ⟨_, heq⟩ := AllocCall.run_put_eq st st1 lexeme type h
    obtain ⟨_, _, _, _, _, h0⟩ := AllocCall.run_put_inv st st1 lexeme type h
    have hps : st1.ps = (afterPut st.tbl st.ps lexeme type).2 := congrArg Prod.snd heq
    rw [hps]
    exact memcpy_outside _ _ _ _ _ (Or.inl (by omega))
  | getNewTemp w =>
    obtain ⟨_, _, _, _, _, hst⟩ := AllocCall.run_temp_inv st st1 w h
    rw [hst]
  | store val w =>
    simp only [MemCall.run] at h
    cases hs : st.ps.mem.store val w with
    | error e => rw [hs] at h; cases h
    | ok r =>
      rw [hs] at h
      obtain ⟨_, h0, hst⟩ := store_ok_inv st.ps.mem val w r hs
      injection h with h
      subst h
      show r.2.storage a = st.ps.mem.storage a
      rw [hst]
      exact memcpy_outside _ _ _ _ _ (Or.inl (by omega))

theorem runMem_storage (calls : List MemCall) :
    ∀ st st1 : AllocState, (∀ c ∈ calls, c.inDomain) → runMem st calls = Except.ok st1 →
      st.ps.mem.offset ≤ st1.ps.mem.offset ∧
      ∀ a : Nat, (a : Int) < st.ps.mem.offset →
        st1.ps.mem.storage a = st.ps.mem.storage a := by
  induction calls with
  | nil =>
    intro st st1 _ h
    simp only [runMem] at h
    injection h with h
    subst h
    exact ⟨le_refl _, fun _ _ => rfl⟩
  | cons c cs ih =>
    intro st st1 hdom h
    simp only [runMem] at h
    cases hrun : c.run st with
    | error e => rw [hrun] at h; cases h
    | ok st2 =>
      rw [hrun] at h
      obtain ⟨hoff, _, _, _⟩ := MemCall.run_inv st st2 c hrun
      have hnn := MemCall.bytes_nonneg c (hdom c (List.mem_cons_self c cs))
      have hst := MemCall.run_storage st st2 c hrun
      obtain ⟨hle, hrest⟩ := ih st2 st1 (fun d hd => hdom d (List.mem_cons_of_mem c hd)) h
      refine ⟨by omega, ?_⟩
      intro a ha
      rw [hrest a (by omega), hst a ha]

theorem readBytes_congr (m m1 : Memory) (ptr w : Nat)
    (h : ∀ j : Nat, j < w → m1.storage (ptr + j) = m.storage (ptr + j)) :
    m1.readBytes ptr w = m.readBytes ptr w := by
  unfold Memory.readBytes
  by_cases hb : ptr + w ≤ storageBytes
  · rw [if_pos hb, if_pos hb]
    congr 1
    apply List.map_congr_left
    intro j hj
    exact h j (List.mem_range.mp hj)
  · rw [if_neg hb, if_neg hb]

/-- C26: in every run of `store`, `getNewTemp` with widths that are not negative,
and `put` calls, the cursor never decreases and every byte below the cursor as
it was at the start keeps its value, so that reading `w` bytes through
`retrieve(o)`, for a range `[o, o + w)` below that cursor (the bytes of an
earlier `store` or of a declared Variable), yields the same bytes as before.
The run returns whenever it stays inside the allocated block. -/
theorem stored_bytes_persist (st : AllocState) (calls : List MemCall)
    (hdom : ∀ c ∈ calls, c.inDomain) :
    (0 ≤ st.ps.mem.offset → st.ps.mem.offset + memBytes calls ≤ storageBytes →
      INT_MIN ≤ st.ps.counter → st.ps.counter + calls.length ≤ INT_MAX →
      ∃ st1, runMem st calls = Except.ok st1) ∧
    ∀ st1, runMem st calls = Except.ok st1 →
      st.ps.mem.offset ≤ st1.ps.mem.offset ∧
      (∀ a : Nat, (a : Int) < st.ps.mem.offset →
        st1.ps.mem.storage a = st.ps.mem.storage a) ∧
      ∀ (o : Int) (w ptr : Nat) (bytes : List Byte), o + w ≤ st.ps.mem.offset →
        st.ps.mem.retrieve o = Except.ok ptr → st.ps.mem.readBytes ptr w = Except.ok bytes →
        st1.ps.mem.retrieve o = Except.ok ptr ∧
          st1.ps.mem.readBytes ptr w = Except.ok bytes := by
  refine ⟨runMem_ok calls st hdom, ?_⟩
  intro st1 hrun
  obtain ⟨hle, hst⟩ := runMem_storage calls st st1 hdom hrun
  refine ⟨hle, hst, ?_⟩
  intro o w ptr bytes hrange hret hread
  refine ⟨hret, ?_⟩
  have hptr : 0 ≤ o ∧ ptr = o.toNat := by
    unfold Memory.retrieve at hret
    by_cases hc : 0 ≤ o ∧ o ≤ storageBytes
    · rw [if_pos hc] at hret
      injection hret with hret
      exact ⟨hc.1, hret.symm⟩
    · rw [if_neg hc] at hret
      cases hret
  rw [← hread]
  apply readBytes_congr
  intro j hj
  apply hst
  omega

/-- A witness of C26: the `int` 7 stored first is still read back after a
declaration, a temporary and another `store`. -/
theorem stored_bytes_persist_witness :
    (∀ c ∈ laterCalls, c.inDomain) ∧
    ∃ st1, runMem storedSeven laterCalls = Except.ok st1 ∧
      storedSeven.ps.mem.offset ≤ st1.ps.mem.offset ∧
      st1.ps.mem.retrieve 0 = Except.ok 0 ∧
      st1.ps.mem.readBytes 0 4 = Except.ok (intBytes 7) :=
  have hdom : ∀ c ∈ laterCalls, c.inDomain := by decide
  match (stored_bytes_persist storedSeven laterCalls hdom).1
      (by decide) (by decide) (by decide) (by decide) with
  | ⟨st1, hst1⟩ =>
    match (stored_bytes_persist storedSeven laterCalls hdom).2 st1 hst1 with
    | ⟨hle, _, hread⟩ =>
      ⟨hdom, st1, hst1, hle, hread 0 4 0 (intBytes 7) (by decide) rfl rfl⟩

/-! ## Rendering of addresses -/

theorem toDigits_length_le (n e : Nat) (he : 0 < e) (h : n < 10 ^ e) :
    (Nat.toDigits 10 n).length ≤ e :=
  Nat.toDigitsCore_length 10 (by decide) (n + 1) n e h he

theorem decimal_length_le_nine (i : Int) (hlo : -99999999 ≤ i) (hhi : i ≤ 999999999) :
    (decimal i).length ≤ 9 := by
  unfold decimal
  by_cases hneg : i < 0
  · rw [if_pos hneg]
    have h8 := toDigits_length_le i.natAbs 8 (by decide) (by omega)
    simp only [List.length_cons]
    omega
  · rw [if_neg hneg]
    exact toDigits_length_le i.toNat 9 (by decide) (by omega)

theorem decimal_length_le_three (i : Int) (hlo : -99 ≤ i) (hhi : i ≤ 999) :
    (decimal i).length ≤ 3 := by
  unfold decimal
  by_cases hneg : i < 0
  · rw [if_pos hneg]
    have h2 := toDigits_length_le i.natAbs 2 (by decide) (by omega)
    simp only [List.length_cons]
    omega
  · rw [if_neg hneg]
    exact toDigits_length_le i.toNat 3 (by decide) (by omega)

/-- C24, as stated, fails: the constant 1000000000 is rendered as `100000000` and
the constant -2147483648 as `-21474836`, the first nine characters of their
decimal literals. -/
theorem const_rendering_truncated :
    (ConstAddress.ofInt 1000000000).toString (fun _ => []) =
      Except.ok "100000000".toList ∧
    decimal 1000000000 = "1000000000".toList ∧
    (ConstAddress.ofInt (-2147483648)).toString (fun _ => []) =
      Except.ok "-21474836".toList ∧
    decimal (-2147483648) = "-2147483648".toList ∧
    "100000000".toList ≠ decimal 1000000000 ∧ "-21474836".toList ≠ decimal (-2147483648) :=
  ⟨congrArg Except.ok (by decide), by decide, congrArg Except.ok (by decide), by decide,
    by decide, by decide⟩

/-- C24, amended: an `int` constant renders as the first nine characters of its
decimal literal, which is the whole literal for -99999999 ≤ i ≤ 999999999; a
fraction constant renders as the first nine characters of numerator, `|`,
denominator; a Variable renders as its one-character lexeme; a Temporary with a
name from -99 to 999 renders as `t` followed by the decimal of the name; an
instruction reference is put out as the decimal of its position, and its
`toString` is the first nine characters of the position in parentheses. -/
theorem address_rendering (fmtFloat : Nat → List Char) :
    (∀ i : Int, (ConstAddress.ofInt i).toString fmtFloat = Except.ok ((decimal i).take 9)) ∧
    (∀ i : Int, -99999999 ≤ i → i ≤ 999999999 →
      (ConstAddress.ofInt i).toString fmtFloat = Except.ok (decimal i)) ∧
    (∀ f : fraction, (ConstAddress.ofFraction f).toString fmtFloat =
      Except.ok ((decimal f.num ++ '|' :: decimal f.denom).take 9)) ∧
    (∀ v : VarAddress, v.lexeme.toNat ≠ 0 → v.toString = [v.lexeme]) ∧
    (∀ t : TempAddress, -99 ≤ t.name → t.name ≤ 999 →
      t.toString = Except.ok ('t' :: decimal t.name)) ∧
    (∀ a : InstrAddress, printInstrAddress 0 (some a) = Except.ok (decimal a.arrayCodeIndex)) ∧
    (∀ a : InstrAddress,
      a.toString = ('(' :: (decimal a.arrayCodeIndex ++ [')'])).take 9) := by
  refine ⟨fun i => rfl, ?_, fun f => rfl, ?_, ?_, ?_, fun a => rfl⟩
  · intro i hlo hhi
    have hlen := decimal_length_le_nine i hlo hhi
    show Except.ok ((decimal i).take 9) = Except.ok (decimal i)
    rw [List.take_of_length_le hlen]
  · intro v hv
    unfold VarAddress.toString
    rw [if_neg hv]
  · intro t hlo hhi
    have hlen := decimal_length_le_three t.name hlo hhi
    unfold TempAddress.toString
    rw [if_pos (by omega)]
  · intro a
    simp [printInstrAddress, setw]

/-- A witness of the amended C24: the constant 5, the variable `x`, the
temporary `t12`. -/
theorem address_rendering_witness :
    ((-99999999 : Int) ≤ 5 ∧ (5 : Int) ≤ 999999999) ∧
    (ConstAddress.ofInt 5).toString (fun _ => []) = Except.ok "5".toList ∧
    (VarAddress.new 'x' typeName.intType 0).toString = "x".toList ∧
    TempAddress.toString { name := 12, offset := 0 } = Except.ok "t12".toList :=
  ⟨by decide,
    ((address_rendering (fun _ => [])).2.1 5 (by decide) (by decide)).trans
      (congrArg Except.ok (by decide)),
    ((address_rendering (fun _ => [])).2.2.2.1 (VarAddress.new 'x' typeName.intType 0)
      (by decide)).trans (by decide),
    ((address_rendering (fun _ => [])).2.2.2.2.1 { name := 12, offset := 0 }
      (by decide) (by decide)).trans (congrArg Except.ok (by decide))⟩

/-! ## Rendering of jumps -/

theorem print_jmp (fmtFloat : Nat → List Char) (instr : TacInstr) (vn d : InstrAddress)
    (hop : instr.getOp = oprEnum.jmpOpr) (hvn : instr.valueNumber = some vn)
    (hd : instr.destInstr = some (Address.instr d)) :
    printTacInstr fmtFloat instr =
      Except.ok (setw 4 (decimal vn.arrayCodeIndex) ++
        (": goto ".toList ++ decimal d.arrayCodeIndex)) := by
  have hop1 : instr.op = oprEnum.jmpOpr := hop
  unfold printTacInstr
  rw [hop]
  simp only [hvn, hd, hop1, printAll, printInstrAddress, printText, printOp, printDest]
  simp [setw, opTable, oprEnum.toNat]

theorem print_jmp_unresolved (fmtFloat : Nat → List Char) (instr : TacInstr)
    (hop : instr.getOp = oprEnum.jmpOpr) (hd : instr.destInstr = none) :
    printTacInstr fmtFloat instr = Except.error Fault.assertion := by
  unfold printTacInstr
  rw [hop]
  simp only [hd, ne_eq, not_true_eq_false, if_false]

theorem print_cond (fmtFloat : Nat → List Char) (instr : TacInstr) (vn d : InstrAddress)
    (a1 a2 : Address) (x1 x2 : List Char)
    (hop : instr.getOp = oprEnum.eq1condJmpOpr ∨ instr.getOp = oprEnum.eq2condJmpOpr)
    (hvn : instr.valueNumber = some vn) (h1 : instr.operand1 = some a1)
    (h2 : instr.operand2 = some a2) (hx1 : a1.toString fmtFloat = Except.ok x1)
    (hx2 : a2.toString fmtFloat = Except.ok x2)
    (hd : instr.destInstr = some (Address.instr d)) :
    printTacInstr fmtFloat instr =
      Except.ok (setw 4 (decimal vn.arrayCodeIndex) ++ (": if ".toList ++ (x1 ++
        (" == ".toList ++ (x2 ++ (" goto ".toList ++ decimal d.arrayCodeIndex)))))) := by
  rcases hop with hop | hop
  · unfold printTacInstr
    rw [hop]
    simp only [hvn, hd, h1, h2, hx1, hx2, printAll, printInstrAddress, printText, printDest,
      printAddress]
    simp [setw]
  · unfold printTacInstr
    rw [hop]
    simp only [hvn, hd, h1, h2, hx1, hx2, printAll, printInstrAddress, printText, printDest,
      printAddress]
    simp [setw]

theorem print_cond_unresolved (fmtFloat : Nat → List Char) (instr : TacInstr)
    (hop : instr.getOp = oprEnum.eq1condJmpOpr ∨ instr.getOp = oprEnum.eq2condJmpOpr)
    (h : instr.operand1 = none ∨ instr.operand2 = none ∨ instr.destInstr = none) :
    printTacInstr fmtFloat instr = Except.error Fault.assertion := by
  have hc : ¬ (instr.operand1 ≠ none ∧ instr.operand2 ≠ none ∧ instr.destInstr ≠ none) := by
    intro ⟨c1, c2, c3⟩
    rcases h with h | h | h
    · exact c1 h
    · exact c2 h
    · exact c3 h
  rcases hop with hop | hop
  · unfold printTacInstr
    rw [hop]
    simp only [hc, if_false]
  · unfold printTacInstr
    rw [hop]
    simp only [hc, if_false]

theorem printAll_no_assertion (parts : List (Except Fault (List Char)))
    (h : ∀ e ∈ parts, e ≠ Except.error Fault.assertion) :
    printAll parts ≠ Except.error Fault.assertion := by
  induction parts with
  | nil =>
    intro hbad
    simp only [printAll] at hbad
    cases hbad
  | cons e rest ih =>
    have he := h e (List.mem_cons_self e rest)
    have hrest := ih (fun x hx => h x (List.mem_cons_of_mem e hx))
    cases e with
    | error f =>
      simp only [printAll]
      exact he
    | ok text =>
      simp only [printAll]
      cases hr : printAll rest with
      | error f =>
        intro hbad
        injection hbad with hbad
        subst hbad
        exact hrest hr
      | ok more =>
        intro hbad
        cases hbad

theorem printAddress_no_assertion (fmtFloat : Nat → List Char) (slot : Option Address) :
    printAddress fmtFloat slot ≠ Except.error Fault.assertion := by
  cases slot with
  | none => intro h; simp only [printAddress] at h; cases h
  | some a =>
    cases a with
    | const c =>
      simp only [printAddress, Address.toString, ConstAddress.toString]
      split <;> (intro h; cases h)
    | var v => intro h; simp only [printAddress, Address.toString] at h; cases h
    | temp t =>
      simp only [printAddress, Address.toString, TempAddress.toString]
      split <;> (intro h; cases h)
    | instr i => intro h; simp only [printAddress, Address.toString] at h; cases h

theorem printInstrAddress_no_assertion (w : Nat) (slot : Option InstrAddress) :
    printInstrAddress w slot ≠ Except.error Fault.assertion := by
  cases slot <;> (intro h; simp only [printInstrAddress] at h; cases h)

theorem printDest_no_assertion (slot : Option Address) :
    printDest slot ≠ Except.error Fault.assertion := by
  unfold printDest
  split
  · exact printInstrAddress_no_assertion _ _
  · intro h
    cases h

theorem printText_no_assertion (text : String) :
    printText text ≠ Except.error Fault.assertion := by
  intro h
  cases h

theorem printOp_no_assertion (op : oprEnum) : printOp op ≠ Except.error Fault.assertion := by
  cases op <;> (intro h; cases h)

theorem print_jmp_resolved_no_assertion (fmtFloat : Nat → List Char) (instr : TacInstr)
    (hop : instr.getOp = oprEnum.jmpOpr) (hd : instr.destInstr ≠ none) :
    printTacInstr fmtFloat instr ≠ Except.error Fault.assertion := by
  unfold printTacInstr
  rw [hop]
  simp only [hd, ne_eq, not_false_eq_true, if_true]
  apply printAll_no_assertion
  intro e he
  simp only [List.mem_cons, List.mem_singleton, List.not_mem_nil, or_false] at he
  rcases he with h | h | h | h | h
  · rw [h]; exact printInstrAddress_no_assertion _ _
  · rw [h]; exact printText_no_assertion _
  · rw [h]; exact printOp_no_assertion _
  · rw [h]; exact printText_no_assertion _
  · rw [h]; exact printDest_no_assertion _

theorem print_cond_resolved_no_assertion (fmtFloat : Nat → List Char) (instr : TacInstr)
    (hop : instr.getOp = oprEnum.eq1condJmpOpr ∨ instr.getOp = oprEnum.eq2condJmpOpr)
    (hc : instr.operand1 ≠ none ∧ instr.operand2 ≠ none ∧ instr.destInstr ≠ none) :
    printTacInstr fmtFloat instr ≠ Except.error Fault.assertion := by
  have key : printAll [printInstrAddress 4 instr.valueNumber, printText ": ", printText "if ",
      printAddress fmtFloat instr.operand1, printText " == ",
      printAddress fmtFloat instr.operand2, printText " goto ", printDest instr.destInstr] ≠
      Except.error Fault.assertion := by
    apply printAll_no_assertion
    intro e he
    simp only [List.mem_cons, List.mem_singleton, List.not_mem_nil, or_false] at he
    rcases he with h | h | h | h | h | h | h | h
    · rw [h]; exact printInstrAddress_no_assertion _ _
    · rw [h]; exact printText_no_assertion _
    · rw [h]; exact printText_no_assertion _
    · rw [h]; exact printAddress_no_assertion _ _
    · rw [h]; exact printText_no_assertion _
    · rw [h]; exact printAddress_no_assertion _ _
    · rw [h]; exact printText_no_assertion _
    · rw [h]; exact printDest_no_assertion _
  rcases hop with hop | hop
  · unfold printTacInstr
    rw [hop]
    simp only [hc, ne_eq, not_false_eq_true, and_self, if_true]
    exact key
  · unfold printTacInstr
    rw [hop]
    simp only [hc, ne_eq, not_false_eq_true, and_self, if_true]
    exact key

theorem backpatch_single (s : CodeState) (p i : Nat) (t tgt : TacInstr)
    (hp : s.heap[p]? = some t) (hj : jumpClass t.getOp) (hi : s.heap[i]? = some tgt) :
    ∃ s1, TargetCode.backpatch s [p] i = Except.ok s1 ∧
      s1.heap[p]? = some { t with destInstr := tgt.getValueNumber.map Address.instr } := by
  have hstep := patch_ok_of_jump s.heap p i t tgt hp hj hi
  have hplt : p < s.heap.length := (List.getElem?_eq_some.mp hp).1
  refine ⟨{ heap := s.heap.set p { t with destInstr := tgt.getValueNumber.map Address.instr },
            code := s.code }, ?_, List.getElem?_set_self hplt⟩
  simp only [TargetCode.backpatch, backpatchLoop, hstep]

/-- C28: for an emitted instruction whose target slot is `NULL` or an instruction
reference and whose operands, where present, have a rendering: with opcode
`jmpOpr` the rendering returns exactly when `destInstr` is present, and fails on
the assertion exactly when it is absent; with opcode `eq1condJmpOpr` or
`eq2condJmpOpr` it returns exactly when `operand1`, `operand2` and `destInstr` are
all present, and fails on the assertion otherwise; the two conditional opcodes
give the same text on the same fields; and a jump with an absent target, which
fails to render, renders after `backpatch` against an emitted target. -/
theorem jump_rendering (fmtFloat : Nat → List Char) (instr : TacInstr) (vn : InstrAddress)
    (hvn : instr.getValueNumber = some vn)
    (hdest : instr.destInstr = none ∨ ∃ d, instr.destInstr = some (Address.instr d))
    (hop1 : ∀ a, instr.operand1 = some a → ∃ x, a.toString fmtFloat = Except.ok x)
    (hop2 : ∀ a, instr.operand2 = some a → ∃ x, a.toString fmtFloat = Except.ok x) :
    (instr.getOp = oprEnum.jmpOpr →
      ((∃ out, printTacInstr fmtFloat instr = Except.ok out) ↔ instr.destInstr ≠ none) ∧
      (printTacInstr fmtFloat instr = Except.error Fault.assertion ↔ instr.destInstr = none) ∧
      (∀ d, instr.destInstr = some (Address.instr d) →
        printTacInstr fmtFloat instr = Except.ok (setw 4 (decimal vn.arrayCodeIndex) ++
          (": goto ".toList ++ decimal d.arrayCodeIndex)))) ∧
    (instr.getOp = oprEnum.eq1condJmpOpr ∨ instr.getOp = oprEnum.eq2condJmpOpr →
      ((∃ out, printTacInstr fmtFloat instr = Except.ok out) ↔
        (instr.operand1 ≠ none ∧ instr.operand2 ≠ none ∧ instr.destInstr ≠ none)) ∧
      (printTacInstr fmtFloat instr = Except.error Fault.assertion ↔
        (instr.operand1 = none ∨ instr.operand2 = none ∨ instr.destInstr = none))) ∧
    printTacInstr fmtFloat { instr with op := oprEnum.eq1condJmpOpr } =
      printTacInstr fmtFloat { instr with op := oprEnum.eq2condJmpOpr } ∧
    (∀ (s : CodeState) (p i : Nat) (tgt : TacInstr) (k : InstrAddress),
      s.heap[p]? = some instr → jumpClass instr.getOp → instr.destInstr = none →
      (instr.getOp ≠ oprEnum.jmpOpr → instr.operand1 ≠ none ∧ instr.operand2 ≠ none) →
      s.heap[i]? = some tgt → tgt.getValueNumber = some k →
      printTacInstr fmtFloat instr = Except.error Fault.assertion ∧
      ∃ s1 t1 out, TargetCode.backpatch s [p] i = Except.ok s1 ∧ s1.heap[p]? = some t1 ∧
        t1.destInstr = some (Address.instr k) ∧ printTacInstr fmtFloat t1 = Except.ok out) := by
  have hvn1 : instr.valueNumber = some vn := hvn
  -- success of a conditional jump with everything present
  have hcond : ∀ t : TacInstr, t.valueNumber = some vn → t.operand1 = instr.operand1 →
      t.operand2 = instr.operand2 →
      (t.getOp = oprEnum.eq1condJmpOpr ∨ t.getOp = oprEnum.eq2condJmpOpr) →
      t.operand1 ≠ none → t.operand2 ≠ none → ∀ d, t.destInstr = some (Address.instr d) →
      ∃ out, printTacInstr fmtFloat t = Except.ok out := by
    intro t htvn ho1 ho2 hop h1 h2 d hd
    cases ha1 : t.operand1 with
    | none => exact absurd ha1 h1
    | some a1 =>
      cases ha2 : t.operand2 with
      | none => exact absurd ha2 h2
      | some a2 =>
        obtain ⟨x1, hx1⟩ := hop1 a1 (ho1 ▸ ha1)
        obtain ⟨x2, hx2⟩ := hop2 a2 (ho2 ▸ ha2)
        exact ⟨_, print_cond fmtFloat t vn d a1 a2 x1 x2 hop htvn ha1 ha2 hx1 hx2 hd⟩
  refine ⟨?_, ?_, rfl, ?_⟩
  · intro hop
    refine ⟨⟨?_, ?_⟩, ⟨?_, print_jmp_unresolved fmtFloat instr hop⟩,
      fun d hd => print_jmp fmtFloat instr vn d hop hvn1 hd⟩
    · intro ⟨out, hout⟩ hnone
      rw [print_jmp_unresolved fmtFloat instr hop hnone] at hout
      cases hout
    · intro hne
      rcases hdest with h | ⟨d, hd⟩
      · exact absurd h hne
      · exact ⟨_, print_jmp fmtFloat instr vn d hop hvn1 hd⟩
    · intro hfail
      by_contra hne
      exact print_jmp_resolved_no_assertion fmtFloat instr hop hne hfail
  · intro hop
    refine ⟨⟨?_, ?_⟩, ⟨?_, print_cond_unresolved fmtFloat instr hop⟩⟩
    · intro ⟨out, hout⟩
      by_contra hc
      have habs : instr.operand1 = none ∨ instr.operand2 = none ∨ instr.destInstr = none := by
        by_cases c1 : instr.operand1 = none
        · exact Or.inl c1
        · by_cases c2 : instr.operand2 = none
          · exact Or.inr (Or.inl c2)
          · by_cases c3 : instr.destInstr = none
            · exact Or.inr (Or.inr c3)
            · exact absurd ⟨c1, c2, c3⟩ hc
      rw [print_cond_unresolved fmtFloat instr hop habs] at hout
      cases hout
    · intro ⟨h1, h2, h3⟩
      rcases hdest with h | ⟨d, hd⟩
      · exact absurd h h3
      · exact hcond instr hvn1 rfl rfl hop h1 h2 d hd
    · intro hfail
      by_contra hc
      have hall : instr.operand1 ≠ none ∧ instr.operand2 ≠ none ∧ instr.destInstr ≠ none :=
        ⟨fun c => hc (Or.inl c), fun c => hc (Or.inr (Or.inl c)),
          fun c => hc (Or.inr (Or.inr c))⟩
      exact print_cond_resolved_no_assertion fmtFloat instr hop hall hfail
  · intro s p i tgt k hp hj hnone hops hi hk
    have hk1 : tgt.getValueNumber.map Address.instr = some (Address.instr k) := by
      rw [hk]; rfl
    obtain ⟨s1, hrun, ht1⟩ := backpatch_single s p i instr tgt hp hj hi
    rw [hk1] at ht1
    have hfail : printTacInstr fmtFloat instr = Except.error Fault.assertion := by
      rcases hj with h | h | h
      · exact print_jmp_unresolved fmtFloat instr h hnone
      · exact print_cond_unresolved fmtFloat instr (Or.inl h) (Or.inr (Or.inr hnone))
      · exact print_cond_unresolved fmtFloat instr (Or.inr h) (Or.inr (Or.inr hnone))
    have hok : ∃ out, printTacInstr fmtFloat
        { instr with destInstr := some (Address.instr k) } = Except.ok out := by
      by_cases hjm : instr.getOp = oprEnum.jmpOpr
      · exact ⟨_, print_jmp fmtFloat _ vn k hjm hvn1 rfl⟩
      · obtain ⟨h1, h2⟩ := hops hjm
        have hop : instr.getOp = oprEnum.eq1condJmpOpr ∨
            instr.getOp = oprEnum.eq2condJmpOpr := by
          rcases hj with h | h | h
          · exact absurd h hjm
          · exact Or.inl h
          · exact Or.inr h
        exact hcond _ hvn1 rfl rfl hop h1 h2 k rfl
    obtain ⟨out, hout⟩ := hok
    exact ⟨hfail, s1, _, out, hrun, ht1, rfl, hout⟩

/-- A witness of C28: in `twoJumps` the first jump does not render; after
`backpatch` against the second instruction its target is 1 and it renders. -/
theorem jump_rendering_witness :
    printTacInstr (fun _ => [])
      ((TacInstr.new oprEnum.jmpOpr none none none).setValueNumber 0) =
        Except.error Fault.assertion ∧
    ∃ s1 t1 out, TargetCode.backpatch twoJumps [0] 1 = Except.ok s1 ∧
      s1.heap[0]? = some t1 ∧ t1.destInstr = some (Address.instr (InstrAddress.mk 1)) ∧
      printTacInstr (fun _ => []) t1 = Except.ok out :=
  (jump_rendering (fun _ => [])
    ((TacInstr.new oprEnum.jmpOpr none none none).setValueNumber 0) (InstrAddress.mk 0)
    rfl (Or.inl rfl) (fun a h => by cases h) (fun a h => by cases h)).2.2.2
      twoJumps 0 1 ((TacInstr.new oprEnum.jmpOpr none none none).setValueNumber 1)
      (InstrAddress.mk 1) rfl (by decide) rfl (fun h => absurd rfl h) rfl rfl

/-! ## Disassembly -/

theorem reachable_slots_above (heap0 : List TacInstr) (garbage : Nat → Option Nat)
    (s : CodeState) (h : Reachable heap0 garbage s) :
    ∀ j : Nat, s.code.nextInstr ≤ j → s.code.codeArray j = garbage j := by
  induction h with
  | fresh => intro j _; rfl
  | gen s s1 c p _ hrun ih =>
    obtain ⟨_, _, hs1⟩ := GenCall.run_ok c s s1 p hrun
    subst hs1
    intro j hj
    have hj1 : s.code.nextInstr + 1 ≤ j := hj
    obtain ⟨hcode, _⟩ := emit_keeps s c.instr
    rw [hcode j (by omega)]
    exact ih j (by omega)
  | backpatch s s1 l i _ hrun ih =>
    obtain ⟨hcode, _⟩ := backpatch_ok_keeps s s1 l i hrun
    rw [hcode]
    exact ih

theorem runGens_reachable (heap0 : List TacInstr) (garbage : Nat → Option Nat)
    (calls : List GenCall) :
    ∀ s s1 : CodeState, Reachable heap0 garbage s → runGens s calls = Except.ok s1 →
      Reachable heap0 garbage s1 := by
  induction calls with
  | nil =>
    intro s s1 hr h
    simp only [runGens] at h
    injection h with h
    subst h
    exact hr
  | cons c cs ih =>
    intro s s1 hr h
    simp only [runGens] at h
    cases hrun : c.run s with
    | error e => rw [hrun] at h; cases h
    | ok r =>
      rw [hrun] at h
      exact ih r.2 s1 (Reachable.gen s r.2 c r.1 hr hrun) h

theorem printOutFrom_spec (fmtFloat : Nat → List Char) (s : CodeState) (m : Nat)
    (hm : m ≤ PRINTBOUND) (hnull : m < PRINTBOUND → s.code.codeArray m = none)
    (hrender : ∀ j : Nat, j < m → ∃ p t line, s.code.codeArray j = some p ∧
      s.heap[p]? = some t ∧ printTacInstr fmtFloat t = Except.ok line) (k : Nat) :
    ∀ i : Nat, i + k = PRINTBOUND → i ≤ m →
      ∃ lines, printOutFrom fmtFloat s i k = Except.ok lines ∧ lines.length = m - i ∧
        ∀ j : Nat, i ≤ j → j < m → ∃ p t line, s.code.codeArray j = some p ∧
          s.heap[p]? = some t ∧ printTacInstr fmtFloat t = Except.ok line ∧
          lines[j - i]? = some line := by
  induction k with
  | zero =>
    intro i hik him
    refine ⟨[], rfl, ?_, ?_⟩
    · simp only [List.length_nil]; omega
    · intro j hij hjm
      omega
  | succ k ih =>
    intro i hik him
    by_cases heq : i = m
    · have hnone := hnull (by omega)
      refine ⟨[], ?_, ?_, ?_⟩
      · simp only [printOutFrom, heq, hnone]
      · simp only [List.length_nil]; omega
      · intro j hij hjm
        omega
    · have hlt : i < m := by omega
      obtain ⟨p, t, line, hp, ht, hline⟩ := hrender i hlt
      obtain ⟨rest, hrest, hlen, hrestl⟩ := ih (i + 1) (by omega) (by omega)
      refine ⟨line :: rest, ?_, ?_, ?_⟩
      · simp only [printOutFrom, hp, ht, hline, hrest]
      · simp only [List.length_cons, hlen]; omega
      · intro j hij hjm
        by_cases hji : j = i
        · subst hji
          exact ⟨p, t, line, hp, ht, hline, by simp⟩
        · obtain ⟨q, u, l1, hq, hu, hl1, hget⟩ := hrestl j (by omega) hjm
          refine ⟨q, u, l1, hq, hu, hl1, ?_⟩
          have hidx : j - i = (j - (i + 1)) + 1 := by omega
          rw [hidx, List.getElem?_cons_succ]
          exact hget

theorem printOutFrom_congr (fmtFloat : Nat → List Char) (s s1 : CodeState) (m : Nat)
    (hheap : s1.heap = s.heap)
    (hcode : ∀ j : Nat, j ≤ m → s1.code.codeArray j = s.code.codeArray j)
    (hnull : m < PRINTBOUND → s.code.codeArray m = none) (k : Nat) :
    ∀ i : Nat, i + k = PRINTBOUND → i ≤ m →
      printOutFrom fmtFloat s1 i k = printOutFrom fmtFloat s i k := by
  induction k with
  | zero => intro i _ _; rfl
  | succ k ih =>
    intro i hik him
    simp only [printOutFrom, hcode i him, hheap]
    cases hp : s.code.codeArray i with
    | none => rfl
    | some p =>
      have hlt : i < m := by
        by_contra hge
        have heq : i = m := by omega
        have hnone := hnull (by omega)
        rw [← heq, hp] at hnone
        cases hnone
      simp only [ih (i + 1) (by omega) (by omega)]

theorem print_halt (fmtFloat : Nat → List Char) (t : TacInstr) (vn : InstrAddress)
    (hop : t.getOp = oprEnum.haltOpr) (hvn : t.valueNumber = some vn) :
    printTacInstr fmtFloat t =
      Except.ok (setw 4 (decimal vn.arrayCodeIndex) ++ ": HALT".toList) := by
  have hop1 : t.op = oprEnum.haltOpr := hop
  unfold printTacInstr
  rw [hop]
  simp only [hvn, hop1, printAll, printInstrAddress, printText, printOp]
  rfl

theorem runGens_halt_ops (calls : List GenCall) :
    ∀ s s1 : CodeState, (∀ c ∈ calls, c = genHalt) → runGens s calls = Except.ok s1 →
      (∀ (q : Nat) (t : TacInstr), s.heap[q]? = some t → t.getOp = oprEnum.haltOpr) →
      ∀ (q : Nat) (t : TacInstr), s1.heap[q]? = some t → t.getOp = oprEnum.haltOpr := by
  induction calls with
  | nil =>
    intro s s1 _ h hinv
    simp only [runGens] at h
    injection h with h
    subst h
    exact hinv
  | cons c cs ih =>
    intro s s1 hall h hinv
    simp only [runGens] at h
    cases hrun : c.run s with
    | error e => rw [hrun] at h; cases h
    | ok r =>
      rw [hrun] at h
      obtain ⟨_, _, hs1⟩ := GenCall.run_ok c s r.2 r.1 hrun
      apply ih r.2 s1 (fun d hd => hall d (List.mem_cons_of_mem c hd)) h
      intro q t hq
      rw [hs1] at hq
      simp only [CodeState.emit] at hq
      by_cases hlt : q < s.heap.length
      · rw [List.getElem?_append_left hlt] at hq
        exact hinv q t hq
      · rw [List.getElem?_append_right (by omega)] at hq
        have hmem := List.getElem?_mem hq
        simp only [List.mem_singleton] at hmem
        subst hmem
        rw [hall c (List.mem_cons_self c cs)]
        rfl

/-- C25 does not hold of the code: after 1000 calls `gen(haltOpr, NULL, NULL)` from
a fresh buffer with an all-`NULL` array, `getNextInstr()` is 1000 and every
instruction renders, but `printOut` puts out 999 lines, since its loop runs
while `i < 999` over an array of 1000 entries.  And on an empty buffer whose
slot 0 the constructor left with a value other than `NULL`, `printOut` reads
slot 0 and does not print nothing. -/
theorem printOut_stops_at_999 :
    (∃ s lines, runGens (CodeState.fresh [] (fun _ => none)) (List.replicate 1000 genHalt) =
        Except.ok s ∧
      s.code.getNextInstr = 1000 ∧
      (∀ i : Nat, i < 1000 → ∃ p t line, s.code.getInstr i = Except.ok (some p) ∧
        s.heap[p]? = some t ∧ printTacInstr (fun _ => []) t = Except.ok line) ∧
      TargetCode.printOut (fun _ => []) s = Except.ok lines ∧ lines.length = 999) ∧
    (CodeState.fresh [] (fun _ => some 0)).code.getNextInstr = 0 ∧
    TargetCode.printOut (fun _ => []) (CodeState.fresh [] (fun _ => some 0)) ≠ Except.ok [] := by
  refine ⟨?_, rfl, ?_⟩
  · obtain ⟨s, hrun, hnext⟩ :=
      runGens_length (List.replicate 1000 genHalt) (CodeState.fresh [] (fun _ => none))
        (by rw [List.length_replicate]; exact Nat.le_of_eq (Nat.zero_add 1000))
    have hn : s.code.nextInstr = 1000 := by
      rw [hnext, List.length_replicate]; exact Nat.zero_add 1000
    have hreach := runGens_reachable [] (fun _ => none) _ _ s Reachable.fresh hrun
    obtain ⟨_, hinv⟩ := reachable_inv [] (fun _ => none) s hreach
    have hops := runGens_halt_ops (List.replicate 1000 genHalt) _ s
      (fun c hc => List.eq_of_mem_replicate hc) hrun
      (by intro q t hq; simp [CodeState.fresh] at hq)
    have hrender : ∀ j : Nat, j < 1000 → ∃ p t line, s.code.codeArray j = some p ∧
        s.heap[p]? = some t ∧ printTacInstr (fun _ => []) t = Except.ok line := by
      intro j hj
      obtain ⟨p, t, hp, ht, hvn⟩ := hinv j (by omega)
      exact ⟨p, t, _, hp, ht, print_halt _ t _ (hops p t ht) hvn⟩
    obtain ⟨lines, hlines, hlen, _⟩ := printOutFrom_spec (fun _ => []) s PRINTBOUND
      (le_refl _) (fun h => absurd h (lt_irrefl _))
      (fun j hj => hrender j (by have : PRINTBOUND = 999 := rfl; omega))
      PRINTBOUND 0 (by simp) (Nat.zero_le _)
    refine ⟨s, lines, hrun, ?_, ?_, hlines, ?_⟩
    · simp only [TargetCode.getNextInstr, hn]; rfl
    · intro i hi
      obtain ⟨p, t, line, hp, ht, hline⟩ := hrender i hi
      refine ⟨p, t, line, ?_, ht, hline⟩
      rw [getInstr_lt s.code i (by simp only [CODESIZE]; omega), hp]
    · rw [hlen]; rfl
  · intro h
    cases h

/-- Where the disassembly is complete: for a code buffer reached from a fresh
`TargetCode` with at most 999 instructions emitted, all of them renderable, and,
when fewer than 999, with `NULL` in the slot just after the last one, `printOut`
puts out exactly one line per instruction, the `i`-th line being the rendering
of `getInstr(i)`, whose value number is `i`; it puts out nothing for an empty
buffer; and its output does not depend on the slots after position
`getNextInstr()`. -/
theorem printOut_lines (fmtFloat : Nat → List Char) (heap0 : List TacInstr)
    (garbage : Nat → Option Nat) (s : CodeState) (hreach : Reachable heap0 garbage s)
    (hn : s.code.getNextInstr ≤ 999)
    (hnull : s.code.getNextInstr < 999 → garbage s.code.nextInstr = none)
    (hrender : ∀ (i p : Nat) (t : TacInstr), (i : Int) < s.code.getNextInstr →
      s.code.getInstr i = Except.ok (some p) → s.heap[p]? = some t →
      ∃ line, printTacInstr fmtFloat t = Except.ok line) :
    ∃ lines, TargetCode.printOut fmtFloat s = Except.ok lines ∧
      (lines.length : Int) = s.code.getNextInstr ∧
      (∀ i : Nat, (i : Int) < s.code.getNextInstr →
        ∃ p t line, s.code.getInstr i = Except.ok (some p) ∧ s.heap[p]? = some t ∧
          t.getValueNumber = some (InstrAddress.mk i) ∧
          printTacInstr fmtFloat t = Except.ok line ∧ lines[i]? = some line) ∧
      (s.code.getNextInstr = 0 → lines = []) ∧
      ∀ other : Nat → Option Nat, (∀ j : Nat, j ≤ s.code.nextInstr → other j = s.code.codeArray j) →
        TargetCode.printOut fmtFloat
          { heap := s.heap, code := { codeArray := other, nextInstr := s.code.nextInstr } } =
          Except.ok lines := by
  have hB : PRINTBOUND = 999 := rfl
  have hC : CODESIZE = 1000 := rfl
  have hn1 : s.code.nextInstr ≤ 999 := Int.ofNat_le.mp hn
  obtain ⟨_, hinv⟩ := reachable_inv heap0 garbage s hreach
  have habove := reachable_slots_above heap0 garbage s hreach
  have hnone : s.code.nextInstr < PRINTBOUND → s.code.codeArray s.code.nextInstr = none := by
    intro hlt
    rw [habove _ (le_refl _)]
    exact hnull (by simp only [TargetCode.getNextInstr]; omega)
  have hslots : ∀ j : Nat, j < s.code.nextInstr → ∃ p t line, s.code.codeArray j = some p ∧
      s.heap[p]? = some t ∧ printTacInstr fmtFloat t = Except.ok line := by
    intro j hj
    obtain ⟨p, t, hp, ht, _⟩ := hinv j hj
    obtain ⟨line, hline⟩ := hrender j p t (Int.ofNat_lt.mpr hj)
      (by rw [getInstr_lt s.code j (by omega), hp]) ht
    exact ⟨p, t, line, hp, ht, hline⟩
  obtain ⟨lines, hlines, hlen, hall⟩ := printOutFrom_spec fmtFloat s s.code.nextInstr
    (by omega) hnone hslots PRINTBOUND 0 (by simp) (Nat.zero_le _)
  refine ⟨lines, hlines, ?_, ?_, ?_, ?_⟩
  · simp only [TargetCode.getNextInstr, hlen, Nat.sub_zero]
  · intro i hi
    have hi1 : i < s.code.nextInstr := Int.ofNat_lt.mp hi
    obtain ⟨p, t, hp, ht, hvn⟩ := hinv i hi1
    obtain ⟨q, u, line, hq, hu, hline, hget⟩ := hall i (Nat.zero_le _) hi1
    rw [hp] at hq
    injection hq with hq
    subst hq
    rw [ht] at hu
    injection hu with hu
    subst hu
    refine ⟨p, t, line, ?_, ht, hvn, hline, by simpa using hget⟩
    rw [getInstr_lt s.code i (by omega), hp]
  · intro hzero
    have hz : s.code.nextInstr = 0 := by
      have : ((s.code.nextInstr : Nat) : Int) = 0 := hzero
      omega
    rw [hz] at hlen
    exact List.eq_nil_of_length_eq_zero (by simpa using hlen)
  · intro other hother
    rw [← hlines]
    exact printOutFrom_congr fmtFloat s
      { heap := s.heap, code := { codeArray := other, nextInstr := s.code.nextInstr } }
      s.code.nextInstr rfl hother hnone PRINTBOUND 0 (by simp) (Nat.zero_le _)

theorem twoHalts_reachable : Reachable [] (fun _ => none) twoHalts :=
  Reachable.gen _ _ genHalt 1
    (Reachable.gen _ _ genHalt 0 Reachable.fresh (GenCall.run_eq _ _ (by decide)))
    (GenCall.run_eq _ _ (by decide))

theorem twoHalts_render (p : Nat) (t : TacInstr) (ht : twoHalts.heap[p]? = some t) :
    ∃ line, printTacInstr (fun _ => []) t = Except.ok line := by
  have hmem := List.getElem?_mem ht
  have hcases : t = genHalt.instr.setValueNumber 0 ∨ t = genHalt.instr.setValueNumber 1 := by
    simpa [twoHalts, CodeState.emit, CodeState.fresh, TargetCode.new] using hmem
  rcases hcases with h | h
  · subst h
    exact ⟨_, print_halt _ _ (InstrAddress.mk 0) rfl rfl⟩
  · subst h
    exact ⟨_, print_halt _ _ (InstrAddress.mk 1) rfl rfl⟩

/-- The two lines of `twoHalts` are put out. -/
theorem printOut_lines_witness :
    (Reachable [] (fun _ => none) twoHalts ∧ twoHalts.code.getNextInstr ≤ 999) ∧
    ∃ lines, TargetCode.printOut (fun _ => []) twoHalts = Except.ok lines ∧
      (lines.length : Int) = twoHalts.code.getNextInstr :=
  match printOut_lines (fun _ => []) [] (fun _ => none) twoHalts twoHalts_reachable
      (by decide) (fun _ => rfl) (fun _ p t _ _ ht => twoHalts_render p t ht) with
  | ⟨lines, hlines, hlen, _⟩ => ⟨⟨twoHalts_reachable, by decide⟩, lines, hlines, hlen⟩

end TinyComp
